import Mathlib

/-!
# LeScanManagerImpl (chromecast/device/bluetooth/le/le_scan_manager_impl.cc)

A shallow embedding of the BLE scan manager.  The manager object is a record of
its data members; every member function is a function from the old record to
the new record together with the effects it performed, in program order:
driver calls (with the value the driver returned), log lines, observer
notifications and reply-callback invocations.  Tasks posted to the IO task
runner are returned separately.  A failed DCHECK (or a null dereference) is a
fatal error and is the `Except.error` result.

The values returned by the driver (`StartScan`, `StopScan`) are arguments of the
member functions that may call it, so that a theorem quantifying over them
covers every behaviour of the driver.

`std::sort` is code of the C++ standard library.  The general theorems take it
by its contract.  The namespace `std` below transcribes the implementation of
libstdc++ (GCC 12, `bits/stl_algo.h` and `bits/stl_heap.h`), so that the member
functions can be evaluated on a concrete store with the sort that is linked;
this implementation is proved to obey the contract (`sort_perm_sorted`).
-/

/-! ## `std::sort` as implemented in libstdc++

The vector is a list and an iterator is an index into it, counted from the
beginning of the vector.  Every function returns the vector it leaves behind
(and the iterator it returns, if any).  A loop of the source is a recursive
function over the number of iterations that remain or over the index it moves
down; where the source gives no count, the function takes a bound on the
number of iterations, and the bound passed is proved never to be reached
(section `StdSortFuel`).  Reading or writing outside the vector is undefined in
C++; here such a comparison is `false` and such an assignment does nothing. -/

namespace std

variable {α : Type}

/-- The constant `_S_threshold` of `bits/stl_algo.h`. -/
def _S_threshold : Nat := 16

/-- The halving loop that finds the position of the highest set bit.  The
first argument bounds the number of halvings. -/
def __lg.loop : Nat → Nat → Nat
  | 0, _ => 0
  | fuel + 1, n => if 2 ≤ n then __lg.loop fuel (n / 2) + 1 else 0

/-- The function `std::__lg`: the position of the highest set bit of `n`, in
the source `sizeof(long) * __CHAR_BIT__ - 1 - __builtin_clzl(n)`. -/
def __lg (n : Nat) : Nat := __lg.loop n n

/-- The call `comp(i, j)` of the comparison on two iterators. -/
def comp_iter (comp : α → α → Bool) (xs : List α) (i j : Nat) : Bool :=
  match xs[i]?, xs[j]? with
  | some a, some b => comp a b
  | _, _ => false

/-- The call `comp(val, j)` of the comparison on a value and an iterator. -/
def comp_val_iter (comp : α → α → Bool) (xs : List α) (val : α) (j : Nat) : Bool :=
  match xs[j]? with
  | some b => comp val b
  | none => false

/-- The call `comp(i, val)` of the comparison on an iterator and a value. -/
def comp_iter_val (comp : α → α → Bool) (xs : List α) (i : Nat) (val : α) : Bool :=
  match xs[i]? with
  | some a => comp a val
  | none => false

/-- The assignment `*i = std::move(*j)`. -/
def assign (i j : Nat) (xs : List α) : List α :=
  match xs[j]? with
  | some v => xs.set i v
  | none => xs

/-- The function `std::iter_swap`. -/
def iter_swap (i j : Nat) (xs : List α) : List α :=
  match xs[i]?, xs[j]? with
  | some a, some b => (xs.set i b).set j a
  | _, _ => xs

/-- The function `std::__move_median_to_first`. -/
def __move_median_to_first (comp : α → α → Bool) (result a b c : Nat) (xs : List α) : List α :=
  if comp_iter comp xs a b then
    if comp_iter comp xs b c then iter_swap result b xs
    else if comp_iter comp xs a c then iter_swap result c xs
    else iter_swap result a xs
  else if comp_iter comp xs a c then iter_swap result a xs
  else if comp_iter comp xs b c then iter_swap result c xs
  else iter_swap result b xs

/-- The loop of `std::__unguarded_linear_insert` and the assignment after it.
The second argument is `__last`; `__next` is the position before it and `val`
is the local `__val`. -/
def __unguarded_linear_insert.loop (comp : α → α → Bool) (val : α) : Nat → List α → List α
  | 0, xs => xs.set 0 val
  | next + 1, xs =>
    if comp_val_iter comp xs val next then
      __unguarded_linear_insert.loop comp val next (assign (next + 1) next xs)
    else xs.set (next + 1) val

/-- The function `std::__unguarded_linear_insert`. -/
def __unguarded_linear_insert (comp : α → α → Bool) (last : Nat) (xs : List α) : List α :=
  match xs[last]? with
  | some val => __unguarded_linear_insert.loop comp val last xs
  | none => xs

/-- The body of the loop of `std::__insertion_sort` at the iterator `i`.  In
the first branch `__val` is saved, `[first, i)` is moved one position up
(`_GLIBCXX_MOVE_BACKWARD3(first, i, i + 1)`) and `__val` is stored at `first`. -/
def __insertion_sort.body (comp : α → α → Bool) (first i : Nat) (xs : List α) : List α :=
  if comp_iter comp xs i first then
    match xs[i]? with
    | some val => xs.take first ++ val :: ((xs.drop first).take (i - first) ++ xs.drop (i + 1))
    | none => xs
  else __unguarded_linear_insert comp i xs

/-- The loop of `std::__insertion_sort`: `count` iterations, the next one at
the iterator `i`. -/
def __insertion_sort.loop (comp : α → α → Bool) (first : Nat) : Nat → Nat → List α → List α
  | 0, _, xs => xs
  | count + 1, i, xs =>
    __insertion_sort.loop comp first count (i + 1) (__insertion_sort.body comp first i xs)

/-- The function `std::__insertion_sort`. -/
def __insertion_sort (comp : α → α → Bool) (first last : Nat) (xs : List α) : List α :=
  if first = last then xs
  else __insertion_sort.loop comp first (last - (first + 1)) (first + 1) xs

/-- The loop of `std::__unguarded_insertion_sort`: `count` iterations, the next
one at the iterator `i`. -/
def __unguarded_insertion_sort.loop (comp : α → α → Bool) : Nat → Nat → List α → List α
  | 0, _, xs => xs
  | count + 1, i, xs =>
    __unguarded_insertion_sort.loop comp count (i + 1) (__unguarded_linear_insert comp i xs)

/-- The function `std::__unguarded_insertion_sort`. -/
def __unguarded_insertion_sort (comp : α → α → Bool) (first last : Nat) (xs : List α) : List α :=
  __unguarded_insertion_sort.loop comp (last - first) first xs

/-- The function `std::__final_insertion_sort`. -/
def __final_insertion_sort (comp : α → α → Bool) (first last : Nat) (xs : List α) : List α :=
  if last - first > _S_threshold then
    __unguarded_insertion_sort comp (first + _S_threshold) last
      (__insertion_sort comp first (first + _S_threshold) xs)
  else __insertion_sort comp first last xs

/-- The loop `while (comp(first, pivot)) ++first;` of
`std::__unguarded_partition`; it returns the new `first`.  The first argument
bounds the number of iterations. -/
def __unguarded_partition.up (comp : α → α → Bool) (pivot : Nat) (xs : List α) : Nat → Nat → Nat
  | 0, first => first
  | fuel + 1, first =>
    if comp_iter comp xs first pivot then __unguarded_partition.up comp pivot xs fuel (first + 1)
    else first

/-- The loop `while (comp(pivot, last)) --last;` of
`std::__unguarded_partition`; it returns the new `last`. -/
def __unguarded_partition.down (comp : α → α → Bool) (pivot : Nat) (xs : List α) : Nat → Nat
  | 0 => 0
  | last + 1 =>
    if comp_iter comp xs pivot (last + 1) then __unguarded_partition.down comp pivot xs last
    else last + 1

/-- The loop `while (true)` of `std::__unguarded_partition`.  The first
argument bounds the number of iterations. -/
def __unguarded_partition.loop (comp : α → α → Bool) (pivot : Nat) :
    Nat → Nat → Nat → List α → Nat × List α
  | 0, first, _, xs => (first, xs)
  | fuel + 1, first, last, xs =>
    let first := __unguarded_partition.up comp pivot xs xs.length first
    let last := __unguarded_partition.down comp pivot xs (last - 1)
    if first < last then
      __unguarded_partition.loop comp pivot fuel (first + 1) last (iter_swap first last xs)
    else (first, xs)

/-- The function `std::__unguarded_partition`: the iterator it returns and the
vector.  Every iteration but the last moves `first` up, and `first` stays
within the vector, so that the length of the vector bounds the iterations. -/
def __unguarded_partition (comp : α → α → Bool) (first last pivot : Nat) (xs : List α) :
    Nat × List α :=
  __unguarded_partition.loop comp pivot xs.length first last xs

/-- The function `std::__unguarded_partition_pivot`. -/
def __unguarded_partition_pivot (comp : α → α → Bool) (first last : Nat) (xs : List α) :
    Nat × List α :=
  let mid := first + (last - first) / 2
  __unguarded_partition comp (first + 1) last first
    (__move_median_to_first comp first (first + 1) mid (last - 1) xs)

/-- The loop of `std::__push_heap` and the assignment after it.  The first
argument bounds the number of iterations. -/
def __push_heap.loop (comp : α → α → Bool) (first topIndex : Nat) (value : α) :
    Nat → Nat → List α → List α
  | 0, holeIndex, xs => xs.set (first + holeIndex) value
  | fuel + 1, holeIndex, xs =>
    let parent := (holeIndex - 1) / 2
    if holeIndex > topIndex ∧ comp_iter_val comp xs (first + parent) value = true then
      __push_heap.loop comp first topIndex value fuel parent
        (assign (first + holeIndex) (first + parent) xs)
    else xs.set (first + holeIndex) value

/-- The function `std::__push_heap`.  Every iteration moves `holeIndex` down. -/
def __push_heap (comp : α → α → Bool) (first holeIndex topIndex : Nat) (value : α)
    (xs : List α) : List α :=
  __push_heap.loop comp first topIndex value (holeIndex + 1) holeIndex xs

/-- The first loop of `std::__adjust_heap`: it returns `__holeIndex`,
`__secondChild` and the vector.  The first argument bounds the number of
iterations. -/
def __adjust_heap.loop (comp : α → α → Bool) (first len : Nat) :
    Nat → Nat → Nat → List α → Nat × Nat × List α
  | 0, holeIndex, secondChild, xs => (holeIndex, secondChild, xs)
  | fuel + 1, holeIndex, secondChild, xs =>
    if secondChild < (len - 1) / 2 then
      let secondChild := 2 * (secondChild + 1)
      let secondChild :=
        if comp_iter comp xs (first + secondChild) (first + (secondChild - 1)) then secondChild - 1
        else secondChild
      __adjust_heap.loop comp first len fuel secondChild secondChild
        (assign (first + holeIndex) (first + secondChild) xs)
    else (holeIndex, secondChild, xs)

/-- The function `std::__adjust_heap`.  Every iteration of its loop moves
`__secondChild` up and keeps it below `len`.  In the source `(len - 2) / 2` is
signed and is -1 for a `len` of 0, which no `__secondChild` equals: hence the
condition `2 ≤ len`. -/
def __adjust_heap (comp : α → α → Bool) (first holeIndex len : Nat) (value : α)
    (xs : List α) : List α :=
  let topIndex := holeIndex
  let (holeIndex, secondChild, xs) := __adjust_heap.loop comp first len len holeIndex holeIndex xs
  if len % 2 = 0 ∧ 2 ≤ len ∧ secondChild = (len - 2) / 2 then
    let secondChild := 2 * (secondChild + 1)
    __push_heap comp first (secondChild - 1) topIndex value
      (assign (first + holeIndex) (first + (secondChild - 1)) xs)
  else __push_heap comp first holeIndex topIndex value xs

/-- The function `std::__pop_heap`. -/
def __pop_heap (comp : α → α → Bool) (first last result : Nat) (xs : List α) : List α :=
  match xs[result]? with
  | some value => __adjust_heap comp first 0 (last - first) value (assign result first xs)
  | none => xs

/-- The loop of `std::__make_heap`, for `__parent` from the second argument
down to 0. -/
def __make_heap.loop (comp : α → α → Bool) (first len : Nat) : Nat → List α → List α
  | 0, xs =>
    match xs[first]? with
    | some value => __adjust_heap comp first 0 len value xs
    | none => xs
  | parent + 1, xs =>
    match xs[first + (parent + 1)]? with
    | some value =>
      __make_heap.loop comp first len parent (__adjust_heap comp first (parent + 1) len value xs)
    | none => xs

/-- The function `std::__make_heap`. -/
def __make_heap (comp : α → α → Bool) (first last : Nat) (xs : List α) : List α :=
  if last - first < 2 then xs
  else __make_heap.loop comp first (last - first) ((last - first - 2) / 2) xs

/-- The loop of `std::__sort_heap`: `count` iterations remain when
`last - first` is `count + 1`. -/
def __sort_heap.loop (comp : α → α → Bool) (first : Nat) : Nat → List α → List α
  | 0, xs => xs
  | count + 1, xs =>
    __sort_heap.loop comp first count
      (__pop_heap comp first (first + (count + 1)) (first + (count + 1)) xs)

/-- The function `std::__sort_heap`. -/
def __sort_heap (comp : α → α → Bool) (first last : Nat) (xs : List α) : List α :=
  __sort_heap.loop comp first (last - first - 1) xs

/-- The loop of `std::__heap_select`: `count` iterations, the next one at the
iterator `i`. -/
def __heap_select.loop (comp : α → α → Bool) (first middle : Nat) : Nat → Nat → List α → List α
  | 0, _, xs => xs
  | count + 1, i, xs =>
    __heap_select.loop comp first middle count (i + 1)
      (if comp_iter comp xs i first then __pop_heap comp first middle i xs else xs)

/-- The function `std::__heap_select`. -/
def __heap_select (comp : α → α → Bool) (first middle last : Nat) (xs : List α) : List α :=
  __heap_select.loop comp first middle (last - middle) middle (__make_heap comp first middle xs)

/-- The function `std::__partial_sort`. -/
def __partial_sort (comp : α → α → Bool) (first middle last : Nat) (xs : List α) : List α :=
  __sort_heap comp first middle (__heap_select comp first middle last xs)

/-- The function `std::__introsort_loop`; its first argument is
`__depth_limit`.  An iteration of the `while` loop sorts `[cut, last)` by the
recursive call and goes on with `[first, cut)`. -/
def __introsort_loop (comp : α → α → Bool) : Nat → Nat → Nat → List α → List α
  | 0, first, last, xs =>
    if last - first > _S_threshold then __partial_sort comp first last last xs else xs
  | depth_limit + 1, first, last, xs =>
    if last - first > _S_threshold then
      let (cut, xs) := __unguarded_partition_pivot comp first last xs
      __introsort_loop comp depth_limit first cut (__introsort_loop comp depth_limit cut last xs)
    else xs

/-- The function `std::__sort`. -/
def __sort (comp : α → α → Bool) (first last : Nat) (xs : List α) : List α :=
  if first ≠ last then
    __final_insertion_sort comp first last
      (__introsort_loop comp (__lg (last - first) * 2) first last xs)
  else xs

/-- The call `std::sort(xs.begin(), xs.end(), comp)`. -/
def sort (comp : α → α → Bool) (xs : List α) : List α :=
  __sort comp 0 xs.length xs

end std

namespace chromecast.bluetooth

/-- Identity of a thread (task runner); `BelongsToCurrentThread` compares the
runner with the thread the call is made on. -/
abbrev ThreadId := Nat

/-- The bytes of an advertisement, `std::vector<uint8_t>`. -/
abbrev Bytes := List (Fin 256)

/-- The constant `kMaxMessagesInQueue` of the anonymous namespace. -/
def kMaxMessagesInQueue : Nat := 5

/-- Value of an `int32_t` after an arithmetic result `x` is stored in it
(two's complement wraparound). -/
def int32_wrap (x : Int) : Int := (x + 2147483648) % 4294967296 - 2147483648

/-- Modelled from the spec: `bluetooth_v2_shlib::LeScanner::ScanResult`, the raw
event pushed by the driver (address, raw advertisement bytes, signal strength);
its declaration is not among the sources.  The address type is a parameter. -/
structure LeScanner.ScanResult (Addr : Type) where
  addr : Addr
  adv_data : Bytes
  rssi : Int
deriving DecidableEq, Repr

/-- Modelled from the spec: `LeScanResult` (le_scan_result.h is not among the
sources), restricted to the members this file reads or writes. -/
structure LeScanResult (Addr : Type) where
  addr : Addr
  adv_data : Bytes
  rssi : Int
deriving DecidableEq, Repr

/-- Modelled from the spec: `ScanFilter` is a predicate over a scan result
(`scan_filter->Matches(scan_result)`); its declaration is not among the
sources. -/
structure ScanFilter (Addr : Type) where
  Matches : LeScanResult Addr → Bool

/-- Code outside this file that the member functions call.
`SetAdvData bytes` is `LeScanResult::SetAdvData` on a default-constructed
result: `none` when it returns false, `some d` when it returns true having set
the member `adv_data` to `d`.  `std_sort comp xs` is `std::sort`. -/
structure Externals (Addr : Type) where
  SetAdvData : Bytes → Option Bytes
  std_sort : (LeScanResult Addr → LeScanResult Addr → Bool) →
    List (LeScanResult Addr) → List (LeScanResult Addr)

/-- A reply callback: an identified callback of the caller, possibly wrapped by
`BindToCurrentSequence`. -/
inductive Callback where
  | mk (id : Nat)
  | bound (sequence : ThreadId) (cb : Callback)
deriving DecidableEq, Repr

/-- The wrapper `BindToCurrentSequence(cb)` evaluated on thread `cur`. -/
def BindToCurrentSequence (cur : ThreadId) (cb : Callback) : Callback :=
  Callback.bound cur cb

/-- Failures that abort the program. -/
inductive Fatal where
  | DCHECK_io_task_runner
  | DCHECK_BelongsToCurrentThread
  | DCHECK_EQ_num_removed
  | null_io_task_runner
deriving DecidableEq, Repr

/-- One effect performed by a member function.  `RunRequestScanCallback cb h` is
`std::move(cb).Run(h)` with `h = none` for `nullptr` and `h = some id` for a
`ScanHandleImpl` bound to identifier `id`. -/
inductive Event (Addr : Type) where
  | StartScan (ret : Bool)
  | StopScan (ret : Bool)
  | LogError (msg : String)
  | OnScanEnableChanged (enabled : Bool)
  | OnNewScanResult (scan_result : LeScanResult Addr)
  | RunRequestScanCallback (cb : Callback) (handle : Option Int)
  | RunGetScanResultsCallback (cb : Callback) (results : List (LeScanResult Addr))
deriving DecidableEq, Repr

/-- A task posted to `io_task_runner_` by `RUN_ON_IO_THREAD`. -/
inductive PostedTask (Addr : Type) where
  | RequestScan (cb : Callback)
  | GetScanResults (cb : Callback) (scan_filter : Option (ScanFilter Addr))
  | ClearScanResults

/-- The data members of `LeScanManagerImpl`.  The class declaration
(le_scan_manager_impl.h) is not among the sources: `scan_handle_ids_` is a set
of `int32_t`, `next_scan_handle_id_` an `int32_t`, and `addr_to_scan_results_`
an ordered map from address to a list of results, kept as an association list
in increasing key order. -/
structure LeScanManagerImpl (Addr : Type) where
  io_task_runner_ : Option ThreadId
  scan_handle_ids_ : Finset Int
  next_scan_handle_id_ : Int
  addr_to_scan_results_ : List (Addr × List (LeScanResult Addr))
deriving DecidableEq

/-- What a member function returns: the manager afterwards, the effects in
program order, and the tasks it posted. -/
structure Outcome (Addr : Type) where
  state : LeScanManagerImpl Addr
  trace : List (Event Addr)
  posted : List (PostedTask Addr)

variable {Addr : Type}

/-- The constructor.  It does not set `next_scan_handle_id_`; the value the
member starts with comes from the class declaration and is the parameter
`first_id`. -/
def LeScanManagerImpl.new (first_id : Int) : LeScanManagerImpl Addr :=
  { io_task_runner_ := none
    scan_handle_ids_ := ∅
    next_scan_handle_id_ := first_id
    addr_to_scan_results_ := [] }

/-- `LeScanManagerImpl::Initialize`. -/
def LeScanManagerImpl.Initialize (io_task_runner : ThreadId)
    (self : LeScanManagerImpl Addr) : LeScanManagerImpl Addr :=
  { self with io_task_runner_ := some io_task_runner }

/-- `LeScanManagerImpl::RequestScan`, called on thread `cur`; `StartScan` is the
value `le_scanner_->StartScan()` returns if it is called. -/
def LeScanManagerImpl.RequestScan (cur : ThreadId) (StartScan : Bool) (cb : Callback)
    (self : LeScanManagerImpl Addr) : Except Fatal (Outcome Addr) :=
  -- MAKE_SURE_IO_THREAD
  match self.io_task_runner_ with
  | none => Except.error Fatal.DCHECK_io_task_runner
  | some runner =>
    if runner ≠ cur then
      Except.ok { state := self, trace := [],
                  posted := [PostedTask.RequestScan (BindToCurrentSequence cur cb)] }
    else
      let id := self.next_scan_handle_id_
      let issued : LeScanManagerImpl Addr :=
        { self with next_scan_handle_id_ := int32_wrap (id + 1)
                    scan_handle_ids_ := insert id self.scan_handle_ids_ }
      if self.scan_handle_ids_ = ∅ then
        if !StartScan then
          Except.ok { state := self,
                      trace := [Event.StartScan false,
                                Event.LogError "Failed to enable scanning",
                                Event.RunRequestScanCallback cb none],
                      posted := [] }
        else
          Except.ok { state := issued,
                      trace := [Event.StartScan true,
                                Event.OnScanEnableChanged true,
                                Event.RunRequestScanCallback cb (some id)],
                      posted := [] }
      else
        Except.ok { state := issued,
                    trace := [Event.RunRequestScanCallback cb (some id)],
                    posted := [] }

/-- `LeScanManagerImpl::GetScanResultsInternal`. -/
def LeScanManagerImpl.GetScanResultsInternal (ext : Externals Addr) (cur : ThreadId)
    (scan_filter : Option (ScanFilter Addr)) (self : LeScanManagerImpl Addr) :
    Except Fatal (List (LeScanResult Addr)) :=
  match self.io_task_runner_ with
  | none => Except.error Fatal.null_io_task_runner
  | some runner =>
    if runner ≠ cur then Except.error Fatal.DCHECK_BelongsToCurrentThread
    else
      let results : List (LeScanResult Addr) :=
        self.addr_to_scan_results_.foldl
          (fun results pair =>
            pair.2.foldl
              (fun results scan_result =>
                match scan_filter with
                | none => results ++ [scan_result]
                | some f =>
                  if f.Matches scan_result then results ++ [scan_result] else results)
              results)
          []
      Except.ok (ext.std_sort (fun d1 d2 => decide (d1.rssi > d2.rssi)) results)

/-- `LeScanManagerImpl::GetScanResults`. -/
def LeScanManagerImpl.GetScanResults (ext : Externals Addr) (cur : ThreadId) (cb : Callback)
    (scan_filter : Option (ScanFilter Addr)) (self : LeScanManagerImpl Addr) :
    Except Fatal (Outcome Addr) :=
  -- MAKE_SURE_IO_THREAD
  match self.io_task_runner_ with
  | none => Except.error Fatal.DCHECK_io_task_runner
  | some runner =>
    if runner ≠ cur then
      Except.ok { state := self, trace := [],
                  posted := [PostedTask.GetScanResults (BindToCurrentSequence cur cb)
                              scan_filter] }
    else
      match self.GetScanResultsInternal ext cur scan_filter with
      | Except.error e => Except.error e
      | Except.ok results =>
        Except.ok { state := self,
                    trace := [Event.RunGetScanResultsCallback cb results],
                    posted := [] }

/-- `LeScanManagerImpl::ClearScanResults`. -/
def LeScanManagerImpl.ClearScanResults (cur : ThreadId) (self : LeScanManagerImpl Addr) :
    Except Fatal (Outcome Addr) :=
  -- MAKE_SURE_IO_THREAD
  match self.io_task_runner_ with
  | none => Except.error Fatal.DCHECK_io_task_runner
  | some runner =>
    if runner ≠ cur then
      Except.ok { state := self, trace := [], posted := [PostedTask.ClearScanResults] }
    else
      Except.ok { state := { self with addr_to_scan_results_ := [] }, trace := [],
                  posted := [] }

/-- The reference `addr_to_scan_results_[key]` followed by the in-place update
`f` of the list it refers to: `operator[]` of the ordered map inserts an empty
list under `key` when the key is absent. -/
def map_update [LinearOrder Addr] (key : Addr) (f : List (LeScanResult Addr) → List (LeScanResult Addr)) :
    List (Addr × List (LeScanResult Addr)) → List (Addr × List (LeScanResult Addr))
  | [] => [(key, f [])]
  | (k, v) :: rest =>
    if key < k then (key, f []) :: (k, v) :: rest
    else if key = k then (k, f v) :: rest
    else (k, v) :: map_update key f rest

/-- `LeScanManagerImpl::OnScanResult`.  It has no thread check.  The error of a
failed `SetAdvData` is logged by `SetAdvData` itself. -/
def LeScanManagerImpl.OnScanResult [LinearOrder Addr] (ext : Externals Addr)
    (scan_result_shlib : LeScanner.ScanResult Addr) (self : LeScanManagerImpl Addr) :
    Outcome Addr :=
  match ext.SetAdvData scan_result_shlib.adv_data with
  | none => { state := self, trace := [], posted := [] }
  | some adv_data =>
    let scan_result : LeScanResult Addr :=
      { addr := scan_result_shlib.addr, adv_data := adv_data, rssi := scan_result_shlib.rssi }
    let store := map_update scan_result.addr
      (fun previous_scan_results =>
        -- remove_if
        let removed := previous_scan_results.filter
          (fun previous_result => !decide (previous_result.adv_data = scan_result.adv_data))
        -- push_front
        let pushed := scan_result :: removed
        if pushed.length > kMaxMessagesInQueue then pushed.dropLast else pushed)
      self.addr_to_scan_results_
    { state := { self with addr_to_scan_results_ := store },
      trace := [Event.OnNewScanResult scan_result],
      posted := [] }

/-- `LeScanManagerImpl::NotifyScanHandleDestroyed`, called on thread `cur`;
`StopScan` is the value `le_scanner_->StopScan()` returns if it is called. -/
def LeScanManagerImpl.NotifyScanHandleDestroyed (cur : ThreadId) (StopScan : Bool) (id : Int)
    (self : LeScanManagerImpl Addr) : Except Fatal (Outcome Addr) :=
  match self.io_task_runner_ with
  | none => Except.error Fatal.null_io_task_runner
  | some runner =>
    if runner ≠ cur then Except.error Fatal.DCHECK_BelongsToCurrentThread
    else
      let num_removed : Nat := if id ∈ self.scan_handle_ids_ then 1 else 0
      let erased : LeScanManagerImpl Addr :=
        { self with scan_handle_ids_ := self.scan_handle_ids_.erase id }
      if num_removed ≠ 1 then Except.error Fatal.DCHECK_EQ_num_removed
      else if erased.scan_handle_ids_ = ∅ then
        if !StopScan then
          Except.ok { state := erased,
                      trace := [Event.StopScan false,
                                Event.LogError "Failed to disable scanning"],
                      posted := [] }
        else
          Except.ok { state := erased,
                      trace := [Event.StopScan true, Event.OnScanEnableChanged false],
                      posted := [] }
      else
        Except.ok { state := erased, trace := [], posted := [] }

/-! ## Executions -/

/-- One call made on the manager, with the value the driver returns should the
call reach it. -/
inductive Call (Addr : Type) where
  | RequestScan (cb : Callback) (StartScan : Bool)
  | NotifyScanHandleDestroyed (id : Int) (StopScan : Bool)
  | OnScanResult (scan_result_shlib : LeScanner.ScanResult Addr)
  | ClearScanResults
  | GetScanResults (cb : Callback) (scan_filter : Option (ScanFilter Addr))

/-- Executes one call on thread `cur`. -/
def LeScanManagerImpl.call [LinearOrder Addr] (ext : Externals Addr) (cur : ThreadId) (c : Call Addr)
    (self : LeScanManagerImpl Addr) : Except Fatal (Outcome Addr) :=
  match c with
  | Call.RequestScan cb StartScan => self.RequestScan cur StartScan cb
  | Call.NotifyScanHandleDestroyed id StopScan => self.NotifyScanHandleDestroyed cur StopScan id
  | Call.OnScanResult r => Except.ok (self.OnScanResult ext r)
  | Call.ClearScanResults => self.ClearScanResults cur
  | Call.GetScanResults cb scan_filter => self.GetScanResults ext cur cb scan_filter

/-- Executes a sequence of calls, all on thread `cur`, and returns the final
manager with the trace of each call.  The execution stops at the first fatal
failure, so a release of an identifier that is not live ends it.  A call made
from another thread only posts a task that later runs on the IO thread; an
execution of the manager is therefore a sequence of calls on that thread, and
the states reachable from `initial cur first_id` are the results of
`run ext cur`. -/
def LeScanManagerImpl.run [LinearOrder Addr] (ext : Externals Addr) (cur : ThreadId) :
    List (Call Addr) → LeScanManagerImpl Addr →
    Except Fatal (LeScanManagerImpl Addr × List (List (Event Addr)))
  | [], self => Except.ok (self, [])
  | c :: cs, self =>
    match self.call ext cur c with
    | Except.error e => Except.error e
    | Except.ok out =>
      match LeScanManagerImpl.run ext cur cs out.state with
      | Except.error e => Except.error e
      | Except.ok (final, traces) => Except.ok (final, out.trace :: traces)

/-- The manager after construction and `Initialize(runner)`. -/
def LeScanManagerImpl.initial (runner : ThreadId) (first_id : Int) : LeScanManagerImpl Addr :=
  (LeScanManagerImpl.new first_id).Initialize runner

/-! ## Observations on traces -/

/-- Number of `StartScan` calls in a trace. -/
def startScanCalls : List (Event Addr) → Nat
  | [] => 0
  | Event.StartScan _ :: t => startScanCalls t + 1
  | _ :: t => startScanCalls t

/-- Number of `StopScan` calls in a trace. -/
def stopScanCalls : List (Event Addr) → Nat
  | [] => 0
  | Event.StopScan _ :: t => stopScanCalls t + 1
  | _ :: t => stopScanCalls t

/-- The `OnScanEnableChanged` notifications of a trace, in order. -/
def enableNotifications : List (Event Addr) → List Bool
  | [] => []
  | Event.OnScanEnableChanged b :: t => b :: enableNotifications t
  | _ :: t => enableNotifications t

/-- The arguments of the `RequestScan` reply callback in a trace, in order. -/
def requestScanReplies : List (Event Addr) → List (Option Int)
  | [] => []
  | Event.RunRequestScanCallback _ h :: t => h :: requestScanReplies t
  | _ :: t => requestScanReplies t

/-- The identifiers of the handles delivered in a trace, in order of issue. -/
def issuedHandles : List (Event Addr) → List Int
  | [] => []
  | Event.RunRequestScanCallback _ (some id) :: t => id :: issuedHandles t
  | _ :: t => issuedHandles t

/-- Modelled from the spec: the radio driver (`LeScannerImpl`) is not among the
sources.  The radio is turned on by a `StartScan` call that returns true and off
by a `StopScan` call that returns true; a call that returns false leaves it as
it was.  `radioAfter radio trace` is the radio after the driver calls of
`trace`, starting from `radio`. -/
def radioAfter (radio : Bool) : List (Event Addr) → Bool
  | [] => radio
  | Event.StartScan true :: t => radioAfter true t
  | Event.StopScan true :: t => radioAfter false t
  | _ :: t => radioAfter radio t

/-- A driver that never fails `StopScan` in this trace. -/
def stopScanNeverFails (trace : List (Event Addr)) : Prop :=
  Event.StopScan false ∉ trace

/-- The `OnNewScanResult` notifications of a trace, in order. -/
def newScanResultNotifications : List (Event Addr) → List (LeScanResult Addr)
  | [] => []
  | Event.OnNewScanResult r :: t => r :: newScanResultNotifications t
  | _ :: t => newScanResultNotifications t

/-- The `GetScanResults` reply callback invocations of a trace, in order: the
callback and the results it is run with. -/
def getScanResultsReplies : List (Event Addr) → List (Callback × List (LeScanResult Addr))
  | [] => []
  | Event.RunGetScanResultsCallback cb results :: t => (cb, results) :: getScanResultsReplies t
  | _ :: t => getScanResultsReplies t

/-- The discipline on releases: along the execution of `calls` from `self`,
every `NotifyScanHandleDestroyed(id)` is for an identifier delivered earlier by
a `RequestScan` (`issued`) and not released before (`released`).  Nothing is
required after a call that ends the execution. -/
def releasesIssuedOnce [LinearOrder Addr] (ext : Externals Addr) (cur : ThreadId) :
    List (Call Addr) → LeScanManagerImpl Addr → List Int → List Int → Bool
  | [], _, _, _ => true
  | c :: cs, self, issued, released =>
    (match c with
      | Call.NotifyScanHandleDestroyed id _ => decide (id ∈ issued) && !decide (id ∈ released)
      | _ => true) &&
    (match self.call ext cur c with
      | Except.error _ => true
      | Except.ok out =>
        releasesIssuedOnce ext cur cs out.state (issued ++ issuedHandles out.trace)
          (match c with
            | Call.NotifyScanHandleDestroyed id _ => id :: released
            | _ => released))

/-! ## Scan handles -/

/-- `LeScanManagerImpl::ScanHandleImpl`.  Its only member is `on_destroyed_`,
which is `BindToCurrentSequence(BindOnce(&NotifyScanHandleDestroyed, weak, id))`:
the record keeps the identifier bound into the closure and the sequence on
which the handle was constructed. -/
structure ScanHandleImpl where
  id : Int
  sequence : ThreadId
deriving DecidableEq, Repr

/-- The constructor `ScanHandleImpl(manager, id)` run on thread `cur`. -/
def ScanHandleImpl.new (cur : ThreadId) (id : Int) : ScanHandleImpl :=
  { id := id, sequence := cur }

/-- The destructor `~ScanHandleImpl`: `std::move(on_destroyed_).Run()` posts the
bound closure to the sequence of construction.  The result is that sequence
and the identifier the posted closure carries; the manager is not touched. -/
def ScanHandleImpl.destroy (handle : ScanHandleImpl) : ThreadId × Int :=
  (handle.sequence, handle.id)

/-- What running the closure posted by `~ScanHandleImpl` does: the manager
afterwards (`none` when it has been destroyed), whether
`NotifyScanHandleDestroyed` was executed, and the effects. -/
structure WeakCallOutcome (Addr : Type) where
  manager : Option (LeScanManagerImpl Addr)
  executed : Bool
  trace : List (Event Addr)

/-- Modelled from the spec: `base::BindOnce` with a `WeakPtr` receiver (base/ is
not among the sources).  Running the closure on thread `cur` calls
`NotifyScanHandleDestroyed(id)` on the manager if the weak pointer still
resolves, and is a no-op if the manager has been destroyed (`none`): "the weak
back-reference resolves to no-op rather than dereferencing freed state". -/
def runOnDestroyed (cur : ThreadId) (StopScan : Bool) (id : Int) :
    Option (LeScanManagerImpl Addr) → Except Fatal (WeakCallOutcome Addr)
  | none => Except.ok { manager := none, executed := false, trace := [] }
  | some manager =>
    match manager.NotifyScanHandleDestroyed cur StopScan id with
    | Except.error e => Except.error e
    | Except.ok out =>
      Except.ok { manager := some out.state, executed := true, trace := out.trace }

/-! ## Observations on the result store -/

/-- The history stored for address `a`: the list under key `a`, empty when the
map has no entry for `a`. -/
def history [DecidableEq Addr] (a : Addr) :
    List (Addr × List (LeScanResult Addr)) → List (LeScanResult Addr)
  | [] => []
  | (k, v) :: rest => if a = k then v else history a rest

/-- Whether the map has an entry (possibly with an empty list) for `a`. -/
def hasEntry [DecidableEq Addr] (a : Addr) (store : List (Addr × List (LeScanResult Addr))) :
    Bool :=
  store.any (fun pair => decide (pair.1 = a))

/-- All stored results in the iteration order of the map: addresses in key
order, each history from its front. -/
def allResults (store : List (Addr × List (LeScanResult Addr))) : List (LeScanResult Addr) :=
  (store.map Prod.snd).flatten

/-- The test `!scan_filter || scan_filter->Matches(scan_result)`. -/
def passesFilter (scan_filter : Option (ScanFilter Addr)) (scan_result : LeScanResult Addr) :
    Bool :=
  match scan_filter with
  | none => true
  | some f => f.Matches scan_result

/-- The keys of the map are strictly increasing: the map is ordered and has one
entry per key. -/
def StoreOrdered [LinearOrder Addr] (store : List (Addr × List (LeScanResult Addr))) : Prop :=
  (store.map Prod.fst).Pairwise (· < ·)

/-- The in-place update `OnScanResult` applies to the history of the result's
address: `remove_if` on equal `adv_data`, `push_front`, and one `pop_back` if
the size exceeds `kMaxMessagesInQueue`. -/
def updatedHistory (scan_result : LeScanResult Addr)
    (previous_scan_results : List (LeScanResult Addr)) : List (LeScanResult Addr) :=
  let removed := previous_scan_results.filter
    (fun previous_result => !decide (previous_result.adv_data = scan_result.adv_data))
  let pushed := scan_result :: removed
  if pushed.length > kMaxMessagesInQueue then pushed.dropLast else pushed

/-- What every reachable store satisfies: the keys are strictly increasing, no
history is longer than `kMaxMessagesInQueue`, and every result is stored under
its own address. -/
def StoreInvariant [LinearOrder Addr] (store : List (Addr × List (LeScanResult Addr))) : Prop :=
  StoreOrdered store ∧
  (∀ p ∈ store, p.2.length ≤ kMaxMessagesInQueue) ∧
  (∀ p ∈ store, ∀ r ∈ p.2, r.addr = p.1)

/-- The spec's eviction, "if the list now exceeds the cap, drop from the tail
until it is within cap", as a loop that runs at most `fuel` times. -/
def dropFromTailUntilWithin (cap : Nat) : Nat → List (LeScanResult Addr) → List (LeScanResult Addr)
  | 0, l => l
  | fuel + 1, l =>
    if l.length > cap then dropFromTailUntilWithin cap fuel l.dropLast else l

/-- The spec's update of one history on a successfully parsed event: remove
the entries with the payload of the new result, prepend the new result, drop
from the tail until the list is within the cap. -/
def specUpdatedHistory (cap : Nat) (scan_result : LeScanResult Addr)
    (old : List (LeScanResult Addr)) : List (LeScanResult Addr) :=
  let pushed := scan_result :: old.filter (fun r => decide (r.adv_data ≠ scan_result.adv_data))
  dropFromTailUntilWithin cap pushed.length pushed

/-- The requirement of `std::sort` on its comparison: a strict weak ordering. -/
def StrictWeakOrdering {α : Type} (comp : α → α → Bool) : Prop :=
  (∀ a, comp a a = false) ∧
  (∀ a b c, comp a b = true → comp b c = true → comp a c = true) ∧
  (∀ a b c, comp a b = false → comp b a = false → comp b c = false → comp c b = false →
    comp a c = false ∧ comp c a = false)

/-- The contract of `std::sort` (the C++ standard library, not part of the
sources): for a comparison that is a strict weak ordering, the result is a
rearrangement of the input in which no element is ordered before an earlier
one.  The relative order of equivalent elements is not specified. -/
def Externals.StdSortContract (ext : Externals Addr) : Prop :=
  ∀ comp xs, StrictWeakOrdering comp →
    (ext.std_sort comp xs).Perm xs ∧
    (ext.std_sort comp xs).Pairwise (fun a b => comp b a = false)

/-! ## Concrete instances used to evaluate the member functions -/

/-- External code for evaluation: `SetAdvData` rejects a payload whose first
byte (a length field) exceeds the number of bytes that follow it, and
`std_sort` is `std::sort` as implemented in libstdc++ (`std.sort`). -/
def Externals.sample : Externals Nat :=
  { SetAdvData := fun bytes =>
      match bytes with
      | [] => some []
      | len :: rest => if len.val ≤ rest.length then some (len :: rest) else none
    std_sort := std.sort }

/-- A manager initialised on thread 7 whose counter starts at 0. -/
def LeScanManagerImpl.sample : LeScanManagerImpl Nat :=
  LeScanManagerImpl.initial 7 0

/-- The manager `sample` after one successful `RequestScan`: handle 0 is live. -/
def LeScanManagerImpl.sampleScanning : LeScanManagerImpl Nat :=
  { io_task_runner_ := some 7
    scan_handle_ids_ := {0}
    next_scan_handle_id_ := 1
    addr_to_scan_results_ := [] }

/-- The manager `sample` after two successful `RequestScan`s: handles 0 and 1
are live. -/
def LeScanManagerImpl.sampleTwoHandles : LeScanManagerImpl Nat :=
  { io_task_runner_ := some 7
    scan_handle_ids_ := {0, 1}
    next_scan_handle_id_ := 2
    addr_to_scan_results_ := [] }

/-- Three advertisement events, for the addresses 3, 2 and 5. -/
def sampleEvents : List (Call Nat) :=
  [Call.OnScanResult { addr := 3, adv_data := [0, 1], rssi := -40 },
   Call.OnScanResult { addr := 2, adv_data := [0, 2], rssi := -80 },
   Call.OnScanResult { addr := 5, adv_data := [0, 3], rssi := -60 }]

/-- The manager `sample` after `sampleEvents`: one result for each of the
addresses 2, 3 and 5, with RSSI -80, -40 and -60. -/
def LeScanManagerImpl.sampleWithResults : LeScanManagerImpl Nat :=
  { io_task_runner_ := some 7
    scan_handle_ids_ := ∅
    next_scan_handle_id_ := 0
    addr_to_scan_results_ :=
      [(2, [{ addr := 2, adv_data := [0, 2], rssi := -80 }]),
       (3, [{ addr := 3, adv_data := [0, 1], rssi := -40 }]),
       (5, [{ addr := 5, adv_data := [0, 3], rssi := -60 }])] }

/-- Six events for address 3 with payloads A, B, A, C, D, E, where
A = [0, 1], B = [0, 2], C = [0, 3], D = [0, 4] and E = [0, 5]. -/
def sampleABACDE : List (LeScanner.ScanResult Nat) :=
  [{ addr := 3, adv_data := [0, 1], rssi := -50 },
   { addr := 3, adv_data := [0, 2], rssi := -51 },
   { addr := 3, adv_data := [0, 1], rssi := -52 },
   { addr := 3, adv_data := [0, 3], rssi := -53 },
   { addr := 3, adv_data := [0, 4], rssi := -54 },
   { addr := 3, adv_data := [0, 5], rssi := -55 }]

/-- Two events with the same RSSI, for the addresses 2 and 3. -/
def sampleTieEvents : List (Call Nat) :=
  [Call.OnScanResult { addr := 2, adv_data := [0, 1], rssi := -40 },
   Call.OnScanResult { addr := 3, adv_data := [0, 2], rssi := -40 }]

/-- The manager `sample` after `sampleTieEvents`. -/
def LeScanManagerImpl.sampleTies : LeScanManagerImpl Nat :=
  { io_task_runner_ := some 7
    scan_handle_ids_ := ∅
    next_scan_handle_id_ := 0
    addr_to_scan_results_ :=
      [(2, [{ addr := 2, adv_data := [0, 1], rssi := -40 }]),
       (3, [{ addr := 3, adv_data := [0, 2], rssi := -40 }])] }

/-- The result stored for the advertisement of address `k` in
`sampleSeventeenTieEvents`: payload `[0, k]` and RSSI -50. -/
def tieResult (k : Nat) : LeScanResult Nat :=
  { addr := k, adv_data := [0, Fin.ofNat k], rssi := -50 }

/-- Seventeen events with the same RSSI, one for each of the addresses 1 to
17. -/
def sampleSeventeenTieEvents : List (Call Nat) :=
  (List.range 17).map
    (fun k => Call.OnScanResult { addr := k + 1, adv_data := [0, Fin.ofNat (k + 1)], rssi := -50 })

/-- The manager `sample` after `sampleSeventeenTieEvents`. -/
def LeScanManagerImpl.sampleSeventeenTies : LeScanManagerImpl Nat :=
  { io_task_runner_ := some 7
    scan_handle_ids_ := ∅
    next_scan_handle_id_ := 0
    addr_to_scan_results_ := (List.range 17).map (fun k => (k + 1, [tieResult (k + 1)])) }

/-! ## Theorems -/

section Basic

variable (cur : ThreadId) (s : LeScanManagerImpl Addr)

theorem int32_wrap_eq_self {x : Int} (hlo : -2147483648 ≤ x) (hhi : x < 2147483648) :
    int32_wrap x = x := by
  unfold int32_wrap
  omega

/-- `RequestScan` on the IO thread, as one expression. -/
theorem RequestScan_on_thread (StartScan : Bool) (cb : Callback)
    (hthread : s.io_task_runner_ = some cur) :
    s.RequestScan cur StartScan cb =
      if s.scan_handle_ids_ = ∅ ∧ StartScan = false then
        Except.ok { state := s,
                    trace := [Event.StartScan false,
                              Event.LogError "Failed to enable scanning",
                              Event.RunRequestScanCallback cb none],
                    posted := [] }
      else
        Except.ok
          { state := { s with
              next_scan_handle_id_ := int32_wrap (s.next_scan_handle_id_ + 1)
              scan_handle_ids_ := insert s.next_scan_handle_id_ s.scan_handle_ids_ },
            trace := (if s.scan_handle_ids_ = ∅ then
                        [Event.StartScan true, Event.OnScanEnableChanged true]
                      else []) ++
                     [Event.RunRequestScanCallback cb (some s.next_scan_handle_id_)],
            posted := [] } := by
  by_cases hempty : s.scan_handle_ids_ = ∅ <;> cases StartScan <;>
    simp [LeScanManagerImpl.RequestScan, hthread, hempty]

/-- `NotifyScanHandleDestroyed` of a live identifier on the IO thread, as one
expression. -/
theorem NotifyScanHandleDestroyed_on_thread (StopScan : Bool) (id : Int)
    (hthread : s.io_task_runner_ = some cur) (hlive : id ∈ s.scan_handle_ids_) :
    s.NotifyScanHandleDestroyed cur StopScan id =
      Except.ok
        { state := { s with scan_handle_ids_ := s.scan_handle_ids_.erase id },
          trace := if s.scan_handle_ids_.erase id = ∅ then
                     (if StopScan = true then
                        [Event.StopScan true, Event.OnScanEnableChanged false]
                      else
                        [Event.StopScan false, Event.LogError "Failed to disable scanning"])
                   else [],
          posted := [] } := by
  by_cases hlast : s.scan_handle_ids_.erase id = ∅ <;> cases StopScan <;>
    simp only [LeScanManagerImpl.NotifyScanHandleDestroyed, hthread, hlive, hlast] <;> simp

theorem radioAfter_append (r : Bool) (a b : List (Event Addr)) :
    radioAfter r (a ++ b) = radioAfter (radioAfter r a) b := by
  induction a generalizing r with
  | nil => rfl
  | cons e t ih =>
    cases e with
    | StartScan ret => cases ret <;> simp [radioAfter, ih]
    | StopScan ret => cases ret <;> simp [radioAfter, ih]
    | _ => simp [radioAfter, ih]

theorem issuedHandles_append (a b : List (Event Addr)) :
    issuedHandles (a ++ b) = issuedHandles a ++ issuedHandles b := by
  induction a with
  | nil => rfl
  | cons e t ih =>
    cases e with
    | RunRequestScanCallback cb h => cases h <;> simp [issuedHandles, ih]
    | _ => simp [issuedHandles, ih]

end Basic

section SingleCalls

variable (cur : ThreadId) (s : LeScanManagerImpl Addr)

/-- C3: when `RequestScan` runs on the IO thread with `scan_handle_ids_` empty
and `StartScan` returns false, the callback is run once with a null handle, no
`OnScanEnableChanged` notification is issued, nothing is posted, and the manager
is unchanged: the set stays empty, `next_scan_handle_id_` is not advanced and
the result store is untouched. -/
theorem RequestScan_start_failure (cb : Callback)
    (hthread : s.io_task_runner_ = some cur) (hempty : s.scan_handle_ids_ = ∅) :
    ∃ out, s.RequestScan cur false cb = Except.ok out ∧
      requestScanReplies out.trace = [none] ∧
      enableNotifications out.trace = [] ∧
      out.posted = [] ∧
      out.state = s ∧
      out.state.scan_handle_ids_ = ∅ ∧
      out.state.next_scan_handle_id_ = s.next_scan_handle_id_ ∧
      out.state.addr_to_scan_results_ = s.addr_to_scan_results_ := by
  rw [RequestScan_on_thread cur s false cb hthread, if_pos ⟨hempty, rfl⟩]
  exact ⟨_, rfl, rfl, rfl, rfl, rfl, hempty, rfl, rfl⟩

/-- C5: releasing, on the IO thread, a handle whose identifier is in
`scan_handle_ids_` leaves the set equal to the old set minus exactly that
identifier, whatever `StopScan` returns: the identifier is gone and every
other live identifier stays. -/
theorem NotifyScanHandleDestroyed_erases (StopScan : Bool) (id : Int)
    (hthread : s.io_task_runner_ = some cur) (hlive : id ∈ s.scan_handle_ids_) :
    ∃ out, s.NotifyScanHandleDestroyed cur StopScan id = Except.ok out ∧
      out.state.scan_handle_ids_ = s.scan_handle_ids_.erase id ∧
      id ∉ out.state.scan_handle_ids_ ∧
      (∀ other, other ∈ s.scan_handle_ids_ → other ≠ id →
        other ∈ out.state.scan_handle_ids_) ∧
      (∀ other, other ∈ out.state.scan_handle_ids_ → other ∈ s.scan_handle_ids_) := by
  rw [NotifyScanHandleDestroyed_on_thread cur s StopScan id hthread hlive]
  refine ⟨_, rfl, rfl, ?_, ?_, ?_⟩
  · exact Finset.not_mem_erase id _
  · intro other hmem hne
    exact Finset.mem_erase.mpr ⟨hne, hmem⟩
  · intro other hmem
    exact Finset.mem_of_mem_erase hmem

/-- C6 (as the code behaves): a release on the IO thread that empties
`scan_handle_ids_` notifies `OnScanEnableChanged(false)` exactly once when
`StopScan` returns true and not at all when `StopScan` returns false; a release
that leaves the set non-empty issues no `OnScanEnableChanged` notification. -/
theorem NotifyScanHandleDestroyed_notifications (StopScan : Bool) (id : Int)
    (hthread : s.io_task_runner_ = some cur) (hlive : id ∈ s.scan_handle_ids_) :
    ∃ out, s.NotifyScanHandleDestroyed cur StopScan id = Except.ok out ∧
      enableNotifications out.trace =
        if out.state.scan_handle_ids_ = ∅ ∧ StopScan = true then [false] else [] := by
  rw [NotifyScanHandleDestroyed_on_thread cur s StopScan id hthread hlive]
  refine ⟨_, rfl, ?_⟩
  by_cases hlast : s.scan_handle_ids_.erase id = ∅ <;> cases StopScan <;>
    simp [hlast, enableNotifications]

/-- C7: when a release on the IO thread empties `scan_handle_ids_` and
`StopScan` returns false, the release completes (no fatal failure), the
identifier is removed, the set is empty, the counter and the result store are
untouched, and the manager is the one reached when `StopScan` returns true. -/
theorem NotifyScanHandleDestroyed_stop_failure (id : Int)
    (hthread : s.io_task_runner_ = some cur) (hlive : id ∈ s.scan_handle_ids_)
    (hlast : s.scan_handle_ids_.erase id = ∅) :
    ∃ failed succeeded,
      s.NotifyScanHandleDestroyed cur false id = Except.ok failed ∧
      s.NotifyScanHandleDestroyed cur true id = Except.ok succeeded ∧
      id ∉ failed.state.scan_handle_ids_ ∧
      failed.state.scan_handle_ids_ = ∅ ∧
      failed.state.next_scan_handle_id_ = s.next_scan_handle_id_ ∧
      failed.state.addr_to_scan_results_ = s.addr_to_scan_results_ ∧
      failed.state = succeeded.state := by
  rw [NotifyScanHandleDestroyed_on_thread cur s false id hthread hlive,
    NotifyScanHandleDestroyed_on_thread cur s true id hthread hlive]
  refine ⟨_, _, rfl, rfl, ?_, hlast, rfl, rfl, rfl⟩
  exact Finset.not_mem_erase id _

/-- C9: a `RequestScan` on the IO thread that finds `scan_handle_ids_` empty and
whose `StartScan` succeeds performs exactly these effects, in this order: the
`StartScan` call, one `OnScanEnableChanged(true)` notification, the delivery of
the handle to the callback.  A `RequestScan` that finds the set non-empty
issues no `OnScanEnableChanged` notification. -/
theorem RequestScan_effect_order (cb : Callback) (hthread : s.io_task_runner_ = some cur) :
    (s.scan_handle_ids_ = ∅ →
      ∃ out, s.RequestScan cur true cb = Except.ok out ∧
        out.trace = [Event.StartScan true, Event.OnScanEnableChanged true,
                     Event.RunRequestScanCallback cb (some s.next_scan_handle_id_)]) ∧
    (s.scan_handle_ids_ ≠ ∅ →
      ∀ StartScan, ∃ out, s.RequestScan cur StartScan cb = Except.ok out ∧
        enableNotifications out.trace = []) := by
  constructor
  · intro hempty
    rw [RequestScan_on_thread cur s true cb hthread]
    simp [hempty]
  · intro hne StartScan
    rw [RequestScan_on_thread cur s StartScan cb hthread]
    simp [hne, enableNotifications]

end SingleCalls

section DriverCalls

variable [LinearOrder Addr] (ext : Externals Addr) (cur : ThreadId) (s : LeScanManagerImpl Addr)

end DriverCalls

section Executions

variable [LinearOrder Addr] (ext : Externals Addr) (cur : ThreadId)

theorem run_nil (s : LeScanManagerImpl Addr) :
    s.run ext cur [] = Except.ok (s, []) := rfl

/-- A successful execution of `c :: cs` is a successful call followed by a
successful execution of `cs`. -/
theorem run_cons_ok {c : Call Addr} {cs : List (Call Addr)} {s final : LeScanManagerImpl Addr}
    {traces : List (List (Event Addr))}
    (h : s.run ext cur (c :: cs) = Except.ok (final, traces)) :
    ∃ out rest, s.call ext cur c = Except.ok out ∧
      out.state.run ext cur cs = Except.ok (final, rest) ∧ traces = out.trace :: rest := by
  simp only [LeScanManagerImpl.run] at h
  cases hc : s.call ext cur c with
  | error e => rw [hc] at h; cases h
  | ok out =>
    rw [hc] at h
    simp only at h
    cases hr : out.state.run ext cur cs with
    | error e => simp only [hr] at h; cases h
    | ok p =>
      obtain ⟨final1, rest⟩ := p
      simp only [hr, Except.ok.injEq, Prod.mk.injEq] at h
      exact ⟨out, rest, rfl, by rw [hr, h.1], h.2.symm⟩

theorem run_cons_of_ok {c : Call Addr} {cs : List (Call Addr)} {s final : LeScanManagerImpl Addr}
    {out : Outcome Addr} {rest : List (List (Event Addr))}
    (hc : s.call ext cur c = Except.ok out)
    (hr : out.state.run ext cur cs = Except.ok (final, rest)) :
    s.run ext cur (c :: cs) = Except.ok (final, out.trace :: rest) := by
  simp only [LeScanManagerImpl.run, hc, hr]

/-- What one successful call can do to the handle set and to the radio: it
leaves the set as it is and calls no driver function, or it is one of the four
branches of `RequestScan` and `NotifyScanHandleDestroyed` that touch the set. -/
theorem call_cases {c : Call Addr} {s : LeScanManagerImpl Addr} {out : Outcome Addr}
    (h : s.call ext cur c = Except.ok out) :
    (out.state.scan_handle_ids_ = s.scan_handle_ids_ ∧
      out.state.next_scan_handle_id_ = s.next_scan_handle_id_ ∧
      out.state.io_task_runner_ = s.io_task_runner_ ∧
      (∀ r, radioAfter r out.trace = r) ∧ issuedHandles out.trace = [] ∧
      Event.StopScan false ∉ out.trace) ∨
    (s.scan_handle_ids_ = ∅ ∧
      out.state.scan_handle_ids_ = {s.next_scan_handle_id_} ∧
      out.state.next_scan_handle_id_ = int32_wrap (s.next_scan_handle_id_ + 1) ∧
      out.state.io_task_runner_ = s.io_task_runner_ ∧
      (∀ r, radioAfter r out.trace = true) ∧
      issuedHandles out.trace = [s.next_scan_handle_id_] ∧
      Event.StopScan false ∉ out.trace) ∨
    (s.scan_handle_ids_ ≠ ∅ ∧
      out.state.scan_handle_ids_ = insert s.next_scan_handle_id_ s.scan_handle_ids_ ∧
      out.state.next_scan_handle_id_ = int32_wrap (s.next_scan_handle_id_ + 1) ∧
      out.state.io_task_runner_ = s.io_task_runner_ ∧
      (∀ r, radioAfter r out.trace = r) ∧
      issuedHandles out.trace = [s.next_scan_handle_id_] ∧
      Event.StopScan false ∉ out.trace) ∨
    (∃ id StopScan, id ∈ s.scan_handle_ids_ ∧
      out.state.scan_handle_ids_ = s.scan_handle_ids_.erase id ∧
      out.state.next_scan_handle_id_ = s.next_scan_handle_id_ ∧
      out.state.io_task_runner_ = s.io_task_runner_ ∧
      issuedHandles out.trace = [] ∧
      ((out.state.scan_handle_ids_ ≠ ∅ ∧ (∀ r, radioAfter r out.trace = r) ∧
          Event.StopScan false ∉ out.trace) ∨
       (out.state.scan_handle_ids_ = ∅ ∧ StopScan = true ∧
          (∀ r, radioAfter r out.trace = false) ∧ Event.StopScan false ∉ out.trace) ∨
       (out.state.scan_handle_ids_ = ∅ ∧ StopScan = false ∧
          (∀ r, radioAfter r out.trace = r) ∧ Event.StopScan false ∈ out.trace))) := by
  cases c with
  | RequestScan cb StartScan =>
    simp only [LeScanManagerImpl.call] at h
    cases hr : s.io_task_runner_ with
    | none => simp [LeScanManagerImpl.RequestScan, hr] at h
    | some runner =>
      by_cases hcur : runner = cur
      · subst hcur
        rw [RequestScan_on_thread runner s StartScan cb hr] at h
        by_cases hempty : s.scan_handle_ids_ = ∅ <;> cases StartScan <;>
          simp [hempty] at h <;> subst h <;> simp [radioAfter, issuedHandles, hempty, hr]
      · simp [LeScanManagerImpl.RequestScan, hr, hcur] at h
        subst h
        simp [radioAfter, issuedHandles, hr]
  | NotifyScanHandleDestroyed id StopScan =>
    simp only [LeScanManagerImpl.call] at h
    cases hr : s.io_task_runner_ with
    | none => simp [LeScanManagerImpl.NotifyScanHandleDestroyed, hr] at h
    | some runner =>
      by_cases hcur : runner = cur
      · subst hcur
        by_cases hlive : id ∈ s.scan_handle_ids_
        · rw [NotifyScanHandleDestroyed_on_thread runner s StopScan id hr hlive] at h
          right; right; right
          refine ⟨id, StopScan, hlive, ?_⟩
          by_cases hlast : s.scan_handle_ids_.erase id = ∅ <;> cases StopScan <;>
            simp [hlast] at h <;> subst h <;> simp [radioAfter, issuedHandles, hlast, hr]
        · simp [LeScanManagerImpl.NotifyScanHandleDestroyed, hr, hlive] at h
      · simp [LeScanManagerImpl.NotifyScanHandleDestroyed, hr, hcur] at h
  | OnScanResult r =>
    simp only [LeScanManagerImpl.call, Except.ok.injEq] at h
    subst h
    left
    unfold LeScanManagerImpl.OnScanResult
    cases ext.SetAdvData r.adv_data <;> simp [radioAfter, issuedHandles]
  | ClearScanResults =>
    simp only [LeScanManagerImpl.call] at h
    cases hr : s.io_task_runner_ with
    | none => simp [LeScanManagerImpl.ClearScanResults, hr] at h
    | some runner =>
      left
      by_cases hcur : runner = cur <;>
        simp [LeScanManagerImpl.ClearScanResults, hr, hcur] at h <;> subst h <;>
        simp [radioAfter, issuedHandles, hr, hcur]
  | GetScanResults cb scan_filter =>
    simp only [LeScanManagerImpl.call] at h
    cases hr : s.io_task_runner_ with
    | none => simp [LeScanManagerImpl.GetScanResults, hr] at h
    | some runner =>
      left
      by_cases hcur : runner = cur <;>
        simp [LeScanManagerImpl.GetScanResults, LeScanManagerImpl.GetScanResultsInternal, hr,
          hcur] at h <;> subst h <;>
        simp [radioAfter, issuedHandles, hr, hcur]

/-- One call keeps both relations between the handle set and the radio. -/
theorem call_radio {c : Call Addr} {s : LeScanManagerImpl Addr} {out : Outcome Addr}
    (h : s.call ext cur c = Except.ok out) (r : Bool) :
    ((s.scan_handle_ids_ ≠ ∅ → r = true) →
      (out.state.scan_handle_ids_ ≠ ∅ → radioAfter r out.trace = true)) ∧
    (Event.StopScan false ∉ out.trace → (r = true ↔ s.scan_handle_ids_ ≠ ∅) →
      (radioAfter r out.trace = true ↔ out.state.scan_handle_ids_ ≠ ∅)) := by
  rcases call_cases ext cur h with
    ⟨hset, -, -, hradio, -, -⟩ | ⟨-, hset, -, -, hradio, -, -⟩ |
    ⟨hne, hset, -, -, hradio, -, -⟩ | ⟨id, StopScan, hlive, hset, -, -, -, hcase⟩
  · rw [hradio r, hset]
    exact ⟨fun h1 h2 => h1 h2, fun _ h2 => h2⟩
  · rw [hradio r, hset]
    simp
  · rw [hradio r, hset]
    refine ⟨fun h1 _ => h1 hne, fun _ h2 => ?_⟩
    simp only [ne_eq, Finset.insert_ne_empty, not_false_eq_true, iff_true]
    exact h2.mpr hne
  · have hs : s.scan_handle_ids_ ≠ ∅ := Finset.ne_empty_of_mem hlive
    rcases hcase with ⟨hne, hradio, -⟩ | ⟨hempty, -, hradio, -⟩ | ⟨hempty, -, -, hfail⟩
    · rw [hradio r]
      refine ⟨fun h1 _ => h1 hs, fun _ h2 => ?_⟩
      simp only [ne_eq, hne, not_false_eq_true, iff_true]
      exact h2.mpr hs
    · rw [hradio r]
      simp [hempty]
    · exact ⟨fun _ h2 => absurd hempty h2, fun h1 => absurd hfail h1⟩

/-- The two relations between the handle set and the radio along an execution:
a non-empty set implies an active radio, and if no `StopScan` call fails the
radio is active exactly when the set is non-empty. -/
theorem run_radio {calls : List (Call Addr)} {s final : LeScanManagerImpl Addr}
    {traces : List (List (Event Addr))}
    (h : s.run ext cur calls = Except.ok (final, traces)) (r : Bool) :
    ((s.scan_handle_ids_ ≠ ∅ → r = true) →
      (final.scan_handle_ids_ ≠ ∅ → radioAfter r traces.flatten = true)) ∧
    (stopScanNeverFails traces.flatten → (r = true ↔ s.scan_handle_ids_ ≠ ∅) →
      (radioAfter r traces.flatten = true ↔ final.scan_handle_ids_ ≠ ∅)) := by
  induction calls generalizing s r traces with
  | nil =>
    simp only [run_nil, Except.ok.injEq, Prod.mk.injEq] at h
    obtain ⟨rfl, rfl⟩ := h
    exact ⟨fun h1 h2 => h1 h2, fun _ h2 => h2⟩
  | cons c cs ih =>
    obtain ⟨out, rest, hc, hr, rfl⟩ := run_cons_ok ext cur h
    have hstep := call_radio ext cur hc r
    have hrest := ih hr (radioAfter r out.trace)
    rw [List.flatten_cons, radioAfter_append]
    refine ⟨fun h1 => hrest.1 (hstep.1 h1), fun hstop h1 => ?_⟩
    unfold stopScanNeverFails at hstop
    rw [List.mem_append, not_or] at hstop
    exact hrest.2 hstop.2 (hstep.2 hstop.1 h1)

/-- C1 (as the code behaves): in every state reached from the initial state
(empty `scan_handle_ids_`, radio off) by any sequence of calls, whatever the
driver returns from each `StartScan` and `StopScan`, a non-empty
`scan_handle_ids_` implies that the radio is active; and when no `StopScan`
call of the execution failed, the radio is active if and only if
`scan_handle_ids_` is non-empty. -/
theorem radio_active_while_handles_live (first_id : Int) (calls : List (Call Addr))
    (final : LeScanManagerImpl Addr) (traces : List (List (Event Addr)))
    (hrun : (LeScanManagerImpl.initial cur first_id).run ext cur calls =
      Except.ok (final, traces)) :
    (final.scan_handle_ids_ ≠ ∅ → radioAfter false traces.flatten = true) ∧
    (stopScanNeverFails traces.flatten →
      (radioAfter false traces.flatten = true ↔ final.scan_handle_ids_ ≠ ∅)) := by
  have h := run_radio ext cur hrun false
  refine ⟨h.1 (fun hne => absurd rfl hne), fun hstop => h.2 hstop ?_⟩
  simp [LeScanManagerImpl.initial, LeScanManagerImpl.Initialize, LeScanManagerImpl.new]

/-- One call either issues no handle, keeps the counter and does not grow the
set, or issues the handle numbered by the counter, advances the counter and
adds that identifier to the set. -/
theorem call_ids {c : Call Addr} {s : LeScanManagerImpl Addr} {out : Outcome Addr}
    (h : s.call ext cur c = Except.ok out) :
    out.state.io_task_runner_ = s.io_task_runner_ ∧
    ((issuedHandles out.trace = [] ∧
        out.state.next_scan_handle_id_ = s.next_scan_handle_id_ ∧
        out.state.scan_handle_ids_ ⊆ s.scan_handle_ids_) ∨
      (issuedHandles out.trace = [s.next_scan_handle_id_] ∧
        out.state.next_scan_handle_id_ = int32_wrap (s.next_scan_handle_id_ + 1) ∧
        out.state.scan_handle_ids_ = insert s.next_scan_handle_id_ s.scan_handle_ids_)) := by
  rcases call_cases ext cur h with
    ⟨hset, hnext, hthread, -, hissued, -⟩ | ⟨hempty, hset, hnext, hthread, -, hissued, -⟩ |
    ⟨-, hset, hnext, hthread, -, hissued, -⟩ |
    ⟨id, StopScan, -, hset, hnext, hthread, hissued, -⟩
  · exact ⟨hthread, Or.inl ⟨hissued, hnext, by rw [hset]⟩⟩
  · exact ⟨hthread, Or.inr ⟨hissued, hnext, by rw [hset, hempty]; rfl⟩⟩
  · exact ⟨hthread, Or.inr ⟨hissued, hnext, hset⟩⟩
  · exact ⟨hthread, Or.inl ⟨hissued, hnext, by rw [hset]; exact Finset.erase_subset _ _⟩⟩

/-- Along an execution that starts with the counter at an `int32_t` value and
issues no more handles than fit below 2^31, the issued identifiers are strictly
increasing and lie between the first counter value and that value plus the
number of issued handles, every live identifier is an old one or an issued one,
and the counter has advanced by the number of issued handles. -/
theorem run_ids {calls : List (Call Addr)} {s final : LeScanManagerImpl Addr}
    {traces : List (List (Event Addr))}
    (h : s.run ext cur calls = Except.ok (final, traces))
    (hlo : -2147483648 ≤ s.next_scan_handle_id_) (hhi : s.next_scan_handle_id_ < 2147483648)
    (hcount : s.next_scan_handle_id_ + (issuedHandles traces.flatten).length ≤ 2147483648) :
    (issuedHandles traces.flatten).Pairwise (· < ·) ∧
    (∀ id ∈ issuedHandles traces.flatten, s.next_scan_handle_id_ ≤ id ∧
      id < s.next_scan_handle_id_ + (issuedHandles traces.flatten).length) ∧
    (∀ id ∈ final.scan_handle_ids_, id ∈ s.scan_handle_ids_ ∨
      (s.next_scan_handle_id_ ≤ id ∧
        id < s.next_scan_handle_id_ + (issuedHandles traces.flatten).length)) ∧
    final.next_scan_handle_id_ =
      int32_wrap (s.next_scan_handle_id_ + (issuedHandles traces.flatten).length) ∧
    final.io_task_runner_ = s.io_task_runner_ := by
  induction calls generalizing s traces with
  | nil =>
    simp only [run_nil, Except.ok.injEq, Prod.mk.injEq] at h
    obtain ⟨rfl, rfl⟩ := h
    refine ⟨by simp [issuedHandles], by simp [issuedHandles], fun id hid => Or.inl hid, ?_, rfl⟩
    simp only [List.flatten_nil, issuedHandles, List.length_nil, Nat.cast_zero, add_zero]
    exact (int32_wrap_eq_self hlo hhi).symm
  | cons c cs ih =>
    obtain ⟨out, rest, hc, hr, rfl⟩ := run_cons_ok ext cur h
    rw [List.flatten_cons, issuedHandles_append] at hcount ⊢
    obtain ⟨hthread, ⟨hissued, hnext, hset⟩ | ⟨hissued, hnext, hset⟩⟩ := call_ids ext cur hc
    · rw [hissued, List.nil_append] at hcount ⊢
      obtain ⟨h1, h2, h3, h4, h5⟩ := ih hr (by rw [hnext]; exact hlo) (by rw [hnext]; exact hhi)
        (by rw [hnext]; exact hcount)
      rw [hnext] at h2 h3 h4
      refine ⟨h1, h2, fun id hid => ?_, h4, by rw [h5, hthread]⟩
      rcases h3 id hid with hold | hnew
      · exact Or.inl (hset hold)
      · exact Or.inr hnew
    · rw [hissued] at hcount ⊢
      simp only [List.singleton_append, List.length_cons, Nat.cast_add, Nat.cast_one] at hcount ⊢
      have hwrap : out.state.next_scan_handle_id_ =
          (s.next_scan_handle_id_ + 1 + 2147483648) % 4294967296 - 2147483648 := by
        rw [hnext]; rfl
      obtain ⟨h1, h2, h3, h4, h5⟩ := ih hr (by omega) (by omega) (by omega)
      have hpos : ∀ id ∈ issuedHandles rest.flatten,
          0 < (issuedHandles rest.flatten).length := fun id hid => List.length_pos_of_mem hid
      refine ⟨?_, ?_, ?_, ?_, by rw [h5, hthread]⟩
      · rw [List.pairwise_cons]
        refine ⟨fun id hid => ?_, h1⟩
        have := h2 id hid
        have := hpos id hid
        omega
      · intro id hid
        rcases List.mem_cons.mp hid with rfl | hid
        · omega
        · have := h2 id hid
          have := hpos id hid
          omega
      · intro id hid
        rcases h3 id hid with hold | hnew
        · rw [hset] at hold
          rcases Finset.mem_insert.mp hold with rfl | hold
          · right; omega
          · exact Or.inl hold
        · right; omega
      · rw [h4]
        unfold int32_wrap
        omega

/-- C10: in any execution from the initial state whose counter starts at an
`int32_t` value `first_id` and that issues no more handles than fit below the
`int32_t` overflow (`first_id` plus the number of issued handles is at most
2^31; with `first_id = 0`, at most 2^31 handles), the identifiers delivered by
successful `RequestScan` calls are strictly increasing in the order of issue,
hence pairwise distinct. -/
theorem issued_identifiers_strictly_increasing (first_id : Int) (calls : List (Call Addr))
    (final : LeScanManagerImpl Addr) (traces : List (List (Event Addr)))
    (hlo : -2147483648 ≤ first_id) (hhi : first_id < 2147483648)
    (hrun : (LeScanManagerImpl.initial cur first_id).run ext cur calls =
      Except.ok (final, traces))
    (hcount : first_id + (issuedHandles traces.flatten).length ≤ 2147483648) :
    (issuedHandles traces.flatten).Pairwise (· < ·) ∧
    (issuedHandles traces.flatten).Nodup := by
  have h := (run_ids ext cur hrun hlo hhi hcount).1
  exact ⟨h, h.imp (fun hlt => ne_of_lt hlt)⟩

/-- C4: in a state reached from the initial state before the `int32_t` counter
overflows, `RequestScan` on the IO thread delivers a non-null handle if and
only if `scan_handle_ids_` was non-empty or `StartScan` returned true (and a
null handle otherwise); in that case exactly one handle is delivered, its
identifier was not in the set before the call, the set afterwards is the old
set plus exactly that identifier, and its size has grown by one. -/
theorem RequestScan_delivers_fresh_handle (first_id : Int) (calls : List (Call Addr))
    (s : LeScanManagerImpl Addr) (traces : List (List (Event Addr)))
    (StartScan : Bool) (cb : Callback)
    (hlo : -2147483648 ≤ first_id) (hhi : first_id < 2147483648)
    (hrun : (LeScanManagerImpl.initial cur first_id).run ext cur calls = Except.ok (s, traces))
    (hcount : first_id + (issuedHandles traces.flatten).length < 2147483648) :
    ∃ out, s.RequestScan cur StartScan cb = Except.ok out ∧
      ((∃ id, requestScanReplies out.trace = [some id]) ↔
        (s.scan_handle_ids_ ≠ ∅ ∨ StartScan = true)) ∧
      (¬ (s.scan_handle_ids_ ≠ ∅ ∨ StartScan = true) →
        requestScanReplies out.trace = [none] ∧ out.state = s) ∧
      ((s.scan_handle_ids_ ≠ ∅ ∨ StartScan = true) →
        ∃ id, requestScanReplies out.trace = [some id] ∧
          issuedHandles out.trace = [id] ∧
          id ∉ s.scan_handle_ids_ ∧
          out.state.scan_handle_ids_ = insert id s.scan_handle_ids_ ∧
          out.state.scan_handle_ids_.card = s.scan_handle_ids_.card + 1) := by
  obtain ⟨-, -, hset, hnext, hthread⟩ := run_ids ext cur hrun hlo hhi (le_of_lt hcount)
  have hthread1 : s.io_task_runner_ = some cur := by rw [hthread]; rfl
  have hnext1 : s.next_scan_handle_id_ = first_id + (issuedHandles traces.flatten).length := by
    rw [hnext]
    exact int32_wrap_eq_self
      (by
        have : (LeScanManagerImpl.initial cur first_id : LeScanManagerImpl Addr).next_scan_handle_id_
            = first_id := rfl
        omega)
      hcount
  have hfresh : s.next_scan_handle_id_ ∉ s.scan_handle_ids_ := by
    intro hmem
    rcases hset _ hmem with hold | hnew
    · exact absurd hold (Finset.not_mem_empty _)
    · have : (LeScanManagerImpl.initial cur first_id : LeScanManagerImpl Addr).next_scan_handle_id_
          = first_id := rfl
      omega
  rw [RequestScan_on_thread cur s StartScan cb hthread1]
  by_cases hempty : s.scan_handle_ids_ = ∅ <;> cases StartScan
  · rw [if_pos ⟨hempty, rfl⟩]
    refine ⟨_, rfl, ?_, ?_, ?_⟩
    · simp [hempty, requestScanReplies]
    · intro _
      exact ⟨rfl, rfl⟩
    · intro h
      simp [hempty] at h
  · rw [if_neg (by simp)]
    refine ⟨_, rfl, ?_, ?_, ?_⟩
    · simp [hempty, requestScanReplies]
    · intro h
      simp at h
    · intro _
      refine ⟨s.next_scan_handle_id_, ?_, ?_, hfresh, rfl, Finset.card_insert_of_not_mem hfresh⟩
      · simp [hempty, requestScanReplies]
      · simp [hempty, issuedHandles]
  · rw [if_neg (by simp [hempty])]
    refine ⟨_, rfl, ?_, ?_, ?_⟩
    · simp [hempty, requestScanReplies]
    · intro h
      simp [hempty] at h
    · intro _
      refine ⟨s.next_scan_handle_id_, ?_, ?_, hfresh, rfl, Finset.card_insert_of_not_mem hfresh⟩
      · simp [hempty, requestScanReplies]
      · simp [hempty, issuedHandles]
  · rw [if_neg (by simp [hempty])]
    refine ⟨_, rfl, ?_, ?_, ?_⟩
    · simp [hempty, requestScanReplies]
    · intro h
      simp [hempty] at h
    · intro _
      refine ⟨s.next_scan_handle_id_, ?_, ?_, hfresh, rfl, Finset.card_insert_of_not_mem hfresh⟩
      · simp [hempty, requestScanReplies]
      · simp [hempty, issuedHandles]

/-- The state after a `RequestScan` that issued a handle. -/
theorem call_RequestScan_true (cb : Callback) (s : LeScanManagerImpl Addr)
    (hthread : s.io_task_runner_ = some cur) :
    s.call ext cur (Call.RequestScan cb true) =
      Except.ok
        { state := { s with
            next_scan_handle_id_ := int32_wrap (s.next_scan_handle_id_ + 1)
            scan_handle_ids_ := insert s.next_scan_handle_id_ s.scan_handle_ids_ },
          trace := (if s.scan_handle_ids_ = ∅ then
                      [Event.StartScan true, Event.OnScanEnableChanged true]
                    else []) ++
                   [Event.RunRequestScanCallback cb (some s.next_scan_handle_id_)],
          posted := [] } := by
  show s.RequestScan cur true cb = _
  rw [RequestScan_on_thread cur s true cb hthread, if_neg (by simp)]

/-- A run of `RequestScan` calls on the IO thread whose `StartScan` succeeds:
every call delivers a handle, the set gains exactly the issued identifiers, no
call reaches `StopScan`, and no call reaches `StartScan` if the set was
non-empty at the start. -/
theorem run_requests (cbs : List Callback) (s : LeScanManagerImpl Addr)
    (hthread : s.io_task_runner_ = some cur) :
    ∃ final traces,
      s.run ext cur (cbs.map (fun cb => Call.RequestScan cb true)) = Except.ok (final, traces) ∧
      final.io_task_runner_ = some cur ∧
      (issuedHandles traces.flatten).length = cbs.length ∧
      final.scan_handle_ids_ = s.scan_handle_ids_ ∪ (issuedHandles traces.flatten).toFinset ∧
      traces.map stopScanCalls = List.replicate cbs.length 0 ∧
      (s.scan_handle_ids_ ≠ ∅ → traces.map startScanCalls = List.replicate cbs.length 0) := by
  induction cbs generalizing s with
  | nil => exact ⟨s, [], rfl, hthread, rfl, by simp [issuedHandles], rfl, fun _ => rfl⟩
  | cons cb rest ih =>
    have hcall := call_RequestScan_true ext cur cb s hthread
    obtain ⟨final, traces, hrun, hfinal, hlen, hset, hstop, hstart⟩ :=
      ih { s with
            next_scan_handle_id_ := int32_wrap (s.next_scan_handle_id_ + 1)
            scan_handle_ids_ := insert s.next_scan_handle_id_ s.scan_handle_ids_ } hthread
    refine ⟨final, _, run_cons_of_ok ext cur hcall hrun, hfinal, ?_, ?_, ?_, ?_⟩
    · rw [List.flatten_cons, issuedHandles_append, List.length_append, hlen]
      by_cases hempty : s.scan_handle_ids_ = ∅ <;> simp [hempty, issuedHandles] <;> omega
    · rw [hset, List.flatten_cons, issuedHandles_append]
      by_cases hempty : s.scan_handle_ids_ = ∅
      · simp [hempty, issuedHandles, Finset.insert_eq]
      · simp only [hempty, if_false, List.nil_append, issuedHandles, List.toFinset_cons,
          List.singleton_append, Finset.insert_eq, Finset.union_assoc]
        exact Finset.union_left_comm _ _ _
    · rw [List.map_cons, hstop]
      by_cases hempty : s.scan_handle_ids_ = ∅ <;>
        simp [hempty, stopScanCalls, List.replicate_succ]
    · intro hne
      rw [List.map_cons, hstart (Finset.insert_ne_empty _ _)]
      simp [hne, startScanCalls, List.replicate_succ]

/-- A run of releases on the IO thread, `StopScan` succeeding, of exactly the
live identifiers, each once: it completes, empties the set, never calls
`StartScan`, and calls `StopScan` once, in the last release. -/
theorem run_releases (order : List Int) (s : LeScanManagerImpl Addr)
    (hthread : s.io_task_runner_ = some cur) (hnodup : order.Nodup)
    (hset : s.scan_handle_ids_ = order.toFinset) :
    ∃ final traces,
      s.run ext cur (order.map (fun id => Call.NotifyScanHandleDestroyed id true)) =
        Except.ok (final, traces) ∧
      final.scan_handle_ids_ = ∅ ∧
      traces.map startScanCalls = List.replicate order.length 0 ∧
      (order ≠ [] →
        traces.map stopScanCalls = List.replicate (order.length - 1) 0 ++ [1]) := by
  induction order generalizing s with
  | nil => exact ⟨s, [], rfl, by simpa using hset, rfl, fun h => absurd rfl h⟩
  | cons id rest ih =>
    have hlive : id ∈ s.scan_handle_ids_ := by rw [hset]; simp
    have herase : s.scan_handle_ids_.erase id = rest.toFinset := by
      rw [hset, List.toFinset_cons, Finset.erase_insert]
      simpa using (List.nodup_cons.mp hnodup).1
    have hcall : s.call ext cur (Call.NotifyScanHandleDestroyed id true) = _ :=
      NotifyScanHandleDestroyed_on_thread cur s true id hthread hlive
    obtain ⟨final, traces, hrun, hfinal, hstart, hstop⟩ :=
      ih { s with scan_handle_ids_ := s.scan_handle_ids_.erase id } hthread
        (List.nodup_cons.mp hnodup).2 herase
    refine ⟨final, _, run_cons_of_ok ext cur hcall hrun, hfinal, ?_, fun _ => ?_⟩
    · rw [List.map_cons, hstart]
      by_cases hlast : s.scan_handle_ids_.erase id = ∅ <;>
        simp [hlast, startScanCalls, List.replicate_succ]
    · cases rest with
      | nil =>
        simp only [List.map_nil, run_nil, Except.ok.injEq, Prod.mk.injEq] at hrun
        rw [← hrun.2]
        simp [herase, stopScanCalls]
      | cons id2 rest2 =>
        have hne : s.scan_handle_ids_.erase id ≠ ∅ := by
          rw [herase]; simp
        rw [List.map_cons, hstop (List.cons_ne_nil _ _)]
        simp [hne, stopScanCalls, List.replicate_succ]

/-- C2: for every `N ≥ 1` (with the `N` identifiers fitting below the `int32_t`
overflow of the counter) and a driver whose `StartScan` and `StopScan` succeed,
`N` `RequestScan` calls from the initial state complete and issue `N` handles,
and releasing these handles in any permuted order completes; `StartScan` is
called exactly once, during the first request, and `StopScan` exactly once,
during the last release. -/
theorem start_once_stop_once (first_id : Int) (N : Nat) (cbOf : Nat → Callback)
    (hN : 1 ≤ N) (hlo : -2147483648 ≤ first_id) (hhi : first_id < 2147483648)
    (hfit : first_id + N ≤ 2147483648) :
    ∃ scanning requestTraces,
      (LeScanManagerImpl.initial cur first_id : LeScanManagerImpl Addr).run ext cur
          ((List.range N).map (fun k => Call.RequestScan (cbOf k) true)) =
        Except.ok (scanning, requestTraces) ∧
      (issuedHandles requestTraces.flatten).length = N ∧
      requestTraces.map startScanCalls = 1 :: List.replicate (N - 1) 0 ∧
      requestTraces.map stopScanCalls = List.replicate N 0 ∧
      ∀ order : List Int, order.Perm (issuedHandles requestTraces.flatten) →
        ∃ final releaseTraces,
          scanning.run ext cur (order.map (fun id => Call.NotifyScanHandleDestroyed id true)) =
            Except.ok (final, releaseTraces) ∧
          final.scan_handle_ids_ = ∅ ∧
          releaseTraces.map startScanCalls = List.replicate N 0 ∧
          releaseTraces.map stopScanCalls = List.replicate (N - 1) 0 ++ [1] := by
  obtain ⟨M, rfl⟩ : ∃ M, N = M + 1 := ⟨N - 1, by omega⟩
  have hcalls : (List.range (M + 1)).map
        (fun k => (Call.RequestScan (cbOf k) true : Call Addr)) =
      Call.RequestScan (cbOf 0) true ::
        ((List.range M).map (fun k => cbOf (k + 1))).map (fun cb => Call.RequestScan cb true) := by
    rw [List.range_succ_eq_map]
    simp [Function.comp_def]
  have hthread0 : (LeScanManagerImpl.initial cur first_id : LeScanManagerImpl Addr).io_task_runner_
      = some cur := rfl
  have hcall : (LeScanManagerImpl.initial cur first_id : LeScanManagerImpl Addr).call ext cur
        (Call.RequestScan (cbOf 0) true) =
      Except.ok
        { state := { io_task_runner_ := some cur
                     scan_handle_ids_ := {first_id}
                     next_scan_handle_id_ := int32_wrap (first_id + 1)
                     addr_to_scan_results_ := [] },
          trace := [Event.StartScan true, Event.OnScanEnableChanged true,
                    Event.RunRequestScanCallback (cbOf 0) (some first_id)],
          posted := [] } := by
    rw [call_RequestScan_true ext cur (cbOf 0) _ hthread0]
    simp [LeScanManagerImpl.initial, LeScanManagerImpl.Initialize, LeScanManagerImpl.new]
  obtain ⟨scanning, traces, hrun, hthread, hlen, hset, hstop, hstart⟩ :=
    run_requests ext cur ((List.range M).map (fun k => cbOf (k + 1)))
      ({ io_task_runner_ := some cur
         scan_handle_ids_ := {first_id}
         next_scan_handle_id_ := int32_wrap (first_id + 1)
         addr_to_scan_results_ := [] } : LeScanManagerImpl Addr) rfl
  have hrun1 := run_cons_of_ok ext cur hcall hrun
  rw [← hcalls] at hrun1
  simp only [List.length_map, List.length_range] at hlen hstop hstart
  have hflat : issuedHandles (List.flatten
      ([Event.StartScan true, Event.OnScanEnableChanged true,
        Event.RunRequestScanCallback (cbOf 0) (some first_id)] :: traces)) =
      first_id :: issuedHandles traces.flatten := by
    rw [List.flatten_cons, issuedHandles_append]
    rfl
  have hlen1 : (issuedHandles (List.flatten
      ([Event.StartScan true, Event.OnScanEnableChanged true,
        Event.RunRequestScanCallback (cbOf 0) (some first_id)] :: traces))).length = M + 1 := by
    rw [hflat, List.length_cons, hlen]
  refine ⟨scanning, _, hrun1, hlen1, ?_, ?_, ?_⟩
  · rw [List.map_cons, hstart (Finset.singleton_ne_empty _)]
    simp [startScanCalls]
  · rw [List.map_cons, hstop]
    simp [stopScanCalls, List.replicate_succ]
  · intro order hperm
    have hnodup := ((run_ids ext cur hrun1 hlo hhi (by rw [hlen1]; exact_mod_cast hfit)).1).imp
        (fun hlt => ne_of_lt hlt)
    have hids : scanning.scan_handle_ids_ = order.toFinset := by
      rw [List.toFinset_eq_of_perm _ _ hperm, hset, hflat]
      simp [Finset.insert_eq]
    obtain ⟨final, releaseTraces, hrel, hfinal, hstart2, hstop2⟩ :=
      run_releases ext cur order scanning hthread ((hperm.nodup_iff).mpr hnodup) hids
    have hlen2 : order.length = M + 1 := by rw [hperm.length_eq, hlen1]
    have hne : order ≠ [] := by
      intro h
      rw [h] at hlen2
      simp at hlen2
    refine ⟨final, releaseTraces, hrel, hfinal, ?_, ?_⟩
    · rw [hstart2, hlen2]
    · rw [hstop2 hne, hlen2]

end Executions

/-! ## The theorems at concrete inputs -/

section Concrete

/-- C1, refuted as stated: after one successful `RequestScan` and the release of
its handle with `StopScan` returning false, `scan_handle_ids_` is empty and the
radio is still active. -/
theorem radio_active_with_no_handles :
    LeScanManagerImpl.sample.run Externals.sample 7
        [Call.RequestScan (Callback.mk 1) true, Call.NotifyScanHandleDestroyed 0 false] =
      Except.ok
        ({ io_task_runner_ := some 7, scan_handle_ids_ := ∅, next_scan_handle_id_ := 1,
           addr_to_scan_results_ := [] },
         [[Event.StartScan true, Event.OnScanEnableChanged true,
           Event.RunRequestScanCallback (Callback.mk 1) (some 0)],
          [Event.StopScan false, Event.LogError "Failed to disable scanning"]]) ∧
    ¬ (radioAfter false
        ([Event.StartScan true, Event.OnScanEnableChanged true,
          Event.RunRequestScanCallback (Callback.mk 1) (some 0),
          Event.StopScan false, Event.LogError "Failed to disable scanning"] :
          List (Event Nat)) = true ↔
      (∅ : Finset Int) ≠ ∅) := by
  refine ⟨rfl, ?_⟩
  simp [radioAfter]

/-- Witness of C1: two requests and one release from the initial state. -/
theorem radio_active_while_handles_live_witness :
    (({0} : Finset Int) ≠ ∅ →
      radioAfter false (List.flatten
        ([[Event.StartScan true, Event.OnScanEnableChanged true,
           Event.RunRequestScanCallback (Callback.mk 1) (some 0)],
          [Event.RunRequestScanCallback (Callback.mk 2) (some 1)],
          []] : List (List (Event Nat)))) = true) ∧
    (stopScanNeverFails (List.flatten
        ([[Event.StartScan true, Event.OnScanEnableChanged true,
           Event.RunRequestScanCallback (Callback.mk 1) (some 0)],
          [Event.RunRequestScanCallback (Callback.mk 2) (some 1)],
          []] : List (List (Event Nat)))) →
      (radioAfter false (List.flatten
        ([[Event.StartScan true, Event.OnScanEnableChanged true,
           Event.RunRequestScanCallback (Callback.mk 1) (some 0)],
          [Event.RunRequestScanCallback (Callback.mk 2) (some 1)],
          []] : List (List (Event Nat)))) = true ↔
        ({0} : Finset Int) ≠ ∅)) :=
  radio_active_while_handles_live Externals.sample 7 0
    [Call.RequestScan (Callback.mk 1) true, Call.RequestScan (Callback.mk 2) false,
     Call.NotifyScanHandleDestroyed 1 true]
    { io_task_runner_ := some 7, scan_handle_ids_ := {0}, next_scan_handle_id_ := 2,
      addr_to_scan_results_ := [] }
    _ rfl

/-- Witness of C2: three requests from the initial state with counter 0, and
every order of releasing the three handles. -/
theorem start_once_stop_once_witness :
    ∃ scanning requestTraces,
      (LeScanManagerImpl.initial 7 0 : LeScanManagerImpl Nat).run Externals.sample 7
          ((List.range 3).map (fun k => Call.RequestScan (Callback.mk k) true)) =
        Except.ok (scanning, requestTraces) ∧
      (issuedHandles requestTraces.flatten).length = 3 ∧
      requestTraces.map startScanCalls = 1 :: List.replicate (3 - 1) 0 ∧
      requestTraces.map stopScanCalls = List.replicate 3 0 ∧
      ∀ order : List Int, order.Perm (issuedHandles requestTraces.flatten) →
        ∃ final releaseTraces,
          scanning.run Externals.sample 7
              (order.map (fun id => Call.NotifyScanHandleDestroyed id true)) =
            Except.ok (final, releaseTraces) ∧
          final.scan_handle_ids_ = ∅ ∧
          releaseTraces.map startScanCalls = List.replicate 3 0 ∧
          releaseTraces.map stopScanCalls = List.replicate (3 - 1) 0 ++ [1] :=
  start_once_stop_once Externals.sample 7 0 3 Callback.mk (by decide) (by decide) (by decide)
    (by decide)

/-- Witness of C3: a failed first request on the initial manager. -/
theorem RequestScan_start_failure_witness :
    ∃ out, LeScanManagerImpl.sample.RequestScan 7 false (Callback.mk 1) = Except.ok out ∧
      requestScanReplies out.trace = [none] ∧
      enableNotifications out.trace = [] ∧
      out.posted = [] ∧
      out.state = LeScanManagerImpl.sample ∧
      out.state.scan_handle_ids_ = ∅ ∧
      out.state.next_scan_handle_id_ = LeScanManagerImpl.sample.next_scan_handle_id_ ∧
      out.state.addr_to_scan_results_ = LeScanManagerImpl.sample.addr_to_scan_results_ :=
  RequestScan_start_failure 7 LeScanManagerImpl.sample (Callback.mk 1) rfl rfl

/-- Witness of C4: a request in the state reached by one successful request. -/
theorem RequestScan_delivers_fresh_handle_witness :
    ∃ out, LeScanManagerImpl.sampleScanning.RequestScan 7 false (Callback.mk 2) =
        Except.ok out ∧
      ((∃ id, requestScanReplies out.trace = [some id]) ↔
        (LeScanManagerImpl.sampleScanning.scan_handle_ids_ ≠ ∅ ∨ false = true)) ∧
      (¬ (LeScanManagerImpl.sampleScanning.scan_handle_ids_ ≠ ∅ ∨ false = true) →
        requestScanReplies out.trace = [none] ∧ out.state = LeScanManagerImpl.sampleScanning) ∧
      ((LeScanManagerImpl.sampleScanning.scan_handle_ids_ ≠ ∅ ∨ false = true) →
        ∃ id, requestScanReplies out.trace = [some id] ∧
          issuedHandles out.trace = [id] ∧
          id ∉ LeScanManagerImpl.sampleScanning.scan_handle_ids_ ∧
          out.state.scan_handle_ids_ =
            insert id LeScanManagerImpl.sampleScanning.scan_handle_ids_ ∧
          out.state.scan_handle_ids_.card =
            LeScanManagerImpl.sampleScanning.scan_handle_ids_.card + 1) :=
  RequestScan_delivers_fresh_handle Externals.sample 7 0
    [Call.RequestScan (Callback.mk 1) true] LeScanManagerImpl.sampleScanning
    [[Event.StartScan true, Event.OnScanEnableChanged true,
      Event.RunRequestScanCallback (Callback.mk 1) (some 0)]]
    false (Callback.mk 2) (by decide) (by decide) rfl (by decide)

/-- Witness of C5: releasing handle 0 while handle 1 is live. -/
theorem NotifyScanHandleDestroyed_erases_witness :
    ∃ out, LeScanManagerImpl.sampleTwoHandles.NotifyScanHandleDestroyed 7 false 0 =
        Except.ok out ∧
      out.state.scan_handle_ids_ = LeScanManagerImpl.sampleTwoHandles.scan_handle_ids_.erase 0 ∧
      (0 : Int) ∉ out.state.scan_handle_ids_ ∧
      (∀ other, other ∈ LeScanManagerImpl.sampleTwoHandles.scan_handle_ids_ → other ≠ 0 →
        other ∈ out.state.scan_handle_ids_) ∧
      (∀ other, other ∈ out.state.scan_handle_ids_ →
        other ∈ LeScanManagerImpl.sampleTwoHandles.scan_handle_ids_) :=
  NotifyScanHandleDestroyed_erases 7 LeScanManagerImpl.sampleTwoHandles false 0 rfl (by decide)

/-- C6, refuted as stated: the release that empties `scan_handle_ids_` with
`StopScan` returning false issues no `OnScanEnableChanged` notification. -/
theorem no_notification_when_stop_fails :
    ∃ out, LeScanManagerImpl.sampleScanning.NotifyScanHandleDestroyed 7 false 0 =
        Except.ok out ∧
      out.state.scan_handle_ids_ = ∅ ∧
      out.trace = [Event.StopScan false, Event.LogError "Failed to disable scanning"] ∧
      enableNotifications out.trace = [] :=
  ⟨_, rfl, rfl, rfl, rfl⟩

/-- Witness of C6: the release that empties the set with `StopScan` returning
true. -/
theorem NotifyScanHandleDestroyed_notifications_witness :
    ∃ out, LeScanManagerImpl.sampleScanning.NotifyScanHandleDestroyed 7 true 0 =
        Except.ok out ∧
      enableNotifications out.trace =
        if out.state.scan_handle_ids_ = ∅ ∧ true = true then [false] else [] :=
  NotifyScanHandleDestroyed_notifications 7 LeScanManagerImpl.sampleScanning true 0 rfl
    (by decide)

/-- Witness of C7: the release of the only live handle. -/
theorem NotifyScanHandleDestroyed_stop_failure_witness :
    ∃ failed succeeded,
      LeScanManagerImpl.sampleScanning.NotifyScanHandleDestroyed 7 false 0 = Except.ok failed ∧
      LeScanManagerImpl.sampleScanning.NotifyScanHandleDestroyed 7 true 0 =
        Except.ok succeeded ∧
      (0 : Int) ∉ failed.state.scan_handle_ids_ ∧
      failed.state.scan_handle_ids_ = ∅ ∧
      failed.state.next_scan_handle_id_ =
        LeScanManagerImpl.sampleScanning.next_scan_handle_id_ ∧
      failed.state.addr_to_scan_results_ =
        LeScanManagerImpl.sampleScanning.addr_to_scan_results_ ∧
      failed.state = succeeded.state :=
  NotifyScanHandleDestroyed_stop_failure 7 LeScanManagerImpl.sampleScanning 0 rfl (by decide)
    (by decide)

/-- Witness of C9: the first request on the initial manager. -/
theorem RequestScan_effect_order_witness :
    (LeScanManagerImpl.sample.scan_handle_ids_ = ∅ →
      ∃ out, LeScanManagerImpl.sample.RequestScan 7 true (Callback.mk 1) = Except.ok out ∧
        out.trace = [Event.StartScan true, Event.OnScanEnableChanged true,
                     Event.RunRequestScanCallback (Callback.mk 1)
                       (some LeScanManagerImpl.sample.next_scan_handle_id_)]) ∧
    (LeScanManagerImpl.sample.scan_handle_ids_ ≠ ∅ →
      ∀ StartScan, ∃ out,
        LeScanManagerImpl.sample.RequestScan 7 StartScan (Callback.mk 1) = Except.ok out ∧
        enableNotifications out.trace = []) :=
  RequestScan_effect_order 7 LeScanManagerImpl.sample (Callback.mk 1) rfl

/-- Witness of C10: three handles issued around a release; their identifiers
are 0, 1 and 2. -/
theorem issued_identifiers_strictly_increasing_witness :
    issuedHandles (List.flatten
        ([[Event.StartScan true, Event.OnScanEnableChanged true,
           Event.RunRequestScanCallback (Callback.mk 1) (some 0)],
          [Event.RunRequestScanCallback (Callback.mk 2) (some 1)],
          [],
          [Event.RunRequestScanCallback (Callback.mk 3) (some 2)]] :
          List (List (Event Nat)))) = [0, 1, 2] ∧
    (issuedHandles (List.flatten
        ([[Event.StartScan true, Event.OnScanEnableChanged true,
           Event.RunRequestScanCallback (Callback.mk 1) (some 0)],
          [Event.RunRequestScanCallback (Callback.mk 2) (some 1)],
          [],
          [Event.RunRequestScanCallback (Callback.mk 3) (some 2)]] :
          List (List (Event Nat))))).Pairwise (· < ·) ∧
    (issuedHandles (List.flatten
        ([[Event.StartScan true, Event.OnScanEnableChanged true,
           Event.RunRequestScanCallback (Callback.mk 1) (some 0)],
          [Event.RunRequestScanCallback (Callback.mk 2) (some 1)],
          [],
          [Event.RunRequestScanCallback (Callback.mk 3) (some 2)]] :
          List (List (Event Nat))))).Nodup :=
  ⟨rfl,
   issued_identifiers_strictly_increasing Externals.sample 7 0
    [Call.RequestScan (Callback.mk 1) true, Call.RequestScan (Callback.mk 2) true,
     Call.NotifyScanHandleDestroyed 0 true, Call.RequestScan (Callback.mk 3) false]
    { io_task_runner_ := some 7, scan_handle_ids_ := {2, 1}, next_scan_handle_id_ := 3,
      addr_to_scan_results_ := [] }
    _ (by decide) (by decide) rfl (by decide)⟩

end Concrete

/-! ## Release of an identifier that is not live -/

section ReleaseConsistency

variable (cur : ThreadId) (s : LeScanManagerImpl Addr)

/-- C11: on the IO thread, `NotifyScanHandleDestroyed(id)` fails the assertion
`DCHECK_EQ(num_removed, 1u)` exactly when `id` is not in `scan_handle_ids_`;
when `id` is in the set the call returns normally, and it fails in no other
way. -/
theorem NotifyScanHandleDestroyed_fatal_iff_absent (StopScan : Bool) (id : Int)
    (hthread : s.io_task_runner_ = some cur) :
    (s.NotifyScanHandleDestroyed cur StopScan id = Except.error Fatal.DCHECK_EQ_num_removed ↔
      id ∉ s.scan_handle_ids_) ∧
    ((∃ e, s.NotifyScanHandleDestroyed cur StopScan id = Except.error e) ↔
      id ∉ s.scan_handle_ids_) ∧
    (id ∈ s.scan_handle_ids_ →
      ∃ out, s.NotifyScanHandleDestroyed cur StopScan id = Except.ok out) := by
  by_cases hlive : id ∈ s.scan_handle_ids_
  · rw [NotifyScanHandleDestroyed_on_thread cur s StopScan id hthread hlive]
    simp [hlive]
  · have hfatal : s.NotifyScanHandleDestroyed cur StopScan id =
        Except.error Fatal.DCHECK_EQ_num_removed := by
      simp [LeScanManagerImpl.NotifyScanHandleDestroyed, hthread, hlive]
    rw [hfatal]
    simp [hlive]

end ReleaseConsistency

/-! ## The result store: single calls -/

section StoreCalls

variable [LinearOrder Addr] (ext : Externals Addr) (cur : ThreadId) (s : LeScanManagerImpl Addr)

/-- `OnScanResult` on an event that fails to parse. -/
theorem OnScanResult_of_parse_failure (ev : LeScanner.ScanResult Addr)
    (hparse : ext.SetAdvData ev.adv_data = none) :
    s.OnScanResult ext ev = { state := s, trace := [], posted := [] } := by
  simp [LeScanManagerImpl.OnScanResult, hparse]

/-- `OnScanResult` on a successfully parsed event, as one expression. -/
theorem OnScanResult_of_parse_success (ev : LeScanner.ScanResult Addr) (adv_data : Bytes)
    (hparse : ext.SetAdvData ev.adv_data = some adv_data) :
    s.OnScanResult ext ev =
      { state :=
          { s with
            addr_to_scan_results_ :=
              map_update ev.addr
                (updatedHistory { addr := ev.addr, adv_data := adv_data, rssi := ev.rssi })
                s.addr_to_scan_results_ },
        trace := [Event.OnNewScanResult
                    { addr := ev.addr, adv_data := adv_data, rssi := ev.rssi }],
        posted := [] } := by
  simp only [LeScanManagerImpl.OnScanResult, hparse]
  rfl

/-- C15: for every store and every event whose advertisement bytes fail to
parse, `OnScanResult` performs no effect (in particular no `OnNewScanResult`
notification) and leaves the manager unchanged: the store is the same map, so
no history is altered and no entry is created for the event's address. -/
theorem OnScanResult_parse_failure_is_discarded (ev : LeScanner.ScanResult Addr)
    (hparse : ext.SetAdvData ev.adv_data = none) :
    newScanResultNotifications (s.OnScanResult ext ev).trace = [] ∧
    (s.OnScanResult ext ev).trace = [] ∧
    (s.OnScanResult ext ev).state = s ∧
    (s.OnScanResult ext ev).state.addr_to_scan_results_ = s.addr_to_scan_results_ ∧
    (∀ a, history a (s.OnScanResult ext ev).state.addr_to_scan_results_ =
      history a s.addr_to_scan_results_) ∧
    hasEntry ev.addr (s.OnScanResult ext ev).state.addr_to_scan_results_ =
      hasEntry ev.addr s.addr_to_scan_results_ := by
  rw [OnScanResult_of_parse_failure ext s ev hparse]
  exact ⟨rfl, rfl, rfl, rfl, fun _ => rfl, rfl⟩

/-- C16: for every store and every successfully parsed event, `OnScanResult`
issues exactly one `OnNewScanResult` notification, and it carries the result
built from the event's address, its RSSI and the parsed payload; this does not
depend on the store, hence not on whether an entry was deduplicated or
evicted. -/
theorem OnScanResult_notifies_once (ev : LeScanner.ScanResult Addr) (adv_data : Bytes)
    (hparse : ext.SetAdvData ev.adv_data = some adv_data) :
    newScanResultNotifications (s.OnScanResult ext ev).trace =
      [{ addr := ev.addr, adv_data := adv_data, rssi := ev.rssi }] ∧
    (s.OnScanResult ext ev).trace =
      [Event.OnNewScanResult { addr := ev.addr, adv_data := adv_data, rssi := ev.rssi }] := by
  rw [OnScanResult_of_parse_success ext s ev adv_data hparse]
  exact ⟨rfl, rfl⟩

/-- C17: `ClearScanResults` on the IO thread leaves the store with no entry and
no history for any address, leaves `scan_handle_ids_` and
`next_scan_handle_id_` unchanged, and performs no effect at all: no `StartScan`,
no `StopScan`, no notification; it posts nothing. -/
theorem ClearScanResults_clears_store_only (hthread : s.io_task_runner_ = some cur) :
    ∃ out, s.ClearScanResults cur = Except.ok out ∧
      out.state.addr_to_scan_results_ = [] ∧
      (∀ a, history a out.state.addr_to_scan_results_ = [] ∧
        hasEntry a out.state.addr_to_scan_results_ = false) ∧
      out.state.scan_handle_ids_ = s.scan_handle_ids_ ∧
      out.state.next_scan_handle_id_ = s.next_scan_handle_id_ ∧
      startScanCalls out.trace = 0 ∧ stopScanCalls out.trace = 0 ∧
      enableNotifications out.trace = [] ∧ newScanResultNotifications out.trace = [] ∧
      out.trace = [] ∧ out.posted = [] := by
  have hclear : s.ClearScanResults cur =
      Except.ok { state := { s with addr_to_scan_results_ := [] }, trace := [],
                  posted := [] } := by
    simp [LeScanManagerImpl.ClearScanResults, hthread]
  rw [hclear]
  exact ⟨_, rfl, rfl, fun _ => ⟨rfl, rfl⟩, rfl, rfl, rfl, rfl, rfl, rfl, rfl, rfl⟩

end StoreCalls

/-! ## The ordered map -/

section StoreMap

variable [LinearOrder Addr]

theorem mem_map_update {key : Addr} {f : List (LeScanResult Addr) → List (LeScanResult Addr)}
    {store : List (Addr × List (LeScanResult Addr))} {p : Addr × List (LeScanResult Addr)}
    (h : p ∈ map_update key f store) :
    p ∈ store ∨ (p.1 = key ∧ ∃ v, (v = [] ∨ (key, v) ∈ store) ∧ p.2 = f v) := by
  induction store with
  | nil =>
    simp only [map_update, List.mem_singleton] at h
    subst h
    exact Or.inr ⟨rfl, [], Or.inl rfl, rfl⟩
  | cons q rest ih =>
    obtain ⟨k, v⟩ := q
    simp only [map_update] at h
    split_ifs at h with hlt heq
    · rcases List.mem_cons.mp h with rfl | h
      · exact Or.inr ⟨rfl, [], Or.inl rfl, rfl⟩
      · exact Or.inl h
    · rcases List.mem_cons.mp h with rfl | h
      · subst heq
        exact Or.inr ⟨rfl, v, Or.inr (List.mem_cons_self _ _), rfl⟩
      · exact Or.inl (List.mem_cons_of_mem _ h)
    · rcases List.mem_cons.mp h with rfl | h
      · exact Or.inl (List.mem_cons_self _ _)
      · rcases ih h with hold | ⟨hkey, w, hw, hval⟩
        · exact Or.inl (List.mem_cons_of_mem _ hold)
        · refine Or.inr ⟨hkey, w, ?_, hval⟩
          rcases hw with hw | hw
          · exact Or.inl hw
          · exact Or.inr (List.mem_cons_of_mem _ hw)

/-- A property of the entries that holds in the store and for the updated
entry holds in the updated store. -/
theorem map_update_forall (P : Addr → List (LeScanResult Addr) → Prop) {key : Addr}
    {f : List (LeScanResult Addr) → List (LeScanResult Addr)}
    {store : List (Addr × List (LeScanResult Addr))}
    (hstore : ∀ p ∈ store, P p.1 p.2)
    (hnew : ∀ v, (v = [] ∨ (key, v) ∈ store) → P key (f v)) :
    ∀ p ∈ map_update key f store, P p.1 p.2 := by
  intro p hp
  rcases mem_map_update hp with hold | ⟨hkey, v, hv, hval⟩
  · exact hstore p hold
  · rw [hkey, hval]
    exact hnew v hv

theorem StoreOrdered_cons {k : Addr} {v : List (LeScanResult Addr)}
    {rest : List (Addr × List (LeScanResult Addr))} :
    StoreOrdered ((k, v) :: rest) ↔ (∀ p ∈ rest, k < p.1) ∧ StoreOrdered rest := by
  simp [StoreOrdered, List.pairwise_cons]

theorem StoreOrdered_map_update (key : Addr)
    (f : List (LeScanResult Addr) → List (LeScanResult Addr))
    {store : List (Addr × List (LeScanResult Addr))} (hord : StoreOrdered store) :
    StoreOrdered (map_update key f store) := by
  induction store with
  | nil => simp [map_update, StoreOrdered]
  | cons q rest ih =>
    obtain ⟨k, v⟩ := q
    obtain ⟨hk, hrest⟩ := StoreOrdered_cons.mp hord
    simp only [map_update]
    split_ifs with hlt heq
    · refine StoreOrdered_cons.mpr ⟨fun p hp => ?_, hord⟩
      rcases List.mem_cons.mp hp with rfl | hp
      · exact hlt
      · exact lt_trans hlt (hk p hp)
    · exact StoreOrdered_cons.mpr ⟨hk, hrest⟩
    · refine StoreOrdered_cons.mpr ⟨fun p hp => ?_, ih hrest⟩
      rcases mem_map_update hp with hold | ⟨hkey, -⟩
      · exact hk p hold
      · rw [hkey]
        exact lt_of_le_of_ne (not_lt.mp hlt) (fun h => heq h.symm)

theorem history_eq_nil_of_forall_ne {a : Addr} {store : List (Addr × List (LeScanResult Addr))}
    (h : ∀ p ∈ store, a ≠ p.1) : history a store = [] := by
  induction store with
  | nil => rfl
  | cons q rest ih =>
    obtain ⟨k, v⟩ := q
    have hne : a ≠ k := h (k, v) (List.mem_cons_self _ _)
    simp only [history, hne, if_false]
    exact ih (fun p hp => h p (List.mem_cons_of_mem _ hp))

/-- The history of an address is empty or is the list of an entry of the map. -/
theorem history_nil_or_mem (a : Addr) (store : List (Addr × List (LeScanResult Addr))) :
    history a store = [] ∨ (a, history a store) ∈ store := by
  induction store with
  | nil => exact Or.inl rfl
  | cons q rest ih =>
    obtain ⟨k, v⟩ := q
    by_cases hak : a = k
    · subst hak
      simp [history]
    · simp only [history, hak, if_false]
      rcases ih with h | h
      · exact Or.inl h
      · exact Or.inr (List.mem_cons_of_mem _ h)

/-- In an ordered map, the entry of a key holds the history of that key. -/
theorem history_of_mem {a : Addr} {v : List (LeScanResult Addr)}
    {store : List (Addr × List (LeScanResult Addr))} (hord : StoreOrdered store)
    (hmem : (a, v) ∈ store) : history a store = v := by
  induction store with
  | nil => cases hmem
  | cons q rest ih =>
    obtain ⟨k, w⟩ := q
    obtain ⟨hk, hrest⟩ := StoreOrdered_cons.mp hord
    rcases List.mem_cons.mp hmem with heq | hmem
    · cases heq
      simp [history]
    · have hne : a ≠ k := ne_of_gt (hk (a, v) hmem)
      simp only [history, hne, if_false]
      exact ih hrest hmem

/-- Reading back the updated key of an ordered map gives the update of its old
history. -/
theorem history_map_update_self (key : Addr)
    (f : List (LeScanResult Addr) → List (LeScanResult Addr))
    {store : List (Addr × List (LeScanResult Addr))} (hord : StoreOrdered store) :
    history key (map_update key f store) = f (history key store) := by
  induction store with
  | nil => simp [map_update, history]
  | cons q rest ih =>
    obtain ⟨k, v⟩ := q
    obtain ⟨hk, hrest⟩ := StoreOrdered_cons.mp hord
    simp only [map_update]
    split_ifs with hlt heq
    · have hnil : history key ((k, v) :: rest) = [] :=
        history_eq_nil_of_forall_ne (fun p hp => by
          rcases List.mem_cons.mp hp with rfl | hp
          · exact ne_of_lt hlt
          · exact ne_of_lt (lt_trans hlt (hk p hp)))
      rw [hnil]
      simp [history]
    · subst heq
      simp [history]
    · simp only [history, heq, if_false]
      exact ih hrest

/-- The histories of the other keys are not touched by an update. -/
theorem history_map_update_other {a key : Addr} (hne : a ≠ key)
    (f : List (LeScanResult Addr) → List (LeScanResult Addr))
    (store : List (Addr × List (LeScanResult Addr))) :
    history a (map_update key f store) = history a store := by
  induction store with
  | nil => simp [map_update, history, hne]
  | cons q rest ih =>
    obtain ⟨k, v⟩ := q
    simp only [map_update]
    split_ifs with hlt heq
    · simp [history, hne]
    · subst heq
      simp [history, hne]
    · by_cases hak : a = k
      · simp [history, hak]
      · simp only [history, hak, if_false]
        exact ih

end StoreMap

/-! ## The update of one history -/

section HistoryUpdate

theorem updatedHistory_subset (r : LeScanResult Addr) (old : List (LeScanResult Addr)) :
    ∀ x ∈ updatedHistory r old, x = r ∨ x ∈ old := by
  intro x hx
  unfold updatedHistory at hx
  simp only at hx
  have hpushed : x ∈ r :: old.filter (fun q => !decide (q.adv_data = r.adv_data)) := by
    split_ifs at hx
    · exact List.mem_of_mem_dropLast hx
    · exact hx
  rcases List.mem_cons.mp hpushed with h | h
  · exact Or.inl h
  · exact Or.inr (List.mem_filter.mp h).1

theorem updatedHistory_length_le (r : LeScanResult Addr) {old : List (LeScanResult Addr)}
    (hold : old.length ≤ kMaxMessagesInQueue) :
    (updatedHistory r old).length ≤ kMaxMessagesInQueue := by
  unfold updatedHistory
  simp only
  have hfilter := List.length_filter_le (fun q : LeScanResult Addr =>
    !decide (q.adv_data = r.adv_data)) old
  split_ifs with hlen
  · rw [List.length_dropLast, List.length_cons]
    omega
  · exact not_lt.mp hlen

/-- The single `pop_back` leaves the first `kMaxMessagesInQueue` elements when
the old history was within the cap. -/
theorem updatedHistory_eq_take (r : LeScanResult Addr) {old : List (LeScanResult Addr)}
    (hold : old.length ≤ kMaxMessagesInQueue) :
    updatedHistory r old =
      (r :: old.filter (fun q => decide (q.adv_data ≠ r.adv_data))).take kMaxMessagesInQueue := by
  have hpred : (fun q : LeScanResult Addr => !decide (q.adv_data = r.adv_data)) =
      (fun q => decide (q.adv_data ≠ r.adv_data)) := by
    funext q
    simp
  unfold updatedHistory
  simp only [hpred]
  have hfilter := List.length_filter_le (fun q : LeScanResult Addr =>
    decide (q.adv_data ≠ r.adv_data)) old
  split_ifs with hlen
  · rw [List.dropLast_eq_take]
    congr 1
    rw [List.length_cons] at hlen ⊢
    omega
  · exact (List.take_of_length_le (not_lt.mp hlen)).symm

/-- The loop of the spec stops with the first `cap` elements. -/
theorem dropFromTailUntilWithin_eq_take (cap fuel : Nat) (l : List (LeScanResult Addr))
    (hfuel : l.length - cap ≤ fuel) :
    dropFromTailUntilWithin cap fuel l = l.take cap := by
  induction fuel generalizing l with
  | zero =>
    simp only [dropFromTailUntilWithin]
    exact (List.take_of_length_le (by omega)).symm
  | succ n ih =>
    simp only [dropFromTailUntilWithin]
    split_ifs with hlen
    · rw [ih l.dropLast (by rw [List.length_dropLast]; omega), List.dropLast_eq_take,
        List.take_take]
      congr 1
      omega
    · exact (List.take_of_length_le (not_lt.mp hlen)).symm

theorem specUpdatedHistory_eq_take (cap : Nat) (r : LeScanResult Addr)
    (old : List (LeScanResult Addr)) :
    specUpdatedHistory cap r old =
      (r :: old.filter (fun q => decide (q.adv_data ≠ r.adv_data))).take cap := by
  unfold specUpdatedHistory
  exact dropFromTailUntilWithin_eq_take cap _ _ (Nat.sub_le _ _)

end HistoryUpdate

/-! ## Invariants of the result store -/

section StoreInvariants

variable [LinearOrder Addr] (ext : Externals Addr) (cur : ThreadId)

theorem StoreInvariant_nil : StoreInvariant ([] : List (Addr × List (LeScanResult Addr))) := by
  simp [StoreInvariant, StoreOrdered]

theorem StoreInvariant_map_update (r : LeScanResult Addr)
    {store : List (Addr × List (LeScanResult Addr))} (h : StoreInvariant store) :
    StoreInvariant (map_update r.addr (updatedHistory r) store) := by
  obtain ⟨hord, hlen, haddr⟩ := h
  refine ⟨StoreOrdered_map_update _ _ hord, ?_, ?_⟩
  · refine map_update_forall (fun _ v => v.length ≤ kMaxMessagesInQueue) hlen ?_
    intro v hv
    apply updatedHistory_length_le
    rcases hv with rfl | hv
    · simp
    · exact hlen _ hv
  · refine map_update_forall (fun k v => ∀ x ∈ v, x.addr = k) haddr ?_
    intro v hv x hx
    rcases updatedHistory_subset r v x hx with rfl | hx
    · rfl
    · rcases hv with rfl | hv
      · cases hx
      · exact haddr _ hv x hx

/-- What one successful call can do to the store: nothing, clear it, or update
the history of the address of one result. -/
theorem call_store {c : Call Addr} {s : LeScanManagerImpl Addr} {out : Outcome Addr}
    (h : s.call ext cur c = Except.ok out) :
    out.state.addr_to_scan_results_ = s.addr_to_scan_results_ ∨
    out.state.addr_to_scan_results_ = [] ∨
    ∃ r, out.state.addr_to_scan_results_ =
      map_update r.addr (updatedHistory r) s.addr_to_scan_results_ := by
  cases c with
  | RequestScan cb StartScan =>
    left
    simp only [LeScanManagerImpl.call] at h
    cases hr : s.io_task_runner_ with
    | none => simp [LeScanManagerImpl.RequestScan, hr] at h
    | some runner =>
      by_cases hcur : runner = cur
      · subst hcur
        rw [RequestScan_on_thread runner s StartScan cb hr] at h
        split_ifs at h <;> cases h <;> rfl
      · simp [LeScanManagerImpl.RequestScan, hr, hcur] at h
        subst h
        rfl
  | NotifyScanHandleDestroyed id StopScan =>
    left
    simp only [LeScanManagerImpl.call] at h
    cases hr : s.io_task_runner_ with
    | none => simp [LeScanManagerImpl.NotifyScanHandleDestroyed, hr] at h
    | some runner =>
      by_cases hcur : runner = cur
      · subst hcur
        by_cases hlive : id ∈ s.scan_handle_ids_
        · rw [NotifyScanHandleDestroyed_on_thread runner s StopScan id hr hlive] at h
          cases h
          rfl
        · simp [LeScanManagerImpl.NotifyScanHandleDestroyed, hr, hlive] at h
      · simp [LeScanManagerImpl.NotifyScanHandleDestroyed, hr, hcur] at h
  | OnScanResult ev =>
    simp only [LeScanManagerImpl.call, Except.ok.injEq] at h
    subst h
    cases hparse : ext.SetAdvData ev.adv_data with
    | none =>
      left
      rw [OnScanResult_of_parse_failure ext s ev hparse]
    | some adv_data =>
      right; right
      rw [OnScanResult_of_parse_success ext s ev adv_data hparse]
      exact ⟨{ addr := ev.addr, adv_data := adv_data, rssi := ev.rssi }, rfl⟩
  | ClearScanResults =>
    simp only [LeScanManagerImpl.call] at h
    cases hr : s.io_task_runner_ with
    | none => simp [LeScanManagerImpl.ClearScanResults, hr] at h
    | some runner =>
      by_cases hcur : runner = cur <;>
        simp [LeScanManagerImpl.ClearScanResults, hr, hcur] at h <;> subst h <;> simp
  | GetScanResults cb scan_filter =>
    left
    simp only [LeScanManagerImpl.call] at h
    cases hr : s.io_task_runner_ with
    | none => simp [LeScanManagerImpl.GetScanResults, hr] at h
    | some runner =>
      by_cases hcur : runner = cur <;>
        simp [LeScanManagerImpl.GetScanResults, LeScanManagerImpl.GetScanResultsInternal, hr,
          hcur] at h <;> subst h <;> rfl

/-- A property of stores that holds for the empty map and is kept by the update
of one history holds along every execution. -/
theorem run_store_invariant (P : List (Addr × List (LeScanResult Addr)) → Prop)
    (hclear : P [])
    (hupdate : ∀ store r, P store → P (map_update r.addr (updatedHistory r) store))
    {calls : List (Call Addr)} {s final : LeScanManagerImpl Addr}
    {traces : List (List (Event Addr))}
    (hrun : s.run ext cur calls = Except.ok (final, traces))
    (hs : P s.addr_to_scan_results_) : P final.addr_to_scan_results_ := by
  induction calls generalizing s traces with
  | nil =>
    simp only [run_nil, Except.ok.injEq, Prod.mk.injEq] at hrun
    rw [← hrun.1]
    exact hs
  | cons c cs ih =>
    obtain ⟨out, rest, hc, hr, -⟩ := run_cons_ok ext cur hrun
    apply ih hr
    rcases call_store ext cur hc with h | h | ⟨r, h⟩
    · rw [h]; exact hs
    · rw [h]; exact hclear
    · rw [h]; exact hupdate _ r hs

/-- Every store reached from the initial state satisfies the store
invariant. -/
theorem reachable_StoreInvariant {first_id : Int} {calls : List (Call Addr)}
    {final : LeScanManagerImpl Addr} {traces : List (List (Event Addr))}
    (hrun : (LeScanManagerImpl.initial cur first_id).run ext cur calls =
      Except.ok (final, traces)) :
    StoreInvariant final.addr_to_scan_results_ :=
  run_store_invariant ext cur StoreInvariant StoreInvariant_nil
    (fun _ r h => StoreInvariant_map_update r h) hrun StoreInvariant_nil

end StoreInvariants

/-! ## The bounded, deduplicated history -/

section BoundedHistory

variable [LinearOrder Addr] (ext : Externals Addr) (cur : ThreadId)

/-- The history of the event's address after a successfully parsed event, in
an ordered store. -/
theorem OnScanResult_history {s : LeScanManagerImpl Addr} (ev : LeScanner.ScanResult Addr)
    {adv_data : Bytes} (hparse : ext.SetAdvData ev.adv_data = some adv_data)
    (hord : StoreOrdered s.addr_to_scan_results_) :
    history ev.addr (s.OnScanResult ext ev).state.addr_to_scan_results_ =
      updatedHistory { addr := ev.addr, adv_data := adv_data, rssi := ev.rssi }
        (history ev.addr s.addr_to_scan_results_) ∧
    StoreOrdered (s.OnScanResult ext ev).state.addr_to_scan_results_ := by
  rw [OnScanResult_of_parse_success ext s ev adv_data hparse]
  exact ⟨history_map_update_self _ _ hord, StoreOrdered_map_update _ _ hord⟩

/-- C12: in every state reached from the initial state and for every
successfully parsed event `ev`, the history of `ev.addr` after `OnScanResult`
is the first 5 elements of the new result followed by the entries of the old
history (empty if the address had no entry) whose `adv_data` differs from the
new one; this is also what the spec's "drop from the tail until it is within
cap" produces, so the single `pop_back` agrees with it. -/
theorem OnScanResult_history_is_first_five (first_id : Int) (calls : List (Call Addr))
    (s : LeScanManagerImpl Addr) (traces : List (List (Event Addr)))
    (ev : LeScanner.ScanResult Addr) (adv_data : Bytes)
    (hrun : (LeScanManagerImpl.initial cur first_id).run ext cur calls = Except.ok (s, traces))
    (hparse : ext.SetAdvData ev.adv_data = some adv_data) :
    history ev.addr (s.OnScanResult ext ev).state.addr_to_scan_results_ =
      (({ addr := ev.addr, adv_data := adv_data, rssi := ev.rssi } : LeScanResult Addr) ::
        (history ev.addr s.addr_to_scan_results_).filter
          (fun r => decide (r.adv_data ≠ adv_data))).take 5 ∧
    history ev.addr (s.OnScanResult ext ev).state.addr_to_scan_results_ =
      specUpdatedHistory 5 { addr := ev.addr, adv_data := adv_data, rssi := ev.rssi }
        (history ev.addr s.addr_to_scan_results_) := by
  obtain ⟨hord, hlen, -⟩ := reachable_StoreInvariant ext cur hrun
  have hold : (history ev.addr s.addr_to_scan_results_).length ≤ kMaxMessagesInQueue := by
    rcases history_nil_or_mem ev.addr s.addr_to_scan_results_ with h | h
    · rw [h]; simp
    · exact hlen _ h
  have htake := updatedHistory_eq_take
    ({ addr := ev.addr, adv_data := adv_data, rssi := ev.rssi } : LeScanResult Addr) hold
  rw [(OnScanResult_history ext ev hparse hord).1, specUpdatedHistory_eq_take]
  exact ⟨htake, htake⟩

/-- C13: in every state reached from the initial state (empty store) by any
sequence of calls, every per-address history has length at most 5. -/
theorem history_length_at_most_five (first_id : Int) (calls : List (Call Addr))
    (final : LeScanManagerImpl Addr) (traces : List (List (Event Addr)))
    (hrun : (LeScanManagerImpl.initial cur first_id).run ext cur calls =
      Except.ok (final, traces)) :
    (∀ p ∈ final.addr_to_scan_results_, p.2.length ≤ 5) ∧
    (∀ a, (history a final.addr_to_scan_results_).length ≤ 5) := by
  obtain ⟨-, hlen, -⟩ := reachable_StoreInvariant ext cur hrun
  refine ⟨hlen, fun a => ?_⟩
  rcases history_nil_or_mem a final.addr_to_scan_results_ with h | h
  · rw [h]; simp
  · exact hlen _ h

/-- C14 (as the code behaves): in a state reached from the initial state, for
an address with no prior history and pairwise distinct payloads A, B, C, D, E,
after `OnScanResult` on six successfully parsed events for that address with
payloads A, B, A, C, D, E in that order, the history of the address has
payloads exactly [E, D, C, A, B]: the earlier A is moved rather than
duplicated, and nothing is evicted because the cap is 5. -/
theorem history_after_ABACDE (first_id : Int) (calls : List (Call Addr))
    (s : LeScanManagerImpl Addr) (traces : List (List (Event Addr)))
    (a : Addr) (A B C D E : Bytes) (evs : List (LeScanner.ScanResult Addr))
    (hrun : (LeScanManagerImpl.initial cur first_id).run ext cur calls = Except.ok (s, traces))
    (hnone : history a s.addr_to_scan_results_ = [])
    (hdistinct : [A, B, C, D, E].Nodup)
    (hevs : evs.map (fun ev => (ev.addr, ext.SetAdvData ev.adv_data)) =
      [(a, some A), (a, some B), (a, some A), (a, some C), (a, some D), (a, some E)]) :
    ∃ final traces6,
      s.run ext cur (evs.map Call.OnScanResult) = Except.ok (final, traces6) ∧
      (history a final.addr_to_scan_results_).map (fun r => r.adv_data) = [E, D, C, A, B] := by
  obtain ⟨hord, -, -⟩ := reachable_StoreInvariant ext cur hrun
  rcases evs with _ | ⟨e1, _ | ⟨e2, _ | ⟨e3, _ | ⟨e4, _ | ⟨e5, _ | ⟨e6, _ | ⟨e7, rest⟩⟩⟩⟩⟩⟩⟩ <;>
    simp only [List.map_cons, List.map_nil, List.cons.injEq, Prod.mk.injEq, and_true,
      reduceCtorEq, and_false, false_and] at hevs
  obtain ⟨⟨ha1, hp1⟩, ⟨ha2, hp2⟩, ⟨ha3, hp3⟩, ⟨ha4, hp4⟩, ⟨ha5, hp5⟩, ha6, hp6⟩ := hevs
  simp only [List.nodup_cons, List.mem_cons, List.mem_singleton, not_or, List.not_mem_nil,
    not_false_eq_true, List.nodup_nil, and_true] at hdistinct
  obtain ⟨⟨hAB, hAC, hAD, hAE⟩, ⟨hBC, hBD, hBE⟩, ⟨hCD, hCE⟩, hDE⟩ := hdistinct
  refine ⟨_, _, rfl, ?_⟩
  obtain ⟨h1, o1⟩ := OnScanResult_history ext e1 hp1 hord
  obtain ⟨h2, o2⟩ := OnScanResult_history ext e2 hp2 o1
  obtain ⟨h3, o3⟩ := OnScanResult_history ext e3 hp3 o2
  obtain ⟨h4, o4⟩ := OnScanResult_history ext e4 hp4 o3
  obtain ⟨h5, o5⟩ := OnScanResult_history ext e5 hp5 o4
  obtain ⟨h6, -⟩ := OnScanResult_history ext e6 hp6 o5
  rw [ha1, hnone] at h1
  rw [ha2, h1] at h2
  rw [ha3, h2] at h3
  rw [ha4, h3] at h4
  rw [ha5, h4] at h5
  rw [ha6, h5] at h6
  change (history a _).map _ = _
  rw [h6]
  simp [updatedHistory, kMaxMessagesInQueue, hAB, hAC, hAD, hAE, hBC, hBD, hBE, hCD, hCE, hDE,
    Ne.symm hAB, Ne.symm hAC, Ne.symm hAD, Ne.symm hAE, Ne.symm hBC, Ne.symm hBD, Ne.symm hBE,
    Ne.symm hCD, Ne.symm hCE, Ne.symm hDE]

end BoundedHistory

/-! ## Snapshots -/

section Snapshots

variable (ext : Externals Addr) (cur : ThreadId) (s : LeScanManagerImpl Addr)

/-- The comparison passed to `std::sort` is a strict weak ordering. -/
theorem rssi_greater_strictWeakOrdering :
    StrictWeakOrdering (fun d1 d2 : LeScanResult Addr => decide (d1.rssi > d2.rssi)) := by
  refine ⟨fun a => by simp, fun a b c hab hbc => ?_, fun a b c hab hba hbc hcb => ?_⟩
  · simp only [gt_iff_lt, decide_eq_true_eq] at hab hbc ⊢
    omega
  · simp only [gt_iff_lt, decide_eq_false_iff_not, not_lt] at hab hba hbc hcb ⊢
    omega

/-- The inner loop of `GetScanResultsInternal` appends the results that pass. -/
theorem collect_history (p : LeScanResult Addr → Bool) (v acc : List (LeScanResult Addr)) :
    v.foldl (fun results scan_result =>
      if p scan_result then results ++ [scan_result] else results) acc = acc ++ v.filter p := by
  induction v generalizing acc with
  | nil => simp
  | cons r rest ih =>
    rw [List.foldl_cons, ih]
    by_cases hp : p r = true <;> simp [hp, List.filter_cons]

/-- The two nested loops of `GetScanResultsInternal` collect the results that
pass, in the iteration order of the map. -/
theorem collect_store (p : LeScanResult Addr → Bool)
    (store : List (Addr × List (LeScanResult Addr))) (acc : List (LeScanResult Addr)) :
    store.foldl (fun results pair =>
      pair.2.foldl (fun results scan_result =>
        if p scan_result then results ++ [scan_result] else results) results) acc =
      acc ++ (allResults store).filter p := by
  induction store generalizing acc with
  | nil => simp [allResults]
  | cons q rest ih =>
    rw [List.foldl_cons, ih, collect_history]
    simp [allResults, List.filter_append, List.append_assoc]

/-- `GetScanResultsInternal` on the IO thread, as one expression. -/
theorem GetScanResultsInternal_on_thread (scan_filter : Option (ScanFilter Addr))
    (hthread : s.io_task_runner_ = some cur) :
    s.GetScanResultsInternal ext cur scan_filter =
      Except.ok (ext.std_sort (fun d1 d2 => decide (d1.rssi > d2.rssi))
        ((allResults s.addr_to_scan_results_).filter (passesFilter scan_filter))) := by
  simp only [LeScanManagerImpl.GetScanResultsInternal, hthread, ne_eq, not_true_eq_false,
    if_false]
  congr 2
  have hcollect := collect_store (passesFilter scan_filter) s.addr_to_scan_results_ []
  rw [List.nil_append] at hcollect
  rw [← hcollect]
  congr 1
  funext results pair
  congr 1
  funext results scan_result
  cases scan_filter <;> simp [passesFilter]

/-- C18: for every store and every optional filter, the sequence returned by
`GetScanResultsInternal` (on the IO thread, `std::sort` obeying its contract)
is a permutation of the flattening of all per-address histories restricted to
the results that pass the filter: every result occurs in it as often as among
the stored results that pass, so nothing that matches is dropped and nothing
that does not match is returned. -/
theorem GetScanResultsInternal_is_permutation_of_matches [DecidableEq Addr]
    (scan_filter : Option (ScanFilter Addr))
    (hsort : ext.StdSortContract) (hthread : s.io_task_runner_ = some cur) :
    ∃ results, s.GetScanResultsInternal ext cur scan_filter = Except.ok results ∧
      results.Perm ((allResults s.addr_to_scan_results_).filter (passesFilter scan_filter)) ∧
      (∀ r, results.count r =
        ((allResults s.addr_to_scan_results_).filter (passesFilter scan_filter)).count r) ∧
      (∀ r, r ∈ results ↔
        r ∈ allResults s.addr_to_scan_results_ ∧ passesFilter scan_filter r = true) := by
  rw [GetScanResultsInternal_on_thread ext cur s scan_filter hthread]
  have hperm := (hsort (fun d1 d2 => decide (d1.rssi > d2.rssi))
    ((allResults s.addr_to_scan_results_).filter (passesFilter scan_filter))
    rssi_greater_strictWeakOrdering).1
  refine ⟨_, rfl, hperm, fun r => hperm.count_eq r, fun r => ?_⟩
  rw [hperm.mem_iff, List.mem_filter]

/-- C19: for every store and every optional filter, the sequence returned by
`GetScanResultsInternal` (on the IO thread, `std::sort` obeying its contract)
is sorted by non-increasing RSSI: the RSSI of each element is at least that of
every later element, in particular of the next one.  For example, when the
matching stored results have RSSI -80, -40, -60, they are returned in the
order -40, -60, -80. -/
theorem GetScanResultsInternal_sorted_by_rssi (scan_filter : Option (ScanFilter Addr))
    (hsort : ext.StdSortContract) (hthread : s.io_task_runner_ = some cur) :
    ∃ results, s.GetScanResultsInternal ext cur scan_filter = Except.ok results ∧
      results.Pairwise (fun d1 d2 => d1.rssi ≥ d2.rssi) ∧
      results.Chain' (fun d1 d2 => d1.rssi ≥ d2.rssi) ∧
      (((allResults s.addr_to_scan_results_).filter (passesFilter scan_filter)).map
          (fun r => r.rssi) = [-80, -40, -60] →
        results.map (fun r => r.rssi) = [-40, -60, -80]) := by
  rw [GetScanResultsInternal_on_thread ext cur s scan_filter hthread]
  obtain ⟨hperm, hsorted⟩ := hsort (fun d1 d2 => decide (d1.rssi > d2.rssi))
    ((allResults s.addr_to_scan_results_).filter (passesFilter scan_filter))
    rssi_greater_strictWeakOrdering
  have hpair : (ext.std_sort (fun d1 d2 => decide (d1.rssi > d2.rssi))
      ((allResults s.addr_to_scan_results_).filter (passesFilter scan_filter))).Pairwise
      (fun d1 d2 => d1.rssi ≥ d2.rssi) := by
    refine hsorted.imp ?_
    intro a b hab
    simp only [gt_iff_lt, decide_eq_false_iff_not, not_lt] at hab
    exact hab
  refine ⟨_, rfl, hpair, hpair.chain', fun hex => ?_⟩
  have hp1 := hperm.map (fun r => r.rssi)
  rw [hex] at hp1
  have hp2 : ([-40, -60, -80] : List Int).Perm [-80, -40, -60] := by decide
  have hs1 : List.Sorted (· ≥ ·) ((ext.std_sort (fun d1 d2 => decide (d1.rssi > d2.rssi))
      ((allResults s.addr_to_scan_results_).filter (passesFilter scan_filter))).map
      (fun r => r.rssi)) := List.pairwise_map.mpr hpair
  have hs2 : List.Sorted (· ≥ ·) ([-40, -60, -80] : List Int) := by decide
  exact List.eq_of_perm_of_sorted (hp1.trans hp2.symm) hs1 hs2

end Snapshots

section AddressFilter

variable [LinearOrder Addr] (ext : Externals Addr) (cur : ThreadId)

/-- An execution does not change the task runner. -/
theorem run_thread {calls : List (Call Addr)} {s final : LeScanManagerImpl Addr}
    {traces : List (List (Event Addr))}
    (hrun : s.run ext cur calls = Except.ok (final, traces)) :
    final.io_task_runner_ = s.io_task_runner_ := by
  induction calls generalizing s traces with
  | nil =>
    simp only [run_nil, Except.ok.injEq, Prod.mk.injEq] at hrun
    rw [← hrun.1]
  | cons c cs ih =>
    obtain ⟨out, rest, hc, hr, -⟩ := run_cons_ok ext cur hrun
    rw [ih hr, (call_ids ext cur hc).1]

theorem StoreInvariant_tail {k : Addr} {v : List (LeScanResult Addr)}
    {rest : List (Addr × List (LeScanResult Addr))} (h : StoreInvariant ((k, v) :: rest)) :
    StoreInvariant rest := by
  obtain ⟨hord, hlen, haddr⟩ := h
  exact ⟨(StoreOrdered_cons.mp hord).2, fun p hp => hlen p (List.mem_cons_of_mem _ hp),
    fun p hp => haddr p (List.mem_cons_of_mem _ hp)⟩

/-- In a store that satisfies the invariant, the stored results whose address
is `X` are exactly the history of `X`, in the same order. -/
theorem filter_address_eq_history (X : Addr) (p : LeScanResult Addr → Bool)
    (hp : ∀ r, p r = true ↔ r.addr = X)
    {store : List (Addr × List (LeScanResult Addr))} (hinv : StoreInvariant store) :
    (allResults store).filter p = history X store := by
  induction store with
  | nil => rfl
  | cons q rest ih =>
    obtain ⟨k, v⟩ := q
    have hrest := ih (StoreInvariant_tail hinv)
    obtain ⟨hord, -, haddr⟩ := hinv
    obtain ⟨hk, -⟩ := StoreOrdered_cons.mp hord
    have hv : ∀ r ∈ v, r.addr = k := haddr (k, v) (List.mem_cons_self _ _)
    have hsplit : allResults ((k, v) :: rest) = v ++ allResults rest := by
      simp [allResults]
    rw [hsplit, List.filter_append, hrest]
    by_cases hX : X = k
    · subst hX
      have hall : v.filter p = v :=
        List.filter_eq_self.mpr (fun r hr => (hp r).mpr (hv r hr))
      have hnil : history X rest = [] :=
        history_eq_nil_of_forall_ne (fun q hq => ne_of_lt (hk q hq))
      rw [hall, hnil]
      simp [history]
    · have hnone : v.filter p = [] :=
        List.filter_eq_nil_iff.mpr (fun r hr h => hX (((hp r).mp h).symm.trans (hv r hr)))
      rw [hnone]
      simp [history, hX]

/-- C20: in every state reached from the initial state and for every address
`X`, `GetScanResultsInternal` with a filter that matches a result exactly when
its address is `X` (`std::sort` obeying its contract) returns exactly the
entries of the stored history of `X`, each as often as it is stored, ordered
by non-increasing RSSI, and no entry of any other address. -/
theorem GetScanResultsInternal_address_filter (first_id : Int) (calls : List (Call Addr))
    (s : LeScanManagerImpl Addr) (traces : List (List (Event Addr)))
    (X : Addr) (f : ScanFilter Addr)
    (hsort : ext.StdSortContract)
    (hrun : (LeScanManagerImpl.initial cur first_id).run ext cur calls = Except.ok (s, traces))
    (hf : ∀ r, f.Matches r = true ↔ r.addr = X) :
    ∃ results, s.GetScanResultsInternal ext cur (some f) = Except.ok results ∧
      results.Perm (history X s.addr_to_scan_results_) ∧
      (∀ r, results.count r = (history X s.addr_to_scan_results_).count r) ∧
      results.Pairwise (fun d1 d2 => d1.rssi ≥ d2.rssi) ∧
      (∀ r ∈ results, r.addr = X) := by
  have hthread : s.io_task_runner_ = some cur := by
    rw [run_thread ext cur hrun]; rfl
  have hinv := reachable_StoreInvariant ext cur hrun
  rw [GetScanResultsInternal_on_thread ext cur s (some f) hthread]
  obtain ⟨hperm, hsorted⟩ := hsort (fun d1 d2 => decide (d1.rssi > d2.rssi))
    ((allResults s.addr_to_scan_results_).filter (passesFilter (some f)))
    rssi_greater_strictWeakOrdering
  have hfilter : (allResults s.addr_to_scan_results_).filter (passesFilter (some f)) =
      history X s.addr_to_scan_results_ :=
    filter_address_eq_history X (passesFilter (some f)) hf hinv
  rw [hfilter] at hperm hsorted ⊢
  refine ⟨_, rfl, hperm, fun r => hperm.count_eq r, ?_, fun r hr => ?_⟩
  · refine hsorted.imp ?_
    intro a b hab
    simp only [gt_iff_lt, decide_eq_false_iff_not, not_lt] at hab
    exact hab
  · have hmem : r ∈ (allResults s.addr_to_scan_results_).filter (passesFilter (some f)) := by
      rw [hfilter]; exact hperm.mem_iff.mp hr
    exact (hf r).mp (List.mem_filter.mp hmem).2

end AddressFilter

/-! ## The sort of libstdc++ obeys the contract of `std::sort`

The last phase, `__final_insertion_sort`, orders the whole vector whatever the
introsort loop left in it; the introsort loop (partition or heap sort) only
rearranges the vector. -/

theorem StrictWeakOrdering.not_lt_trans {α : Type} {comp : α → α → Bool}
    (hcomp : StrictWeakOrdering comp) (a b c : α)
    (hab : comp a b = false) (hbc : comp b c = false) : comp a c = false := by
  obtain ⟨hirrefl, htrans, hequiv⟩ := hcomp
  cases hac : comp a c with
  | false => rfl
  | true =>
    cases hba : comp b a with
    | true =>
      have h := htrans b a c hba hac
      rw [hbc] at h
      cases h
    | false =>
      cases hcb : comp c b with
      | true =>
        have h := htrans a c b hac hcb
        rw [hab] at h
        cases h
      | false =>
        have h := (hequiv a b c hab hba hbc hcb).1
        rw [hac] at h
        cases h

section StdInsertionSort

open std

variable {α : Type} (comp : α → α → Bool)

theorem StrictWeakOrdering.asymm {comp : α → α → Bool} (hcomp : StrictWeakOrdering comp)
    (a b : α) (hab : comp a b = true) : comp b a = false := by
  cases hba : comp b a with
  | false => rfl
  | true =>
    have h := hcomp.2.1 a b a hab hba
    rw [hcomp.1 a] at h
    cases h

/-- Inserting into a list that is ordered from the largest position down keeps
it ordered. -/
theorem orderedInsert_not_lt_pairwise (hcomp : StrictWeakOrdering comp) (a : α) (l : List α)
    (hl : l.Pairwise (fun x y => comp x y = false)) :
    (List.orderedInsert (fun x y => comp x y = false) a l).Pairwise
      (fun x y => comp x y = false) := by
  induction l with
  | nil => simp [List.orderedInsert]
  | cons b rest ih =>
    obtain ⟨hb, hrest⟩ := List.pairwise_cons.mp hl
    simp only [List.orderedInsert]
    split_ifs with hab
    · refine List.pairwise_cons.mpr ⟨fun x hx => ?_, hl⟩
      rcases List.mem_cons.mp hx with rfl | hx
      · exact hab
      · exact hcomp.not_lt_trans a b x hab (hb x hx)
    · refine List.pairwise_cons.mpr ⟨fun x hx => ?_, ih hrest⟩
      rcases (List.mem_orderedInsert _).mp hx with rfl | hx
      · exact hcomp.asymm x b (by simpa using hab)
      · exact hb x hx

/-- The loop of `__unguarded_linear_insert` on a vector whose hole is at the
end of the prefix `p`: the value is inserted into `p` from the right. -/
theorem unguarded_linear_insert_loop_eq (val : α) (p : List α) (h : α) (s : List α) :
    __unguarded_linear_insert.loop comp val p.length (p ++ h :: s) =
      (List.orderedInsert (fun a b => comp a b = false) val p.reverse).reverse ++ s := by
  induction p using List.reverseRecOn generalizing h s with
  | nil => simp [__unguarded_linear_insert.loop]
  | append_singleton q x ih =>
    have hlen : (q ++ [x]).length = q.length + 1 := by simp
    have hxs : q ++ [x] ++ h :: s = q ++ x :: h :: s := by simp
    rw [hlen, hxs, __unguarded_linear_insert.loop]
    have hget : (q ++ x :: h :: s)[q.length]? = some x := by
      rw [List.getElem?_append_right (le_refl _)]
      simp
    by_cases hc : comp val x = true
    · have hci : comp_val_iter comp (q ++ x :: h :: s) val q.length = true := by
        simp only [comp_val_iter, hget, hc]
      rw [if_pos hci]
      have hassign : assign (q.length + 1) q.length (q ++ x :: h :: s) = q ++ x :: x :: s := by
        simp only [assign, hget]
        rw [List.set_append_right _ _ (by omega)]
        simp
      rw [hassign, ih x (x :: s)]
      simp [List.orderedInsert, hc]
    · have hc2 : comp val x = false := by simpa using hc
      have hci : ¬ comp_val_iter comp (q ++ x :: h :: s) val q.length = true := by
        simp only [comp_val_iter, hget, hc2]
        simp
      rw [if_neg hci, List.set_append_right _ _ (by omega)]
      simp [List.orderedInsert, hc2]

/-- The function `__unguarded_linear_insert` at the end of an ordered prefix:
the prefix with the element inserted, followed by the untouched rest. -/
theorem unguarded_linear_insert_spec (hcomp : StrictWeakOrdering comp) (i : Nat) (xs : List α)
    (hi : i < xs.length) (hs : (xs.take i).Pairwise (fun a b => comp b a = false)) :
    ∃ L, __unguarded_linear_insert comp i xs = L ++ xs.drop (i + 1) ∧
      L.Perm (xs.take (i + 1)) ∧ L.Pairwise (fun a b => comp b a = false) := by
  have hsplit : xs = xs.take i ++ xs[i] :: xs.drop (i + 1) := by
    rw [← List.drop_eq_getElem_cons hi, List.take_append_drop]
  have hlen : (xs.take i).length = i := by
    rw [List.length_take]
    omega
  have hloop := unguarded_linear_insert_loop_eq comp xs[i] (xs.take i) xs[i] (xs.drop (i + 1))
  rw [hlen, ← hsplit] at hloop
  refine ⟨(List.orderedInsert (fun a b => comp a b = false) xs[i] (xs.take i).reverse).reverse,
    ?_, ?_, ?_⟩
  · simp only [__unguarded_linear_insert, List.getElem?_eq_getElem hi]
    exact hloop
  · rw [List.take_succ, List.getElem?_eq_getElem hi]
    refine (List.reverse_perm _).trans ((List.perm_orderedInsert _ _ _).trans ?_)
    simp only [Option.toList]
    exact (List.Perm.cons _ (List.reverse_perm _)).trans (List.perm_append_singleton _ _).symm
  · rw [List.pairwise_reverse]
    exact orderedInsert_not_lt_pairwise comp hcomp _ _ (List.pairwise_reverse.mpr hs)

/-- The body of the loop of `__insertion_sort` (from the beginning of the
vector) at the end of an ordered prefix. -/
theorem insertion_sort_body_spec (hcomp : StrictWeakOrdering comp) (i : Nat) (xs : List α)
    (hi : i < xs.length) (hs : (xs.take i).Pairwise (fun a b => comp b a = false)) :
    ∃ L, __insertion_sort.body comp 0 i xs = L ++ xs.drop (i + 1) ∧
      L.Perm (xs.take (i + 1)) ∧ L.Pairwise (fun a b => comp b a = false) := by
  unfold __insertion_sort.body
  by_cases hfront : comp_iter comp xs i 0 = true
  · rw [if_pos hfront]
    have h0 : 0 < xs.length := by omega
    have hc : comp xs[i] xs[0] = true := by
      simpa [comp_iter, List.getElem?_eq_getElem hi, List.getElem?_eq_getElem h0] using hfront
    refine ⟨xs[i] :: xs.take i, ?_, ?_, ?_⟩
    · simp [List.getElem?_eq_getElem hi]
    · rw [List.take_succ, List.getElem?_eq_getElem hi]
      simp only [Option.toList]
      exact (List.perm_append_singleton _ _).symm
    · refine List.pairwise_cons.mpr ⟨fun x hx => ?_, hs⟩
      cases hxv : comp x xs[i] with
      | false => rfl
      | true =>
        have hx0 : comp x xs[0] = true := hcomp.2.1 x xs[i] xs[0] hxv hc
        have hi0 : 0 < i := by
          rcases Nat.eq_zero_or_pos i with h | h
          · subst h
            simp at hx
          · exact h
        have htake : xs.take i = xs[0] :: (xs.drop 1).take (i - 1) := by
          have h1 : xs = xs[0] :: xs.drop 1 := by
            rw [← List.drop_eq_getElem_cons h0]
            simp
          conv_lhs => rw [h1]
          obtain ⟨k, rfl⟩ : ∃ k, i = k + 1 := ⟨i - 1, by omega⟩
          simp
        rw [htake] at hx hs
        rcases List.mem_cons.mp hx with rfl | hx
        · rw [hcomp.1] at hx0
          cases hx0
        · have := (List.pairwise_cons.mp hs).1 x hx
          rw [this] at hx0
          cases hx0
  · rw [if_neg hfront]
    exact unguarded_linear_insert_spec comp hcomp i xs hi hs

/-- Bookkeeping for one more iteration of an insertion loop. -/
theorem insertion_loop_step (xs ys L1 L2 : List α) (i count : Nat)
    (hi : i + 1 + count ≤ xs.length) (hys : ys = L1 ++ xs.drop (i + 1))
    (hperm1 : L1.Perm (xs.take (i + 1))) :
    ys.length = xs.length ∧ ys.take (i + 1) = L1 ∧
      ys.drop (i + 1 + count) = xs.drop (i + 1 + count) ∧
      (L2.Perm (ys.take (i + 1 + count)) → L2.Perm (xs.take (i + 1 + count))) := by
  have hL1 : L1.length = i + 1 := by
    rw [hperm1.length_eq, List.length_take]
    omega
  subst hys
  refine ⟨?_, ?_, ?_, ?_⟩
  · rw [List.length_append, hL1, List.length_drop]
    omega
  · rw [List.take_append_of_le_length (by omega), List.take_of_length_le (by omega)]
  · rw [List.drop_append_eq_append_drop, List.drop_of_length_le (by omega), hL1, List.drop_drop]
    simp only [List.nil_append]
    congr 1
    omega
  · intro h
    refine h.trans ?_
    rw [List.take_append_eq_append_take, List.take_of_length_le (by omega), hL1]
    have : i + 1 + count - (i + 1) = count := by omega
    rw [this, List.take_add]
    exact List.Perm.append_right _ hperm1

/-- The loop of `__insertion_sort` from the beginning of the vector: it extends
an ordered prefix by `count` elements. -/
theorem insertion_sort_loop_spec (hcomp : StrictWeakOrdering comp) (count i : Nat) (xs : List α)
    (hi : i + count ≤ xs.length) (hs : (xs.take i).Pairwise (fun a b => comp b a = false)) :
    ∃ L, __insertion_sort.loop comp 0 count i xs = L ++ xs.drop (i + count) ∧
      L.Perm (xs.take (i + count)) ∧ L.Pairwise (fun a b => comp b a = false) := by
  induction count generalizing i xs with
  | zero => exact ⟨xs.take i, by simp [__insertion_sort.loop], List.Perm.refl _, hs⟩
  | succ count ih =>
    obtain ⟨L1, hbody, hperm1, hs1⟩ := insertion_sort_body_spec comp hcomp i xs (by omega) hs
    have hstep := fun L2 => insertion_loop_step xs _ L1 L2 i count (by omega) hbody hperm1
    obtain ⟨hlen, htake, hdrop, -⟩ := hstep []
    obtain ⟨L2, hloop, hperm2, hs2⟩ := ih (i + 1) (__insertion_sort.body comp 0 i xs)
      (by omega) (by rw [htake]; exact hs1)
    refine ⟨L2, ?_, ?_, hs2⟩
    · rw [__insertion_sort.loop, hloop, hdrop]
      congr 2
      omega
    · have := (hstep L2).2.2.2 hperm2
      rw [show i + (count + 1) = i + 1 + count by omega]
      exact this

/-- The loop of `__unguarded_insertion_sort`: it extends an ordered prefix by
`count` elements. -/
theorem unguarded_insertion_sort_loop_spec (hcomp : StrictWeakOrdering comp) (count i : Nat)
    (xs : List α) (hi : i + count ≤ xs.length)
    (hs : (xs.take i).Pairwise (fun a b => comp b a = false)) :
    ∃ L, __unguarded_insertion_sort.loop comp count i xs = L ++ xs.drop (i + count) ∧
      L.Perm (xs.take (i + count)) ∧ L.Pairwise (fun a b => comp b a = false) := by
  induction count generalizing i xs with
  | zero => exact ⟨xs.take i, by simp [__unguarded_insertion_sort.loop], List.Perm.refl _, hs⟩
  | succ count ih =>
    obtain ⟨L1, hbody, hperm1, hs1⟩ := unguarded_linear_insert_spec comp hcomp i xs (by omega) hs
    have hstep := fun L2 => insertion_loop_step xs _ L1 L2 i count (by omega) hbody hperm1
    obtain ⟨hlen, htake, hdrop, -⟩ := hstep []
    obtain ⟨L2, hloop, hperm2, hs2⟩ := ih (i + 1) (__unguarded_linear_insert comp i xs)
      (by omega) (by rw [htake]; exact hs1)
    refine ⟨L2, ?_, ?_, hs2⟩
    · rw [__unguarded_insertion_sort.loop, hloop, hdrop]
      congr 2
      omega
    · have := (hstep L2).2.2.2 hperm2
      rw [show i + (count + 1) = i + 1 + count by omega]
      exact this

/-- The function `__final_insertion_sort` on a whole vector orders it, whatever
the order it finds. -/
theorem final_insertion_sort_spec (hcomp : StrictWeakOrdering comp) (xs : List α) :
    (__final_insertion_sort comp 0 xs.length xs).Perm xs ∧
      (__final_insertion_sort comp 0 xs.length xs).Pairwise (fun a b => comp b a = false) := by
  have hone : ∀ ys : List α, (ys.take 1).Pairwise (fun a b => comp b a = false) := by
    intro ys
    cases ys <;> simp
  unfold __final_insertion_sort
  by_cases hbig : xs.length - 0 > _S_threshold
  · rw [if_pos hbig]
    have hbig2 : 16 < xs.length := by simpa [_S_threshold] using hbig
    simp only [_S_threshold, Nat.zero_add, __insertion_sort, __unguarded_insertion_sort]
    rw [if_neg (by omega)]
    obtain ⟨L1, h1, hperm1, hs1⟩ := insertion_sort_loop_spec comp hcomp 15 1 xs (by omega) (hone xs)
    have hstep := fun L2 =>
      insertion_loop_step xs _ L1 L2 15 (xs.length - 16) (by omega) h1 hperm1
    obtain ⟨hlen, htake, hdrop, -⟩ := hstep []
    obtain ⟨L2, h2, hperm2, hs2⟩ := unguarded_insertion_sort_loop_spec comp hcomp
      (xs.length - 16) 16 (__insertion_sort.loop comp 0 (16 - (0 + 1)) (0 + 1) xs)
      (by rw [hlen]; omega) (by rw [htake]; exact hs1)
    have hperm3 := (hstep L2).2.2.2 hperm2
    rw [h2, hdrop]
    have hfull : 15 + 1 + (xs.length - 16) = xs.length := by omega
    rw [hfull] at hperm3
    rw [show 16 + (xs.length - 16) = xs.length by omega, List.drop_length, List.append_nil]
    rw [List.take_length] at hperm3
    exact ⟨hperm3, hs2⟩
  · rw [if_neg hbig]
    unfold __insertion_sort
    by_cases hnil : 0 = xs.length
    · rw [if_pos hnil]
      have : xs = [] := List.length_eq_zero.mp hnil.symm
      subst this
      exact ⟨List.Perm.refl _, List.Pairwise.nil⟩
    · rw [if_neg hnil]
      obtain ⟨L, h, hperm, hs⟩ := insertion_sort_loop_spec comp hcomp (xs.length - (0 + 1)) (0 + 1) xs
        (by omega) (hone xs)
      have hfull : 0 + 1 + (xs.length - (0 + 1)) = xs.length := by omega
      rw [hfull] at h hperm
      rw [h, List.drop_length, List.append_nil]
      rw [List.take_length] at hperm
      exact ⟨hperm, hs⟩

end StdInsertionSort

section StdSortBounds

open std

variable {α : Type} (comp : α → α → Bool)

theorem comp_iter_lt (xs : List α) (i j : Nat) (h : comp_iter comp xs i j = true) :
    i < xs.length ∧ j < xs.length := by
  unfold comp_iter at h
  by_cases hi : i < xs.length
  · by_cases hj : j < xs.length
    · exact ⟨hi, hj⟩
    · rw [List.getElem?_eq_none (by omega : xs.length ≤ j)] at h
      cases hx : xs[i]? <;> simp [hx] at h
  · rw [List.getElem?_eq_none (by omega : xs.length ≤ i)] at h
    simp at h

theorem unguarded_partition_up_le (pivot : Nat) (xs : List α) (fuel first : Nat)
    (h : first ≤ xs.length) : __unguarded_partition.up comp pivot xs fuel first ≤ xs.length := by
  induction fuel generalizing first with
  | zero => exact h
  | succ fuel ih =>
    unfold __unguarded_partition.up
    split_ifs with hc
    · exact ih (first + 1) (comp_iter_lt comp xs first pivot hc).1
    · exact h

theorem unguarded_partition_down_le (pivot : Nat) (xs : List α) (last : Nat) :
    __unguarded_partition.down comp pivot xs last ≤ last := by
  induction last with
  | zero => exact Nat.le_refl _
  | succ last ih =>
    unfold __unguarded_partition.down
    split_ifs
    · exact Nat.le_succ_of_le ih
    · exact Nat.le_refl _

end StdSortBounds

section StdSortPerm

open std

variable {α : Type} [DecidableEq α] (comp : α → α → Bool)

/-- Counting after `set`, without subtraction. -/
theorem count_set_add (l : List α) (i : Nat) (a b : α) (h : i < l.length) :
    (l.set i a).count b + l[i]?.toList.count b = l.count b + [a].count b := by
  rw [List.count_set a b l i h, List.getElem?_eq_getElem h]
  simp only [Option.toList, List.count_cons, List.count_nil, beq_iff_eq, Nat.zero_add]
  have hle : (if l[i] = b then 1 else 0) ≤ l.count b := by
    by_cases hb : l[i] = b
    · have hmem : b ∈ l := hb ▸ List.getElem_mem h
      have := List.count_pos_iff.mpr hmem
      rw [if_pos hb]
      omega
    · rw [if_neg hb]
      omega
  split_ifs at hle ⊢ <;> omega

/-- The assignment `*i = *j` within the vector: the element at `i` is lost, the
element at `j` is doubled. -/
theorem assign_count (i j : Nat) (xs : List α) (hi : i < xs.length) (hj : j < xs.length) (b : α) :
    (assign i j xs).length = xs.length ∧ (assign i j xs)[j]? = xs[j]? ∧
      (assign i j xs).count b + xs[i]?.toList.count b =
        xs.count b + xs[j]?.toList.count b := by
  have hget : xs[j]? = some xs[j] := List.getElem?_eq_getElem hj
  simp only [assign, hget]
  refine ⟨List.length_set _ _ _, ?_, ?_⟩
  · rw [List.getElem?_set]
    by_cases hij : i = j
    · rw [if_pos hij, if_pos hi]
    · rw [if_neg hij, hget]
  · exact count_set_add xs i xs[j] b hi

theorem iter_swap_perm (i j : Nat) (xs : List α) :
    (iter_swap i j xs).Perm xs ∧ (iter_swap i j xs).length = xs.length := by
  unfold iter_swap
  by_cases hi : i < xs.length
  · by_cases hj : j < xs.length
    · rw [List.getElem?_eq_getElem hi, List.getElem?_eq_getElem hj]
      show ((xs.set i xs[j]).set j xs[i]).Perm xs ∧ ((xs.set i xs[j]).set j xs[i]).length = xs.length
      refine ⟨?_, by simp⟩
      rw [List.perm_iff_count]
      intro c
      have h1 := count_set_add xs i xs[j] c hi
      have h2 := count_set_add (xs.set i xs[j]) j xs[i] c (by simpa using hj)
      have h3 : (xs.set i xs[j])[j]? = some xs[j] := by
        rw [List.getElem?_set]
        by_cases hij : i = j
        · rw [if_pos hij, if_pos hi]
        · rw [if_neg hij, List.getElem?_eq_getElem hj]
      rw [h3] at h2
      rw [List.getElem?_eq_getElem hi] at h1
      simp only [Option.toList] at h1 h2
      omega
    · rw [List.getElem?_eq_none (by omega : xs.length ≤ j)]
      cases xs[i]? <;> exact ⟨List.Perm.refl _, rfl⟩
  · rw [List.getElem?_eq_none (by omega : xs.length ≤ i)]
    exact ⟨List.Perm.refl _, rfl⟩

theorem move_median_to_first_perm (result a b c : Nat) (xs : List α) :
    (__move_median_to_first comp result a b c xs).Perm xs ∧
      (__move_median_to_first comp result a b c xs).length = xs.length := by
  unfold __move_median_to_first
  split_ifs <;> exact iter_swap_perm _ _ _

theorem unguarded_partition_loop_perm (pivot fuel first last : Nat) (xs : List α)
    (hfirst : first ≤ xs.length) (hlast : last ≤ xs.length) :
    (__unguarded_partition.loop comp pivot fuel first last xs).2.Perm xs ∧
      (__unguarded_partition.loop comp pivot fuel first last xs).1 ≤ xs.length := by
  induction fuel generalizing first last xs with
  | zero => exact ⟨List.Perm.refl _, hfirst⟩
  | succ fuel ih =>
    unfold __unguarded_partition.loop
    have hup := unguarded_partition_up_le comp pivot xs xs.length first hfirst
    have hdown := unguarded_partition_down_le comp pivot xs (last - 1)
    simp only
    split_ifs with hlt
    · obtain ⟨hperm, hlen⟩ := iter_swap_perm (__unguarded_partition.up comp pivot xs xs.length first)
        (__unguarded_partition.down comp pivot xs (last - 1)) xs
      obtain ⟨h1, h2⟩ := ih (__unguarded_partition.up comp pivot xs xs.length first + 1)
        (__unguarded_partition.down comp pivot xs (last - 1)) _
        (by rw [hlen]; omega) (by rw [hlen]; omega)
      exact ⟨h1.trans hperm, by rw [hlen] at h2; exact h2⟩
    · exact ⟨List.Perm.refl _, hup⟩

theorem unguarded_partition_pivot_perm (first last : Nat) (xs : List α)
    (hfirst : first + 1 ≤ xs.length) (hlast : last ≤ xs.length) :
    (__unguarded_partition_pivot comp first last xs).2.Perm xs ∧
      (__unguarded_partition_pivot comp first last xs).1 ≤ xs.length := by
  unfold __unguarded_partition_pivot __unguarded_partition
  dsimp only
  obtain ⟨hperm, hlen⟩ := move_median_to_first_perm comp first (first + 1)
    (first + (last - first) / 2) (last - 1) xs
  obtain ⟨h1, h2⟩ := unguarded_partition_loop_perm comp first
    (__move_median_to_first comp first (first + 1) (first + (last - first) / 2) (last - 1) xs).length
    (first + 1) last _ (by rw [hlen]; exact hfirst) (by rw [hlen]; exact hlast)
  exact ⟨h1.trans hperm, h2.trans hlen.le⟩

theorem push_heap_loop_count (first topIndex : Nat) (value : α) (fuel holeIndex : Nat)
    (xs : List α) (h : first + holeIndex < xs.length) (b : α) :
    (__push_heap.loop comp first topIndex value fuel holeIndex xs).length = xs.length ∧
      (__push_heap.loop comp first topIndex value fuel holeIndex xs).count b +
          xs[first + holeIndex]?.toList.count b =
        xs.count b + [value].count b := by
  induction fuel generalizing holeIndex xs with
  | zero =>
    unfold __push_heap.loop
    exact ⟨List.length_set _ _ _, count_set_add xs _ value b h⟩
  | succ fuel ih =>
    unfold __push_heap.loop
    dsimp only
    split_ifs with hc
    · have hp : first + (holeIndex - 1) / 2 < xs.length := by omega
      obtain ⟨hlen, hget, hcount⟩ :=
        assign_count (first + holeIndex) (first + (holeIndex - 1) / 2) xs h hp b
      obtain ⟨h1, h2⟩ := ih ((holeIndex - 1) / 2)
        (assign (first + holeIndex) (first + (holeIndex - 1) / 2) xs) (by rw [hlen]; exact hp)
      rw [hget] at h2
      exact ⟨h1.trans hlen, by omega⟩
    · exact ⟨List.length_set _ _ _, count_set_add xs _ value b h⟩

theorem adjust_heap_loop_count (first len fuel holeIndex secondChild : Nat) (xs : List α)
    (hlen : first + len ≤ xs.length) (hh : holeIndex < len) (b : α) :
    (__adjust_heap.loop comp first len fuel holeIndex secondChild xs).1 < len ∧
      (__adjust_heap.loop comp first len fuel holeIndex secondChild xs).2.2.length = xs.length ∧
      (__adjust_heap.loop comp first len fuel holeIndex secondChild xs).2.2.count b +
          xs[first + holeIndex]?.toList.count b =
        xs.count b +
          ((__adjust_heap.loop comp first len fuel holeIndex secondChild xs).2.2[first +
              (__adjust_heap.loop comp first len fuel holeIndex secondChild xs).1]?).toList.count
            b := by
  induction fuel generalizing holeIndex secondChild xs with
  | zero =>
    unfold __adjust_heap.loop
    exact ⟨hh, rfl, rfl⟩
  | succ fuel ih =>
    unfold __adjust_heap.loop
    dsimp only
    split_ifs with hlt hc
    · have hsc : 2 * (secondChild + 1) - 1 < len := by omega
      obtain ⟨hl, hget, hcount⟩ := assign_count (first + holeIndex)
        (first + (2 * (secondChild + 1) - 1)) xs (by omega) (by omega) b
      obtain ⟨h1, h2, h3⟩ := ih (2 * (secondChild + 1) - 1) (2 * (secondChild + 1) - 1)
        (assign (first + holeIndex) (first + (2 * (secondChild + 1) - 1)) xs)
        (by rw [hl]; exact hlen) hsc
      rw [hget] at h3
      exact ⟨h1, h2.trans hl, by omega⟩
    · have hsc : 2 * (secondChild + 1) < len := by omega
      obtain ⟨hl, hget, hcount⟩ := assign_count (first + holeIndex)
        (first + 2 * (secondChild + 1)) xs (by omega) (by omega) b
      obtain ⟨h1, h2, h3⟩ := ih (2 * (secondChild + 1)) (2 * (secondChild + 1))
        (assign (first + holeIndex) (first + 2 * (secondChild + 1)) xs)
        (by rw [hl]; exact hlen) hsc
      rw [hget] at h3
      exact ⟨h1, h2.trans hl, by omega⟩
    · exact ⟨hh, rfl, rfl⟩

theorem adjust_heap_count (first holeIndex len : Nat) (value : α) (xs : List α)
    (hlen : first + len ≤ xs.length) (hh : holeIndex < len) (b : α) :
    (__adjust_heap comp first holeIndex len value xs).length = xs.length ∧
      (__adjust_heap comp first holeIndex len value xs).count b +
          xs[first + holeIndex]?.toList.count b =
        xs.count b + [value].count b := by
  obtain ⟨h1, h2, h3⟩ :=
    adjust_heap_loop_count comp first len len holeIndex holeIndex xs hlen hh b
  rcases hr : __adjust_heap.loop comp first len len holeIndex holeIndex xs with ⟨hole, sc, ys⟩
  rw [hr] at h1 h2 h3
  simp only at h1 h2 h3
  simp only [__adjust_heap, hr]
  split_ifs with hc
  · obtain ⟨hl, hget, hcount⟩ := assign_count (first + hole)
      (first + (2 * (sc + 1) - 1)) ys (by omega) (by omega) b
    obtain ⟨h4, h5⟩ := push_heap_loop_count comp first holeIndex value (2 * (sc + 1) - 1 + 1)
      (2 * (sc + 1) - 1) (assign (first + hole) (first + (2 * (sc + 1) - 1)) ys)
      (by rw [hl]; omega) b
    rw [hget] at h5
    unfold __push_heap
    exact ⟨h4.trans (hl.trans h2), by omega⟩
  · obtain ⟨h4, h5⟩ := push_heap_loop_count comp first holeIndex value (hole + 1) hole ys
      (by omega) b
    unfold __push_heap
    exact ⟨h4.trans h2, by omega⟩

theorem pop_heap_perm (first last result : Nat) (xs : List α)
    (hfirst : first < last) (hlast : last ≤ xs.length) (hresult : result < xs.length) :
    (__pop_heap comp first last result xs).Perm xs ∧
      (__pop_heap comp first last result xs).length = xs.length := by
  unfold __pop_heap
  rw [List.getElem?_eq_getElem hresult]
  dsimp only
  have hl := (assign_count result first xs hresult (by omega) xs[result]).1
  refine ⟨?_, ?_⟩
  · rw [List.perm_iff_count]
    intro b
    obtain ⟨-, hget, hcount⟩ := assign_count result first xs hresult (by omega) b
    obtain ⟨-, h2⟩ := adjust_heap_count comp first 0 (last - first) xs[result]
      (assign result first xs) (by rw [hl]; omega) (by omega) b
    rw [Nat.add_zero, hget] at h2
    have hr : xs[result]?.toList = [xs[result]] := by
      rw [List.getElem?_eq_getElem hresult]
      rfl
    rw [hr] at hcount
    omega
  · exact (adjust_heap_count comp first 0 (last - first) xs[result]
      (assign result first xs) (by rw [hl]; omega) (by omega) xs[result]).1.trans hl

theorem adjust_heap_perm_of_get (first holeIndex len : Nat) (value : α) (xs : List α)
    (hlen : first + len ≤ xs.length) (hh : holeIndex < len)
    (hvalue : xs[first + holeIndex]? = some value) :
    (__adjust_heap comp first holeIndex len value xs).Perm xs ∧
      (__adjust_heap comp first holeIndex len value xs).length = xs.length := by
  refine ⟨?_, (adjust_heap_count comp first holeIndex len value xs hlen hh value).1⟩
  rw [List.perm_iff_count]
  intro b
  have h := (adjust_heap_count comp first holeIndex len value xs hlen hh b).2
  rw [hvalue] at h
  simp only [Option.toList] at h
  omega

theorem make_heap_loop_perm (first len parent : Nat) (xs : List α)
    (hlen : first + len ≤ xs.length) (hp : parent < len) :
    (__make_heap.loop comp first len parent xs).Perm xs ∧
      (__make_heap.loop comp first len parent xs).length = xs.length := by
  induction parent generalizing xs with
  | zero =>
    unfold __make_heap.loop
    have h0 : first < xs.length := by omega
    rw [List.getElem?_eq_getElem h0]
    exact adjust_heap_perm_of_get comp first 0 len xs[first] xs hlen hp
      (by rw [Nat.add_zero, List.getElem?_eq_getElem h0])
  | succ parent ih =>
    unfold __make_heap.loop
    have h0 : first + (parent + 1) < xs.length := by omega
    rw [List.getElem?_eq_getElem h0]
    dsimp only
    obtain ⟨h1, h2⟩ := adjust_heap_perm_of_get comp first (parent + 1) len
      xs[first + (parent + 1)] xs hlen hp (List.getElem?_eq_getElem h0)
    obtain ⟨h3, h4⟩ := ih (__adjust_heap comp first (parent + 1) len xs[first + (parent + 1)] xs)
      (by rw [h2]; exact hlen) (by omega)
    exact ⟨h3.trans h1, h4.trans h2⟩

theorem make_heap_perm (first last : Nat) (xs : List α) (hlast : last ≤ xs.length) :
    (__make_heap comp first last xs).Perm xs ∧
      (__make_heap comp first last xs).length = xs.length := by
  unfold __make_heap
  split_ifs with h
  · exact ⟨List.Perm.refl _, rfl⟩
  · exact make_heap_loop_perm comp first (last - first) ((last - first - 2) / 2) xs
      (by omega) (by omega)

theorem sort_heap_loop_perm (first count : Nat) (xs : List α)
    (h : count = 0 ∨ first + count < xs.length) :
    (__sort_heap.loop comp first count xs).Perm xs ∧
      (__sort_heap.loop comp first count xs).length = xs.length := by
  induction count generalizing xs with
  | zero => exact ⟨List.Perm.refl _, rfl⟩
  | succ count ih =>
    unfold __sort_heap.loop
    have hc : first + (count + 1) < xs.length := by omega
    obtain ⟨h1, h2⟩ := pop_heap_perm comp first (first + (count + 1)) (first + (count + 1)) xs
      (by omega) (by omega) hc
    obtain ⟨h3, h4⟩ := ih (__pop_heap comp first (first + (count + 1)) (first + (count + 1)) xs)
      (by rw [h2]; omega)
    exact ⟨h3.trans h1, h4.trans h2⟩

theorem partial_sort_perm (first last : Nat) (xs : List α) (hlast : last ≤ xs.length) :
    (__partial_sort comp first last last xs).Perm xs ∧
      (__partial_sort comp first last last xs).length = xs.length := by
  unfold __partial_sort __heap_select __sort_heap
  rw [Nat.sub_self]
  unfold __heap_select.loop
  obtain ⟨h1, h2⟩ := make_heap_perm comp first last xs hlast
  obtain ⟨h3, h4⟩ := sort_heap_loop_perm comp first (last - first - 1)
    (__make_heap comp first last xs) (by rw [h2]; omega)
  exact ⟨h3.trans h1, h4.trans h2⟩

theorem introsort_loop_perm (depth_limit first last : Nat) (xs : List α)
    (hlast : last ≤ xs.length) :
    (__introsort_loop comp depth_limit first last xs).Perm xs ∧
      (__introsort_loop comp depth_limit first last xs).length = xs.length := by
  induction depth_limit generalizing first last xs with
  | zero =>
    unfold __introsort_loop
    split_ifs with h
    · exact partial_sort_perm comp first last xs hlast
    · exact ⟨List.Perm.refl _, rfl⟩
  | succ depth_limit ih =>
    unfold __introsort_loop
    split_ifs with h
    · have h16 : 16 < last - first := by simpa [_S_threshold] using h
      obtain ⟨h1, h2⟩ := unguarded_partition_pivot_perm comp first last xs (by omega) hlast
      rcases hr : __unguarded_partition_pivot comp first last xs with ⟨cut, ys⟩
      rw [hr] at h1 h2
      simp only at h1 h2
      dsimp only
      obtain ⟨h3, h4⟩ := ih cut last ys (by rw [h1.length_eq]; exact hlast)
      obtain ⟨h5, h6⟩ := ih first cut (__introsort_loop comp depth_limit cut last ys)
        (by rw [h4, h1.length_eq]; exact h2)
      exact ⟨h5.trans (h3.trans h1), h6.trans (h4.trans h1.length_eq)⟩
    · exact ⟨List.Perm.refl _, rfl⟩

/-- The sort of libstdc++ obeys the contract of `std::sort`. -/
theorem sort_perm_sorted (hcomp : StrictWeakOrdering comp) (xs : List α) :
    (std.sort comp xs).Perm xs ∧ (std.sort comp xs).Pairwise (fun a b => comp b a = false) := by
  unfold std.sort __sort
  split_ifs with h
  · obtain ⟨h1, h2⟩ := introsort_loop_perm comp (__lg (xs.length - 0) * 2) 0 xs.length xs
      (Nat.le_refl _)
    have h3 := final_insertion_sort_spec comp hcomp
      (__introsort_loop comp (__lg (xs.length - 0) * 2) 0 xs.length xs)
    rw [h2] at h3
    exact ⟨h3.1.trans h1, h3.2⟩
  · have : xs = [] := by
      rcases xs with _ | ⟨x, rest⟩
      · rfl
      · simp at h
    subst this
    exact ⟨List.Perm.refl _, List.Pairwise.nil⟩

end StdSortPerm

/-! ## The bounds on the numbers of iterations are never reached

A loop of the source that is not a counted loop is a function with a bound on
its number of iterations.  With a larger bound the result is the same: the
loop ends because its condition fails, not because the bound is reached. -/

section StdSortFuel

open std

variable {α : Type} (comp : α → α → Bool)

theorem lg_loop_eq_log2 (fuel n : Nat) (h : n ≤ fuel) : __lg.loop fuel n = Nat.log2 n := by
  induction fuel generalizing n with
  | zero =>
    have : n = 0 := by omega
    subst this
    rw [Nat.log2]
    simp [__lg.loop]
  | succ fuel ih =>
    rw [Nat.log2, __lg.loop]
    by_cases h2 : 2 ≤ n
    · rw [if_pos h2, if_pos h2, ih (n / 2) (by omega)]
    · rw [if_neg h2, if_neg h2]

/-- The function `__lg` is the binary logarithm, rounded down. -/
theorem lg_eq_log2 (n : Nat) : __lg n = Nat.log2 n :=
  lg_loop_eq_log2 n n (Nat.le_refl n)

theorem unguarded_partition_up_more_fuel (pivot : Nat) (xs : List α) (fuel first k : Nat)
    (h : xs.length ≤ first + fuel) :
    __unguarded_partition.up comp pivot xs (fuel + k) first =
      __unguarded_partition.up comp pivot xs fuel first := by
  induction fuel generalizing first with
  | zero =>
    cases k with
    | zero => rfl
    | succ k =>
      rw [Nat.zero_add]
      unfold __unguarded_partition.up
      have hc : ¬ comp_iter comp xs first pivot = true := by
        intro hc
        have := (comp_iter_lt comp xs first pivot hc).1
        omega
      rw [if_neg hc]
  | succ fuel ih =>
    rw [show fuel + 1 + k = (fuel + k) + 1 by omega]
    unfold __unguarded_partition.up
    rw [ih (first + 1) (by omega)]

theorem unguarded_partition_up_ge (pivot : Nat) (xs : List α) (fuel first : Nat) :
    first ≤ __unguarded_partition.up comp pivot xs fuel first := by
  induction fuel generalizing first with
  | zero => exact Nat.le_refl _
  | succ fuel ih =>
    unfold __unguarded_partition.up
    split_ifs
    · exact Nat.le_of_succ_le (ih (first + 1))
    · exact Nat.le_refl _

theorem unguarded_partition_loop_more_fuel (pivot fuel first last k : Nat) (xs : List α)
    (h : last - first < 2 * fuel) :
    __unguarded_partition.loop comp pivot (fuel + k) first last xs =
      __unguarded_partition.loop comp pivot fuel first last xs := by
  induction fuel generalizing first last xs with
  | zero => omega
  | succ fuel ih =>
    rw [show fuel + 1 + k = (fuel + k) + 1 by omega]
    unfold __unguarded_partition.loop
    dsimp only
    have hup := unguarded_partition_up_ge comp pivot xs xs.length first
    have hdown := unguarded_partition_down_le comp pivot xs (last - 1)
    split_ifs with hlt
    · exact ih _ _ _ (by omega)
    · rfl

/-- The bound of `__unguarded_partition` is enough for every range within the
vector. -/
theorem unguarded_partition_enough_fuel (first last pivot k : Nat) (xs : List α)
    (hlast : last ≤ xs.length) :
    __unguarded_partition.loop comp pivot (xs.length + k) first last xs =
      __unguarded_partition comp first last pivot xs := by
  unfold __unguarded_partition
  rcases Nat.eq_zero_or_pos xs.length with h0 | hpos
  · have hnil : xs = [] := List.length_eq_zero.mp h0
    subst hnil
    cases k with
    | zero => rfl
    | succ k =>
      have hl : last = 0 := by simpa using hlast
      subst hl
      simp [__unguarded_partition.loop, __unguarded_partition.up, __unguarded_partition.down]
  · exact unguarded_partition_loop_more_fuel comp pivot xs.length first last k xs (by omega)

/-- The bound of `__unguarded_partition.up` is enough. -/
theorem unguarded_partition_up_enough_fuel (pivot first k : Nat) (xs : List α) :
    __unguarded_partition.up comp pivot xs (xs.length + k) first =
      __unguarded_partition.up comp pivot xs xs.length first :=
  unguarded_partition_up_more_fuel comp pivot xs xs.length first k (by omega)

theorem push_heap_loop_more_fuel (first topIndex : Nat) (value : α) (fuel holeIndex k : Nat)
    (xs : List α) (h : holeIndex ≤ fuel) :
    __push_heap.loop comp first topIndex value (fuel + k) holeIndex xs =
      __push_heap.loop comp first topIndex value fuel holeIndex xs := by
  induction fuel generalizing holeIndex xs with
  | zero =>
    have h0 : holeIndex = 0 := by omega
    subst h0
    cases k with
    | zero => rfl
    | succ k =>
      rw [Nat.zero_add]
      unfold __push_heap.loop
      dsimp only
      rw [if_neg (by omega)]
  | succ fuel ih =>
    rw [show fuel + 1 + k = (fuel + k) + 1 by omega]
    unfold __push_heap.loop
    dsimp only
    split_ifs with hc
    · exact ih _ _ (by omega)
    · rfl

/-- The bound of `__push_heap` is enough. -/
theorem push_heap_enough_fuel (first holeIndex topIndex k : Nat) (value : α) (xs : List α) :
    __push_heap.loop comp first topIndex value (holeIndex + 1 + k) holeIndex xs =
      __push_heap comp first holeIndex topIndex value xs :=
  push_heap_loop_more_fuel comp first topIndex value (holeIndex + 1) holeIndex k xs (by omega)

theorem adjust_heap_loop_more_fuel (first len fuel holeIndex secondChild k : Nat) (xs : List α)
    (h : (len - 1) / 2 ≤ secondChild + fuel) :
    __adjust_heap.loop comp first len (fuel + k) holeIndex secondChild xs =
      __adjust_heap.loop comp first len fuel holeIndex secondChild xs := by
  induction fuel generalizing holeIndex secondChild xs with
  | zero =>
    cases k with
    | zero => rfl
    | succ k =>
      rw [Nat.zero_add]
      unfold __adjust_heap.loop
      rw [if_neg (by omega)]
  | succ fuel ih =>
    rw [show fuel + 1 + k = (fuel + k) + 1 by omega]
    unfold __adjust_heap.loop
    dsimp only
    split_ifs with hlt hc
    · exact ih _ _ _ (by omega)
    · exact ih _ _ _ (by omega)
    · rfl

/-- The bound of the loop of `__adjust_heap` is enough. -/
theorem adjust_heap_loop_enough_fuel (first len holeIndex k : Nat) (xs : List α) :
    __adjust_heap.loop comp first len (len + k) holeIndex holeIndex xs =
      __adjust_heap.loop comp first len len holeIndex holeIndex xs :=
  adjust_heap_loop_more_fuel comp first len len holeIndex holeIndex k xs (by omega)

/-- A vector of at most 16 elements only goes through the insertion sort. -/
theorem sort_eq_insertion_sort_of_short (xs : List α) (h : xs.length ≤ 16) :
    std.sort comp xs = __insertion_sort comp 0 xs.length xs := by
  unfold std.sort __sort __final_insertion_sort
  have hnot : ¬ xs.length - 0 > _S_threshold := by
    simp only [_S_threshold]
    omega
  have hintro : ∀ depth, __introsort_loop comp depth 0 xs.length xs = xs := by
    intro depth
    cases depth <;> (unfold __introsort_loop; rw [if_neg hnot])
  split_ifs with h0
  · rw [hintro]
  · have : xs = [] := by
      rcases xs with _ | ⟨x, rest⟩
      · rfl
      · simp at h0
    subst this
    rfl

end StdSortFuel

section SampleSort

theorem sample_StdSortContract : Externals.sample.StdSortContract := by
  intro comp xs hcomp
  exact sort_perm_sorted comp hcomp xs

end SampleSort

/-! ## The store theorems at concrete inputs -/

section ConcreteStore

/-- Witness of C11: releasing identifier 5 while only handle 0 is live. -/
theorem NotifyScanHandleDestroyed_fatal_iff_absent_witness :
    (LeScanManagerImpl.sampleScanning.NotifyScanHandleDestroyed 7 true 5 =
        Except.error Fatal.DCHECK_EQ_num_removed ↔
      (5 : Int) ∉ LeScanManagerImpl.sampleScanning.scan_handle_ids_) ∧
    ((∃ e, LeScanManagerImpl.sampleScanning.NotifyScanHandleDestroyed 7 true 5 =
        Except.error e) ↔
      (5 : Int) ∉ LeScanManagerImpl.sampleScanning.scan_handle_ids_) ∧
    ((5 : Int) ∈ LeScanManagerImpl.sampleScanning.scan_handle_ids_ →
      ∃ out, LeScanManagerImpl.sampleScanning.NotifyScanHandleDestroyed 7 true 5 =
        Except.ok out) :=
  NotifyScanHandleDestroyed_fatal_iff_absent 7 LeScanManagerImpl.sampleScanning true 5 rfl

/-- Witness of C12: a new payload for address 3 in the store reached by
`sampleEvents`. -/
theorem OnScanResult_history_is_first_five_witness :
    history 3 (LeScanManagerImpl.sampleWithResults.OnScanResult Externals.sample
        { addr := 3, adv_data := [0, 9], rssi := -30 }).state.addr_to_scan_results_ =
      (({ addr := 3, adv_data := [0, 9], rssi := -30 } : LeScanResult Nat) ::
        (history 3 LeScanManagerImpl.sampleWithResults.addr_to_scan_results_).filter
          (fun r => decide (r.adv_data ≠ [0, 9]))).take 5 ∧
    history 3 (LeScanManagerImpl.sampleWithResults.OnScanResult Externals.sample
        { addr := 3, adv_data := [0, 9], rssi := -30 }).state.addr_to_scan_results_ =
      specUpdatedHistory 5 { addr := 3, adv_data := [0, 9], rssi := -30 }
        (history 3 LeScanManagerImpl.sampleWithResults.addr_to_scan_results_) :=
  OnScanResult_history_is_first_five Externals.sample 7 0 sampleEvents
    LeScanManagerImpl.sampleWithResults _ { addr := 3, adv_data := [0, 9], rssi := -30 } [0, 9]
    (rfl : LeScanManagerImpl.sample.run Externals.sample 7 sampleEvents =
      Except.ok (LeScanManagerImpl.sampleWithResults,
        [[Event.OnNewScanResult { addr := 3, adv_data := [0, 1], rssi := -40 }],
         [Event.OnNewScanResult { addr := 2, adv_data := [0, 2], rssi := -80 }],
         [Event.OnNewScanResult { addr := 5, adv_data := [0, 3], rssi := -60 }]]))
    rfl

/-- Witness of C13: the store reached by `sampleEvents`. -/
theorem history_length_at_most_five_witness :
    (∀ p ∈ LeScanManagerImpl.sampleWithResults.addr_to_scan_results_, p.2.length ≤ 5) ∧
    (∀ a, (history a LeScanManagerImpl.sampleWithResults.addr_to_scan_results_).length ≤ 5) :=
  history_length_at_most_five Externals.sample 7 0 sampleEvents
    LeScanManagerImpl.sampleWithResults _
    (rfl : LeScanManagerImpl.sample.run Externals.sample 7 sampleEvents =
      Except.ok (LeScanManagerImpl.sampleWithResults,
        [[Event.OnNewScanResult { addr := 3, adv_data := [0, 1], rssi := -40 }],
         [Event.OnNewScanResult { addr := 2, adv_data := [0, 2], rssi := -80 }],
         [Event.OnNewScanResult { addr := 5, adv_data := [0, 3], rssi := -60 }]]))

/-- C14, refuted as stated: after the six events of `sampleABACDE` (payloads
A, B, A, C, D, E for address 3) on the initial manager, the history of address
3 has the five payloads E, D, C, A, B, not the four payloads E, D, C, A. -/
theorem history_after_ABACDE_has_five_entries :
    ∃ final traces,
      LeScanManagerImpl.sample.run Externals.sample 7 (sampleABACDE.map Call.OnScanResult) =
        Except.ok (final, traces) ∧
      (history 3 final.addr_to_scan_results_).map (fun r => r.adv_data) =
        [[0, 5], [0, 4], [0, 3], [0, 1], [0, 2]] ∧
      (history 3 final.addr_to_scan_results_).map (fun r => r.adv_data) ≠
        [[0, 5], [0, 4], [0, 3], [0, 1]] :=
  ⟨_, _, rfl, rfl, by decide⟩

/-- Witness of C14: the six events of `sampleABACDE` on the initial manager. -/
theorem history_after_ABACDE_witness :
    ∃ final traces6,
      LeScanManagerImpl.sample.run Externals.sample 7 (sampleABACDE.map Call.OnScanResult) =
        Except.ok (final, traces6) ∧
      (history 3 final.addr_to_scan_results_).map (fun r => r.adv_data) =
        [[0, 5], [0, 4], [0, 3], [0, 1], [0, 2]] :=
  history_after_ABACDE Externals.sample 7 0 [] LeScanManagerImpl.sample [] 3
    [0, 1] [0, 2] [0, 3] [0, 4] [0, 5] sampleABACDE rfl rfl (by decide) rfl

/-- Witness of C15: the payload [5] announces five bytes and has none. -/
theorem OnScanResult_parse_failure_is_discarded_witness :
    newScanResultNotifications (LeScanManagerImpl.sampleWithResults.OnScanResult
      Externals.sample { addr := 4, adv_data := [5], rssi := -30 }).trace = [] ∧
    (LeScanManagerImpl.sampleWithResults.OnScanResult Externals.sample
      { addr := 4, adv_data := [5], rssi := -30 }).trace = [] ∧
    (LeScanManagerImpl.sampleWithResults.OnScanResult Externals.sample
      { addr := 4, adv_data := [5], rssi := -30 }).state = LeScanManagerImpl.sampleWithResults ∧
    (LeScanManagerImpl.sampleWithResults.OnScanResult Externals.sample
      { addr := 4, adv_data := [5], rssi := -30 }).state.addr_to_scan_results_ =
        LeScanManagerImpl.sampleWithResults.addr_to_scan_results_ ∧
    (∀ a, history a (LeScanManagerImpl.sampleWithResults.OnScanResult Externals.sample
        { addr := 4, adv_data := [5], rssi := -30 }).state.addr_to_scan_results_ =
      history a LeScanManagerImpl.sampleWithResults.addr_to_scan_results_) ∧
    hasEntry 4 (LeScanManagerImpl.sampleWithResults.OnScanResult Externals.sample
        { addr := 4, adv_data := [5], rssi := -30 }).state.addr_to_scan_results_ =
      hasEntry 4 LeScanManagerImpl.sampleWithResults.addr_to_scan_results_ :=
  OnScanResult_parse_failure_is_discarded Externals.sample LeScanManagerImpl.sampleWithResults
    { addr := 4, adv_data := [5], rssi := -30 } rfl

/-- Witness of C16: a payload already stored for address 3. -/
theorem OnScanResult_notifies_once_witness :
    newScanResultNotifications (LeScanManagerImpl.sampleWithResults.OnScanResult
        Externals.sample { addr := 3, adv_data := [0, 1], rssi := -30 }).trace =
      [{ addr := 3, adv_data := [0, 1], rssi := -30 }] ∧
    (LeScanManagerImpl.sampleWithResults.OnScanResult Externals.sample
        { addr := 3, adv_data := [0, 1], rssi := -30 }).trace =
      [Event.OnNewScanResult { addr := 3, adv_data := [0, 1], rssi := -30 }] :=
  OnScanResult_notifies_once Externals.sample LeScanManagerImpl.sampleWithResults
    { addr := 3, adv_data := [0, 1], rssi := -30 } [0, 1] rfl

/-- Witness of C17: clearing the store reached by `sampleEvents`. -/
theorem ClearScanResults_clears_store_only_witness :
    ∃ out, LeScanManagerImpl.sampleWithResults.ClearScanResults 7 = Except.ok out ∧
      out.state.addr_to_scan_results_ = [] ∧
      (∀ a, history a out.state.addr_to_scan_results_ = [] ∧
        hasEntry a out.state.addr_to_scan_results_ = false) ∧
      out.state.scan_handle_ids_ = LeScanManagerImpl.sampleWithResults.scan_handle_ids_ ∧
      out.state.next_scan_handle_id_ =
        LeScanManagerImpl.sampleWithResults.next_scan_handle_id_ ∧
      startScanCalls out.trace = 0 ∧ stopScanCalls out.trace = 0 ∧
      enableNotifications out.trace = [] ∧ newScanResultNotifications out.trace = [] ∧
      out.trace = [] ∧ out.posted = [] :=
  ClearScanResults_clears_store_only 7 LeScanManagerImpl.sampleWithResults rfl

/-- Witness of C18: the unfiltered snapshot of the store reached by
`sampleEvents`. -/
theorem GetScanResultsInternal_is_permutation_of_matches_witness :
    ∃ results,
      LeScanManagerImpl.sampleWithResults.GetScanResultsInternal Externals.sample 7 none =
        Except.ok results ∧
      results.Perm ((allResults LeScanManagerImpl.sampleWithResults.addr_to_scan_results_).filter
        (passesFilter none)) ∧
      (∀ r, results.count r =
        ((allResults LeScanManagerImpl.sampleWithResults.addr_to_scan_results_).filter
          (passesFilter none)).count r) ∧
      (∀ r, r ∈ results ↔
        r ∈ allResults LeScanManagerImpl.sampleWithResults.addr_to_scan_results_ ∧
          passesFilter none r = true) :=
  GetScanResultsInternal_is_permutation_of_matches Externals.sample 7
    LeScanManagerImpl.sampleWithResults none sample_StdSortContract rfl

/-- Witness of C19: the stored results have RSSI -80, -40, -60 in the
iteration order of the map. -/
theorem GetScanResultsInternal_sorted_by_rssi_witness :
    (allResults LeScanManagerImpl.sampleWithResults.addr_to_scan_results_).map
        (fun r => r.rssi) = [-80, -40, -60] ∧
    ∃ results,
      LeScanManagerImpl.sampleWithResults.GetScanResultsInternal Externals.sample 7 none =
        Except.ok results ∧
      results.Pairwise (fun d1 d2 => d1.rssi ≥ d2.rssi) ∧
      results.Chain' (fun d1 d2 => d1.rssi ≥ d2.rssi) ∧
      (((allResults LeScanManagerImpl.sampleWithResults.addr_to_scan_results_).filter
          (passesFilter none)).map (fun r => r.rssi) = [-80, -40, -60] →
        results.map (fun r => r.rssi) = [-40, -60, -80]) :=
  ⟨rfl, GetScanResultsInternal_sorted_by_rssi Externals.sample 7
    LeScanManagerImpl.sampleWithResults none sample_StdSortContract rfl⟩

/-- Witness of C20: the filter for address 3 on the store reached by
`sampleEvents`. -/
theorem GetScanResultsInternal_address_filter_witness :
    ∃ results,
      LeScanManagerImpl.sampleWithResults.GetScanResultsInternal Externals.sample 7
          (some { Matches := fun r => decide (r.addr = 3) }) = Except.ok results ∧
      results.Perm (history 3 LeScanManagerImpl.sampleWithResults.addr_to_scan_results_) ∧
      (∀ r, results.count r =
        (history 3 LeScanManagerImpl.sampleWithResults.addr_to_scan_results_).count r) ∧
      results.Pairwise (fun d1 d2 => d1.rssi ≥ d2.rssi) ∧
      (∀ r ∈ results, r.addr = 3) :=
  GetScanResultsInternal_address_filter Externals.sample 7 0 sampleEvents
    LeScanManagerImpl.sampleWithResults _ 3 { Matches := fun r => decide (r.addr = 3) }
    sample_StdSortContract
    (rfl : LeScanManagerImpl.sample.run Externals.sample 7 sampleEvents =
      Except.ok (LeScanManagerImpl.sampleWithResults,
        [[Event.OnNewScanResult { addr := 3, adv_data := [0, 1], rssi := -40 }],
         [Event.OnNewScanResult { addr := 2, adv_data := [0, 2], rssi := -80 }],
         [Event.OnNewScanResult { addr := 5, adv_data := [0, 3], rssi := -60 }]]))
    (fun r => by simp)

end ConcreteStore

/-! ## Deduplication -/

section Deduplication

/-- The updated history starts with the new result, followed by old entries
with another payload, in their old order. -/
theorem updatedHistory_eq_cons (r : LeScanResult Addr) (old : List (LeScanResult Addr)) :
    ∃ t, updatedHistory r old = r :: t ∧
      t.Sublist (old.filter (fun q => !decide (q.adv_data = r.adv_data))) := by
  unfold updatedHistory
  simp only
  split_ifs with hlen
  · have hne : old.filter (fun q => !decide (q.adv_data = r.adv_data)) ≠ [] := by
      intro h
      rw [h] at hlen
      simp [kMaxMessagesInQueue] at hlen
    exact ⟨_, List.dropLast_cons_of_ne_nil hne, List.dropLast_sublist _⟩
  · exact ⟨_, rfl, List.Sublist.refl _⟩

theorem updatedHistory_ne_nil (r : LeScanResult Addr) (old : List (LeScanResult Addr)) :
    updatedHistory r old ≠ [] := by
  obtain ⟨t, ht, -⟩ := updatedHistory_eq_cons r old
  rw [ht]
  exact List.cons_ne_nil _ _

/-- No entry after the first has the payload of the new result. -/
theorem updatedHistory_tail_payload (r : LeScanResult Addr) (old : List (LeScanResult Addr)) :
    ∃ t, updatedHistory r old = r :: t ∧ (∀ q ∈ t, q.adv_data ≠ r.adv_data) ∧ t.Sublist old := by
  obtain ⟨t, ht, hsub⟩ := updatedHistory_eq_cons r old
  refine ⟨t, ht, fun q hq => ?_, hsub.trans (List.filter_sublist _)⟩
  have hmem := (List.mem_filter.mp (hsub.subset hq)).2
  simpa using hmem

theorem updatedHistory_payloads_nodup (r : LeScanResult Addr) {old : List (LeScanResult Addr)}
    (hold : (old.map (fun q => q.adv_data)).Nodup) :
    ((updatedHistory r old).map (fun q => q.adv_data)).Nodup := by
  obtain ⟨t, ht, hne, hsub⟩ := updatedHistory_tail_payload r old
  rw [ht, List.map_cons, List.nodup_cons]
  refine ⟨fun hmem => ?_, (hsub.map _).nodup hold⟩
  obtain ⟨q, hq, hqr⟩ := List.mem_map.mp hmem
  exact hne q hq hqr

/-- Removing the entries with payload `p` from a list with pairwise distinct
payloads that holds such an entry removes exactly one entry. -/
theorem length_filter_payload {l : List (LeScanResult Addr)} {p : Bytes}
    (hnodup : (l.map (fun q => q.adv_data)).Nodup) (hmem : ∃ q ∈ l, q.adv_data = p) :
    (l.filter (fun q => decide (q.adv_data ≠ p))).length + 1 = l.length := by
  induction l with
  | nil =>
    obtain ⟨q, hq, -⟩ := hmem
    cases hq
  | cons x rest ih =>
    rw [List.map_cons, List.nodup_cons] at hnodup
    obtain ⟨hx, hrest⟩ := hnodup
    by_cases hxp : x.adv_data = p
    · have hall : rest.filter (fun q => decide (q.adv_data ≠ p)) = rest := by
        refine List.filter_eq_self.mpr (fun q hq => ?_)
        simp only [ne_eq, decide_not, Bool.not_eq_true', decide_eq_false_iff_not]
        intro hqp
        exact hx (List.mem_map.mpr ⟨q, hq, hqp.trans hxp.symm⟩)
      rw [List.filter_cons_of_neg (by simpa using hxp), hall, List.length_cons]
    · have hmem2 : ∃ q ∈ rest, q.adv_data = p := by
        obtain ⟨q, hq, hqp⟩ := hmem
        rcases List.mem_cons.mp hq with rfl | hq
        · exact absurd hqp hxp
        · exact ⟨q, hq, hqp⟩
      have := ih hrest hmem2
      rw [List.filter_cons_of_pos (by simpa using hxp), List.length_cons, List.length_cons]
      omega

end Deduplication

section DeduplicationInvariants

variable [LinearOrder Addr] (ext : Externals Addr) (cur : ThreadId)

/-- Along every execution from the initial state, the payloads of each stored
list are pairwise distinct and no stored list is empty. -/
theorem reachable_distinct_nonempty {first_id : Int} {calls : List (Call Addr)}
    {final : LeScanManagerImpl Addr} {traces : List (List (Event Addr))}
    (hrun : (LeScanManagerImpl.initial cur first_id).run ext cur calls =
      Except.ok (final, traces)) :
    ∀ p ∈ final.addr_to_scan_results_,
      (p.2.map (fun q => q.adv_data)).Nodup ∧ p.2 ≠ [] := by
  refine run_store_invariant ext cur
    (fun store => ∀ p ∈ store, (p.2.map (fun q => q.adv_data)).Nodup ∧ p.2 ≠ [])
    (fun p hp => absurd hp (List.not_mem_nil p)) (fun store r h => ?_) hrun
    (fun p hp => absurd hp (List.not_mem_nil p))
  refine map_update_forall (fun _ v => (v.map (fun q => q.adv_data)).Nodup ∧ v ≠ []) h ?_
  intro v hv
  refine ⟨updatedHistory_payloads_nodup r ?_, updatedHistory_ne_nil r v⟩
  rcases hv with rfl | hv
  · simp
  · exact (h _ hv).1

/-- C28: in every state reached from the initial state, within each
per-address history no two entries have equal `adv_data`. -/
theorem history_payloads_pairwise_distinct (first_id : Int) (calls : List (Call Addr))
    (final : LeScanManagerImpl Addr) (traces : List (List (Event Addr)))
    (hrun : (LeScanManagerImpl.initial cur first_id).run ext cur calls =
      Except.ok (final, traces)) :
    (∀ p ∈ final.addr_to_scan_results_,
      p.2.Pairwise (fun x y => x.adv_data ≠ y.adv_data)) ∧
    (∀ a, (history a final.addr_to_scan_results_).Pairwise
      (fun x y => x.adv_data ≠ y.adv_data)) := by
  have hinv := reachable_distinct_nonempty ext cur hrun
  have hstore : ∀ p ∈ final.addr_to_scan_results_,
      p.2.Pairwise (fun x y => x.adv_data ≠ y.adv_data) :=
    fun p hp => List.pairwise_map.mp (hinv p hp).1
  refine ⟨hstore, fun a => ?_⟩
  rcases history_nil_or_mem a final.addr_to_scan_results_ with h | h
  · rw [h]; exact List.Pairwise.nil
  · exact hstore _ h

/-- C29: in every state reached from the initial state, every result stored in
`addr_to_scan_results_` under key `a` has `addr` equal to `a`, and every key
present in the map has a non-empty history. -/
theorem stored_under_own_address_and_nonempty (first_id : Int) (calls : List (Call Addr))
    (final : LeScanManagerImpl Addr) (traces : List (List (Event Addr)))
    (hrun : (LeScanManagerImpl.initial cur first_id).run ext cur calls =
      Except.ok (final, traces)) :
    (∀ p ∈ final.addr_to_scan_results_, (∀ r ∈ p.2, r.addr = p.1) ∧ p.2 ≠ []) ∧
    (∀ a, (∀ r ∈ history a final.addr_to_scan_results_, r.addr = a) ∧
      (hasEntry a final.addr_to_scan_results_ = true →
        history a final.addr_to_scan_results_ ≠ [])) := by
  obtain ⟨hord, -, haddr⟩ := reachable_StoreInvariant ext cur hrun
  have hne := reachable_distinct_nonempty ext cur hrun
  refine ⟨fun p hp => ⟨haddr p hp, (hne p hp).2⟩, fun a => ⟨fun r hr => ?_, fun hentry => ?_⟩⟩
  · rcases history_nil_or_mem a final.addr_to_scan_results_ with h | h
    · rw [h] at hr; cases hr
    · exact haddr _ h r hr
  · simp only [hasEntry, List.any_eq_true, decide_eq_true_eq] at hentry
    obtain ⟨p, hp, hpa⟩ := hentry
    obtain ⟨k, v⟩ := p
    simp only at hpa
    subst hpa
    rw [history_of_mem hord hp]
    exact (hne _ hp).2

/-- C22: in every state reached from the initial state, after two consecutive
successfully parsed events for address `a` with the same payload `p` and RSSI
`r1` then `r2`, the history of `a` starts with the result of the second event
(RSSI `r2`), and that is its only entry with payload `p`. -/
theorem same_payload_twice_keeps_last_rssi (first_id : Int) (calls : List (Call Addr))
    (s : LeScanManagerImpl Addr) (traces : List (List (Event Addr)))
    (a : Addr) (raw1 raw2 p : Bytes) (r1 r2 : Int)
    (hrun : (LeScanManagerImpl.initial cur first_id).run ext cur calls = Except.ok (s, traces))
    (hparse1 : ext.SetAdvData raw1 = some p) (hparse2 : ext.SetAdvData raw2 = some p) :
    (history a
        ((s.OnScanResult ext { addr := a, adv_data := raw1, rssi := r1 }).state.OnScanResult ext
          { addr := a, adv_data := raw2, rssi := r2 }).state.addr_to_scan_results_).head? =
      some { addr := a, adv_data := p, rssi := r2 } ∧
    (history a
        ((s.OnScanResult ext { addr := a, adv_data := raw1, rssi := r1 }).state.OnScanResult ext
          { addr := a, adv_data := raw2, rssi := r2 }).state.addr_to_scan_results_).filter
        (fun q => decide (q.adv_data = p)) =
      [{ addr := a, adv_data := p, rssi := r2 }] := by
  obtain ⟨hord, -, -⟩ := reachable_StoreInvariant ext cur hrun
  obtain ⟨-, hord1⟩ := OnScanResult_history ext
    ({ addr := a, adv_data := raw1, rssi := r1 } : LeScanner.ScanResult Addr) hparse1 hord
  obtain ⟨h2, -⟩ := OnScanResult_history ext
    ({ addr := a, adv_data := raw2, rssi := r2 } : LeScanner.ScanResult Addr) hparse2 hord1
  simp only at h2
  rw [h2]
  obtain ⟨t, ht, hne, -⟩ := updatedHistory_tail_payload
    ({ addr := a, adv_data := p, rssi := r2 } : LeScanResult Addr)
    (history a (s.OnScanResult ext
      { addr := a, adv_data := raw1, rssi := r1 }).state.addr_to_scan_results_)
  rw [ht]
  refine ⟨rfl, ?_⟩
  have htail : t.filter (fun q => decide (q.adv_data = p)) = [] :=
    List.filter_eq_nil_iff.mpr (fun q hq => by simpa using hne q hq)
  simp [List.filter_cons, htail]

/-- C30: if, in a state reached from the initial state, the history of the
address of a successfully parsed event already holds an entry with the
event's payload `p`, then `OnScanResult` evicts nothing: the history afterwards
is the new result followed by the old entries with another payload in their
previous order, and its length is unchanged (also when it was 5). -/
theorem repeated_payload_evicts_nothing (first_id : Int) (calls : List (Call Addr))
    (s : LeScanManagerImpl Addr) (traces : List (List (Event Addr)))
    (ev : LeScanner.ScanResult Addr) (p : Bytes)
    (hrun : (LeScanManagerImpl.initial cur first_id).run ext cur calls = Except.ok (s, traces))
    (hparse : ext.SetAdvData ev.adv_data = some p)
    (hcontains : ∃ q ∈ history ev.addr s.addr_to_scan_results_, q.adv_data = p) :
    history ev.addr (s.OnScanResult ext ev).state.addr_to_scan_results_ =
      ({ addr := ev.addr, adv_data := p, rssi := ev.rssi } : LeScanResult Addr) ::
        (history ev.addr s.addr_to_scan_results_).filter (fun q => decide (q.adv_data ≠ p)) ∧
    (history ev.addr (s.OnScanResult ext ev).state.addr_to_scan_results_).length =
      (history ev.addr s.addr_to_scan_results_).length ∧
    ((history ev.addr s.addr_to_scan_results_).filter
      (fun q => decide (q.adv_data ≠ p))).Sublist (history ev.addr s.addr_to_scan_results_) ∧
    (∀ q ∈ history ev.addr s.addr_to_scan_results_, q.adv_data ≠ p →
      q ∈ history ev.addr (s.OnScanResult ext ev).state.addr_to_scan_results_) := by
  obtain ⟨hord, hlen, -⟩ := reachable_StoreInvariant ext cur hrun
  have hdistinct := reachable_distinct_nonempty ext cur hrun
  have hmem : (ev.addr, history ev.addr s.addr_to_scan_results_) ∈ s.addr_to_scan_results_ := by
    rcases history_nil_or_mem ev.addr s.addr_to_scan_results_ with h | h
    · obtain ⟨q, hq, -⟩ := hcontains
      rw [h] at hq
      cases hq
    · exact h
  have hold : (history ev.addr s.addr_to_scan_results_).length ≤ kMaxMessagesInQueue :=
    hlen _ hmem
  have hcount : ((history ev.addr s.addr_to_scan_results_).filter
      (fun q => decide (q.adv_data ≠ p))).length + 1 =
      (history ev.addr s.addr_to_scan_results_).length :=
    length_filter_payload (hdistinct _ hmem).1 hcontains
  have hafter : history ev.addr (s.OnScanResult ext ev).state.addr_to_scan_results_ =
      ({ addr := ev.addr, adv_data := p, rssi := ev.rssi } : LeScanResult Addr) ::
        (history ev.addr s.addr_to_scan_results_).filter (fun q => decide (q.adv_data ≠ p)) := by
    rw [(OnScanResult_history ext ev hparse hord).1, updatedHistory_eq_take _ hold]
    apply List.take_of_length_le
    show (((history ev.addr s.addr_to_scan_results_).filter
      (fun q => decide (q.adv_data ≠ p))).length + 1) ≤ kMaxMessagesInQueue
    omega
  refine ⟨hafter, ?_, List.filter_sublist _, fun q hq hqp => ?_⟩
  · rw [hafter, List.length_cons]
    exact hcount
  · rw [hafter]
    refine List.mem_cons_of_mem _ (List.mem_filter.mpr ⟨hq, ?_⟩)
    simpa using hqp

end DeduplicationInvariants

/-! ## Ties in RSSI -/

section Ties

variable (cur : ThreadId) (s : LeScanManagerImpl Addr)

/-- C21 (as the code behaves): for every sort that obeys the contract of
`std::sort`, the sequence returned by `GetScanResultsInternal` lists results
with different RSSI with the larger RSSI first; any two such sorts return the
same results up to the order of results with equal RSSI, with the same
sequence of RSSI values.  For a fixed sort the output depends only on the
store, the task runner and the filter.  The order of results with equal RSSI
is left to `std::sort`. -/
theorem GetScanResultsInternal_determined_up_to_ties (ext1 ext2 : Externals Addr)
    (scan_filter : Option (ScanFilter Addr))
    (hsort1 : ext1.StdSortContract) (hsort2 : ext2.StdSortContract)
    (hthread : s.io_task_runner_ = some cur) :
    ∃ results1 results2,
      s.GetScanResultsInternal ext1 cur scan_filter = Except.ok results1 ∧
      s.GetScanResultsInternal ext2 cur scan_filter = Except.ok results2 ∧
      results1.Perm results2 ∧
      results1.map (fun r => r.rssi) = results2.map (fun r => r.rssi) ∧
      results1.Pairwise (fun d1 d2 => d1.rssi ≠ d2.rssi → d1.rssi > d2.rssi) ∧
      (∀ other : LeScanManagerImpl Addr,
        other.addr_to_scan_results_ = s.addr_to_scan_results_ →
        other.io_task_runner_ = s.io_task_runner_ →
        other.GetScanResultsInternal ext1 cur scan_filter = Except.ok results1) := by
  rw [GetScanResultsInternal_on_thread ext1 cur s scan_filter hthread,
    GetScanResultsInternal_on_thread ext2 cur s scan_filter hthread]
  obtain ⟨hperm1, hsorted1⟩ := hsort1 (fun d1 d2 => decide (d1.rssi > d2.rssi))
    ((allResults s.addr_to_scan_results_).filter (passesFilter scan_filter))
    rssi_greater_strictWeakOrdering
  obtain ⟨hperm2, hsorted2⟩ := hsort2 (fun d1 d2 => decide (d1.rssi > d2.rssi))
    ((allResults s.addr_to_scan_results_).filter (passesFilter scan_filter))
    rssi_greater_strictWeakOrdering
  have hge : ∀ {l : List (LeScanResult Addr)},
      l.Pairwise (fun a b => decide (b.rssi > a.rssi) = false) →
      l.Pairwise (fun d1 d2 => d1.rssi ≥ d2.rssi) := by
    intro l hl
    refine hl.imp ?_
    intro a b hab
    simp only [gt_iff_lt, decide_eq_false_iff_not, not_lt] at hab
    exact hab
  refine ⟨_, _, rfl, rfl, hperm1.trans hperm2.symm, ?_, ?_, ?_⟩
  · exact List.eq_of_perm_of_sorted ((hperm1.trans hperm2.symm).map (fun r => r.rssi))
      (List.pairwise_map.mpr (hge hsorted1) : List.Sorted (· ≥ ·) _)
      (List.pairwise_map.mpr (hge hsorted2) : List.Sorted (· ≥ ·) _)
  · refine (hge hsorted1).imp ?_
    intro a b hab hne
    exact lt_of_le_of_ne hab (fun h => hne h.symm)
  · intro other hstore hrunner
    rw [GetScanResultsInternal_on_thread ext1 cur other scan_filter (hrunner.trans hthread),
      hstore]

end Ties

/-! ## Thread confinement -/

section ThreadConfinement

variable (ext : Externals Addr) (cur : ThreadId) (s : LeScanManagerImpl Addr)

/-- C23, the code at the failing input: the manager `sample` runs on thread 7;
`OnScanResult` called from thread 8 with a well-formed event posts nothing and
has already stored the result. -/
theorem OnScanResult_mutates_store_off_thread :
    LeScanManagerImpl.sample.io_task_runner_ = some 7 ∧
    ∃ out, LeScanManagerImpl.sample.call Externals.sample 8
        (Call.OnScanResult { addr := 3, adv_data := [0, 1], rssi := -40 }) = Except.ok out ∧
      out.posted.length = 0 ∧
      LeScanManagerImpl.sample.addr_to_scan_results_ = [] ∧
      out.state.addr_to_scan_results_ =
        [(3, [{ addr := 3, adv_data := [0, 1], rssi := -40 }])] :=
  ⟨rfl, _, rfl, rfl, rfl, rfl⟩

end ThreadConfinement

/-! ## Release after the manager is gone -/

section WeakRelease

variable (cur : ThreadId)

/-- C25: destroying a handle posts the closure bound to its identifier; when
that closure runs after the manager has been destroyed (the weak pointer does
not resolve), `NotifyScanHandleDestroyed` is not executed, no effect is
performed (no driver call, no notification) and there is no manager state to
mutate.  While the manager is alive the same closure executes
`NotifyScanHandleDestroyed` for the identifier of the handle. -/
theorem release_after_manager_destroyed_is_noop (StopScan : Bool) (handle : ScanHandleImpl) :
    (∃ out, runOnDestroyed cur StopScan handle.destroy.2
        (none : Option (LeScanManagerImpl Addr)) = Except.ok out ∧
      out.executed = false ∧ out.manager = none ∧ out.trace = [] ∧
      startScanCalls out.trace = 0 ∧ stopScanCalls out.trace = 0 ∧
      enableNotifications out.trace = []) ∧
    (∀ manager : LeScanManagerImpl Addr, manager.io_task_runner_ = some cur →
      handle.id ∈ manager.scan_handle_ids_ →
      ∃ out notified, runOnDestroyed cur StopScan handle.destroy.2 (some manager) =
          Except.ok out ∧
        manager.NotifyScanHandleDestroyed cur StopScan handle.id = Except.ok notified ∧
        out.executed = true ∧ out.manager = some notified.state ∧
        out.trace = notified.trace) := by
  refine ⟨⟨_, rfl, rfl, rfl, rfl, rfl, rfl, rfl⟩, fun manager hthread hlive => ?_⟩
  obtain ⟨notified, hcall⟩ :
      ∃ notified, manager.NotifyScanHandleDestroyed cur StopScan handle.id =
        Except.ok notified :=
    ⟨_, NotifyScanHandleDestroyed_on_thread cur manager StopScan handle.id hthread hlive⟩
  refine ⟨{ manager := some notified.state, executed := true, trace := notified.trace },
    notified, ?_, hcall, rfl, rfl, rfl⟩
  simp only [runOnDestroyed, ScanHandleImpl.destroy, hcall]

end WeakRelease

/-! ## The sequence of scan-enable notifications -/

section EnableNotifications

theorem enableNotifications_append (a b : List (Event Addr)) :
    enableNotifications (a ++ b) = enableNotifications a ++ enableNotifications b := by
  induction a with
  | nil => rfl
  | cons e t ih =>
    cases e <;> simp [enableNotifications, ih]

variable [LinearOrder Addr] (ext : Externals Addr) (cur : ThreadId)

/-- What one successful call contributes to the scan-enable notifications, by
the emptiness of the handle set before and after it. -/
theorem call_notifications {c : Call Addr} {s : LeScanManagerImpl Addr} {out : Outcome Addr}
    (h : s.call ext cur c = Except.ok out) :
    (enableNotifications out.trace = [] ∧ Event.StopScan false ∉ out.trace ∧
      (out.state.scan_handle_ids_ = ∅ ↔ s.scan_handle_ids_ = ∅)) ∨
    (s.scan_handle_ids_ = ∅ ∧ out.state.scan_handle_ids_ ≠ ∅ ∧
      enableNotifications out.trace = [true] ∧ Event.StopScan false ∉ out.trace) ∨
    (s.scan_handle_ids_ ≠ ∅ ∧ out.state.scan_handle_ids_ = ∅ ∧
      enableNotifications out.trace = [false] ∧ Event.StopScan false ∉ out.trace) ∨
    (s.scan_handle_ids_ ≠ ∅ ∧ out.state.scan_handle_ids_ = ∅ ∧
      enableNotifications out.trace = [] ∧ Event.StopScan false ∈ out.trace) := by
  cases c with
  | RequestScan cb StartScan =>
    simp only [LeScanManagerImpl.call] at h
    cases hr : s.io_task_runner_ with
    | none => simp [LeScanManagerImpl.RequestScan, hr] at h
    | some runner =>
      by_cases hcur : runner = cur
      · subst hcur
        rw [RequestScan_on_thread runner s StartScan cb hr] at h
        by_cases hempty : s.scan_handle_ids_ = ∅ <;> cases StartScan <;>
          simp [hempty] at h <;> subst h <;> simp [enableNotifications, hempty]
      · simp [LeScanManagerImpl.RequestScan, hr, hcur] at h
        subst h
        simp [enableNotifications]
  | NotifyScanHandleDestroyed id StopScan =>
    simp only [LeScanManagerImpl.call] at h
    cases hr : s.io_task_runner_ with
    | none => simp [LeScanManagerImpl.NotifyScanHandleDestroyed, hr] at h
    | some runner =>
      by_cases hcur : runner = cur
      · subst hcur
        by_cases hlive : id ∈ s.scan_handle_ids_
        · rw [NotifyScanHandleDestroyed_on_thread runner s StopScan id hr hlive] at h
          have hs : s.scan_handle_ids_ ≠ ∅ := Finset.ne_empty_of_mem hlive
          by_cases hlast : s.scan_handle_ids_.erase id = ∅ <;> cases StopScan <;>
            simp [hlast] at h <;> subst h <;> simp [enableNotifications, hlast, hs]
        · simp [LeScanManagerImpl.NotifyScanHandleDestroyed, hr, hlive] at h
      · simp [LeScanManagerImpl.NotifyScanHandleDestroyed, hr, hcur] at h
  | OnScanResult r =>
    simp only [LeScanManagerImpl.call, Except.ok.injEq] at h
    subst h
    left
    unfold LeScanManagerImpl.OnScanResult
    cases ext.SetAdvData r.adv_data <;> simp [enableNotifications]
  | ClearScanResults =>
    simp only [LeScanManagerImpl.call] at h
    cases hr : s.io_task_runner_ with
    | none => simp [LeScanManagerImpl.ClearScanResults, hr] at h
    | some runner =>
      left
      by_cases hcur : runner = cur <;>
        simp [LeScanManagerImpl.ClearScanResults, hr, hcur] at h <;> subst h <;>
        simp [enableNotifications]
  | GetScanResults cb scan_filter =>
    simp only [LeScanManagerImpl.call] at h
    cases hr : s.io_task_runner_ with
    | none => simp [LeScanManagerImpl.GetScanResults, hr] at h
    | some runner =>
      left
      by_cases hcur : runner = cur <;>
        simp [LeScanManagerImpl.GetScanResults, LeScanManagerImpl.GetScanResultsInternal, hr,
          hcur] at h <;> subst h <;>
        simp [enableNotifications]

/-- Along an execution, with the emptiness of the handle set at its start
standing for the notification before the first one: a `false` notification
never follows `false`, and if no `StopScan` call fails every notification
differs from the one before it. -/
theorem run_notifications {calls : List (Call Addr)} {s final : LeScanManagerImpl Addr}
    {traces : List (List (Event Addr))}
    (h : s.run ext cur calls = Except.ok (final, traces)) :
    List.Chain (fun a b => ¬ (a = false ∧ b = false)) (decide (s.scan_handle_ids_ ≠ ∅))
      (enableNotifications traces.flatten) ∧
    (stopScanNeverFails traces.flatten →
      List.Chain (· ≠ ·) (decide (s.scan_handle_ids_ ≠ ∅))
        (enableNotifications traces.flatten)) := by
  induction calls generalizing s traces with
  | nil =>
    simp only [run_nil, Except.ok.injEq, Prod.mk.injEq] at h
    obtain ⟨-, rfl⟩ := h
    exact ⟨List.Chain.nil, fun _ => List.Chain.nil⟩
  | cons c cs ih =>
    obtain ⟨out, rest, hc, hr, rfl⟩ := run_cons_ok ext cur h
    obtain ⟨ih1, ih2⟩ := ih hr
    rw [List.flatten_cons, enableNotifications_append]
    unfold stopScanNeverFails at ih2 ⊢
    rw [List.mem_append, not_or]
    rcases call_notifications ext cur hc with
      ⟨hnone, -, hsame⟩ | ⟨hbefore, hafter, hone, -⟩ | ⟨hbefore, hafter, hone, -⟩ |
      ⟨hbefore, hafter, hnone, hfail⟩
    · have hprev : decide (out.state.scan_handle_ids_ ≠ ∅) = decide (s.scan_handle_ids_ ≠ ∅) := by
        simp only [ne_eq, hsame]
      rw [hnone, List.nil_append, ← hprev]
      exact ⟨ih1, fun hstop => ih2 hstop.2⟩
    · have hb : decide (s.scan_handle_ids_ ≠ ∅) = false := by simp [hbefore]
      have ha : decide (out.state.scan_handle_ids_ ≠ ∅) = true := by simp [hafter]
      rw [hone, hb, List.singleton_append]
      rw [ha] at ih1 ih2
      exact ⟨List.Chain.cons (by simp) ih1, fun hstop => List.Chain.cons (by simp) (ih2 hstop.2)⟩
    · have hb : decide (s.scan_handle_ids_ ≠ ∅) = true := by simp [hbefore]
      have ha : decide (out.state.scan_handle_ids_ ≠ ∅) = false := by simp [hafter]
      rw [hone, hb, List.singleton_append]
      rw [ha] at ih1 ih2
      exact ⟨List.Chain.cons (by simp) ih1, fun hstop => List.Chain.cons (by simp) (ih2 hstop.2)⟩
    · have hb : decide (s.scan_handle_ids_ ≠ ∅) = true := by simp [hbefore]
      rw [hnone, hb, List.nil_append]
      refine ⟨?_, fun hstop => absurd hfail hstop.1⟩
      cases hl : enableNotifications rest.flatten with
      | nil => exact List.Chain.nil
      | cons b l =>
        rw [hl] at ih1
        exact List.Chain.cons (by simp) (List.chain_cons.mp ih1).2

/-- C26 (as the code behaves): in every execution from the initial state, with
the driver free to fail any `StartScan` or `StopScan` call, the sequence of
`OnScanEnableChanged` notifications starts with `true` (if it is not empty) and
never has two consecutive `false`; when no `StopScan` call of the execution
failed, it alternates strictly: no two consecutive notifications carry the
same value. -/
theorem enable_notifications_alternate (first_id : Int) (calls : List (Call Addr))
    (final : LeScanManagerImpl Addr) (traces : List (List (Event Addr)))
    (hrun : (LeScanManagerImpl.initial cur first_id).run ext cur calls =
      Except.ok (final, traces)) :
    (enableNotifications traces.flatten).head? ≠ some false ∧
    (enableNotifications traces.flatten).Chain' (fun a b => ¬ (a = false ∧ b = false)) ∧
    (stopScanNeverFails traces.flatten →
      (enableNotifications traces.flatten).Chain' (· ≠ ·)) := by
  obtain ⟨h1, h2⟩ := run_notifications ext cur hrun
  have hinit : decide ((LeScanManagerImpl.initial cur first_id :
      LeScanManagerImpl Addr).scan_handle_ids_ ≠ ∅) = false := by
    simp [LeScanManagerImpl.initial, LeScanManagerImpl.Initialize, LeScanManagerImpl.new]
  rw [hinit] at h1 h2
  refine ⟨?_, ?_, fun hstop => ?_⟩
  · cases hl : enableNotifications traces.flatten with
    | nil => simp
    | cons b l =>
      rw [hl] at h1
      have := (List.chain_cons.mp h1).1
      simp only [true_and] at this
      simpa using this
  · exact (List.chain'_cons'.mp (show List.Chain' _ (false :: _) from h1)).2
  · exact (List.chain'_cons'.mp (show List.Chain' _ (false :: _) from h2 hstop)).2

end EnableNotifications

/-! ## Releases of issued handles never fail the assertion -/

section ReleaseDiscipline

variable [LinearOrder Addr] (ext : Externals Addr) (cur : ThreadId)

/-- On the IO thread every call returns normally, provided a release is for a
live identifier. -/
theorem call_ok_on_thread (c : Call Addr) (s : LeScanManagerImpl Addr)
    (hthread : s.io_task_runner_ = some cur)
    (hlive : ∀ id StopScan, c = Call.NotifyScanHandleDestroyed id StopScan →
      id ∈ s.scan_handle_ids_) :
    ∃ out, s.call ext cur c = Except.ok out := by
  cases c with
  | RequestScan cb StartScan =>
    simp only [LeScanManagerImpl.call]
    rw [RequestScan_on_thread cur s StartScan cb hthread]
    split_ifs <;> exact ⟨_, rfl⟩
  | NotifyScanHandleDestroyed id StopScan =>
    exact ⟨_, NotifyScanHandleDestroyed_on_thread cur s StopScan id hthread
      (hlive id StopScan rfl)⟩
  | OnScanResult r => exact ⟨_, rfl⟩
  | ClearScanResults =>
    simp [LeScanManagerImpl.call, LeScanManagerImpl.ClearScanResults, hthread]
  | GetScanResults cb scan_filter =>
    simp [LeScanManagerImpl.call, LeScanManagerImpl.GetScanResults,
      LeScanManagerImpl.GetScanResultsInternal, hthread]

/-- The effect of one successful call on the handle set, by the kind of the
call: a release erases its identifier, which was live and issues nothing; any
other call keeps the set, or adds the identifier it issues. -/
theorem call_handles {c : Call Addr} {s : LeScanManagerImpl Addr} {out : Outcome Addr}
    (h : s.call ext cur c = Except.ok out) :
    (∀ id StopScan, c = Call.NotifyScanHandleDestroyed id StopScan →
      id ∈ s.scan_handle_ids_ ∧ out.state.scan_handle_ids_ = s.scan_handle_ids_.erase id ∧
      issuedHandles out.trace = []) ∧
    ((∀ id StopScan, c ≠ Call.NotifyScanHandleDestroyed id StopScan) →
      (out.state.scan_handle_ids_ = s.scan_handle_ids_ ∧ issuedHandles out.trace = []) ∨
      (out.state.scan_handle_ids_ = insert s.next_scan_handle_id_ s.scan_handle_ids_ ∧
        issuedHandles out.trace = [s.next_scan_handle_id_])) := by
  cases c with
  | NotifyScanHandleDestroyed id StopScan =>
    refine ⟨fun id2 StopScan2 heq => ?_, fun hne => absurd rfl (hne id StopScan)⟩
    cases heq
    simp only [LeScanManagerImpl.call] at h
    cases hr : s.io_task_runner_ with
    | none => simp [LeScanManagerImpl.NotifyScanHandleDestroyed, hr] at h
    | some runner =>
      by_cases hcur : runner = cur
      · subst hcur
        by_cases hlive : id ∈ s.scan_handle_ids_
        · rw [NotifyScanHandleDestroyed_on_thread runner s StopScan id hr hlive] at h
          cases h
          refine ⟨hlive, rfl, ?_⟩
          by_cases hlast : s.scan_handle_ids_.erase id = ∅ <;> cases StopScan <;>
            simp [hlast, issuedHandles]
        · simp [LeScanManagerImpl.NotifyScanHandleDestroyed, hr, hlive] at h
      · simp [LeScanManagerImpl.NotifyScanHandleDestroyed, hr, hcur] at h
  | RequestScan cb StartScan =>
    refine ⟨fun id StopScan heq => (by cases heq), fun _ => ?_⟩
    simp only [LeScanManagerImpl.call] at h
    cases hr : s.io_task_runner_ with
    | none => simp [LeScanManagerImpl.RequestScan, hr] at h
    | some runner =>
      by_cases hcur : runner = cur
      · subst hcur
        rw [RequestScan_on_thread runner s StartScan cb hr] at h
        by_cases hempty : s.scan_handle_ids_ = ∅ <;> cases StartScan <;>
          simp [hempty] at h <;> subst h <;> simp [issuedHandles, hempty]
      · simp [LeScanManagerImpl.RequestScan, hr, hcur] at h
        subst h
        simp [issuedHandles]
  | OnScanResult r =>
    refine ⟨fun id StopScan heq => (by cases heq), fun _ => Or.inl ?_⟩
    simp only [LeScanManagerImpl.call, Except.ok.injEq] at h
    subst h
    unfold LeScanManagerImpl.OnScanResult
    cases ext.SetAdvData r.adv_data <;> simp [issuedHandles]
  | ClearScanResults =>
    refine ⟨fun id StopScan heq => (by cases heq), fun _ => Or.inl ?_⟩
    simp only [LeScanManagerImpl.call] at h
    cases hr : s.io_task_runner_ with
    | none => simp [LeScanManagerImpl.ClearScanResults, hr] at h
    | some runner =>
      by_cases hcur : runner = cur <;>
        simp [LeScanManagerImpl.ClearScanResults, hr, hcur] at h <;> subst h <;>
        simp [issuedHandles]
  | GetScanResults cb scan_filter =>
    refine ⟨fun id StopScan heq => (by cases heq), fun _ => Or.inl ?_⟩
    simp only [LeScanManagerImpl.call] at h
    cases hr : s.io_task_runner_ with
    | none => simp [LeScanManagerImpl.GetScanResults, hr] at h
    | some runner =>
      by_cases hcur : runner = cur <;>
        simp [LeScanManagerImpl.GetScanResults, LeScanManagerImpl.GetScanResultsInternal, hr,
          hcur] at h <;> subst h <;>
        simp [issuedHandles]

/-- An execution on the IO thread that releases only issued, not yet released
identifiers returns normally, given that every identifier issued and not
released so far is live at its start. -/
theorem run_ok_of_discipline (calls : List (Call Addr)) (s : LeScanManagerImpl Addr)
    (issued released : List Int) (hthread : s.io_task_runner_ = some cur)
    (hinv : ∀ id ∈ issued, id ∉ released → id ∈ s.scan_handle_ids_)
    (hdisc : releasesIssuedOnce ext cur calls s issued released = true) :
    ∃ final traces, s.run ext cur calls = Except.ok (final, traces) := by
  induction calls generalizing s issued released with
  | nil => exact ⟨s, [], rfl⟩
  | cons c cs ih =>
    simp only [releasesIssuedOnce, Bool.and_eq_true] at hdisc
    obtain ⟨hfirst, hrest⟩ := hdisc
    have hlive : ∀ id StopScan, c = Call.NotifyScanHandleDestroyed id StopScan →
        id ∈ s.scan_handle_ids_ := by
      intro id StopScan hc
      subst hc
      simp only [Bool.and_eq_true, decide_eq_true_eq, Bool.not_eq_true',
        decide_eq_false_iff_not] at hfirst
      exact hinv id hfirst.1 hfirst.2
    obtain ⟨out, hcall⟩ := call_ok_on_thread ext cur c s hthread hlive
    rw [hcall] at hrest
    simp only at hrest
    have hthread2 : out.state.io_task_runner_ = some cur := by
      rw [(call_ids ext cur hcall).1]; exact hthread
    obtain ⟨hrelease, hother⟩ := call_handles ext cur hcall
    have hnext : ∃ final traces, out.state.run ext cur cs = Except.ok (final, traces) := by
      cases c
      case NotifyScanHandleDestroyed id StopScan =>
        obtain ⟨-, hset, hissued⟩ := hrelease id StopScan rfl
        refine ih out.state _ _ hthread2 ?_ hrest
        intro x hx hnot
        rw [hissued, List.append_nil] at hx
        rw [List.mem_cons, not_or] at hnot
        rw [hset]
        exact Finset.mem_erase.mpr ⟨hnot.1, hinv x hx hnot.2⟩
      all_goals
        refine ih out.state _ _ hthread2 ?_ hrest
        intro x hx hnot
        rcases hother (fun id StopScan hc => by cases hc) with
          ⟨hset, hissued⟩ | ⟨hset, hissued⟩
        · rw [hissued, List.append_nil] at hx
          rw [hset]
          exact hinv x hx hnot
        · rw [hissued, List.mem_append, List.mem_singleton] at hx
          rw [hset]
          rcases hx with hx | hx
          · exact Finset.mem_insert_of_mem (hinv x hx hnot)
          · rw [hx]
            exact Finset.mem_insert_self _ _
    obtain ⟨final, traces, hrun⟩ := hnext
    exact ⟨final, _, run_cons_of_ok ext cur hcall hrun⟩

/-- C27: an execution from the initial state in which every release is for an
identifier issued earlier by a successful `RequestScan` and not released
before returns normally, whatever the interleaving of the calls and whatever
the driver returns: no release fails `DCHECK_EQ(num_removed, 1u)`, that is, at
every release the identifier is still in `scan_handle_ids_`. -/
theorem releases_of_issued_handles_never_fail (first_id : Int) (calls : List (Call Addr))
    (hdisc : releasesIssuedOnce ext cur calls (LeScanManagerImpl.initial cur first_id) [] [] =
      true) :
    (∃ final traces, (LeScanManagerImpl.initial cur first_id).run ext cur calls =
      Except.ok (final, traces)) ∧
    (LeScanManagerImpl.initial cur first_id).run ext cur calls ≠
      Except.error Fatal.DCHECK_EQ_num_removed := by
  obtain ⟨final, traces, hrun⟩ := run_ok_of_discipline ext cur calls
    (LeScanManagerImpl.initial cur first_id) [] [] rfl
    (fun id hid => absurd hid (List.not_mem_nil id)) hdisc
  refine ⟨⟨final, traces, hrun⟩, ?_⟩
  rw [hrun]
  simp

end ReleaseDiscipline

/-! ## Ties in RSSI under the sort of libstdc++ -/

section LibstdcxxTies

set_option maxRecDepth 100000

/-- The store reached by `sampleTieEvents`: two results of equal RSSI come out
in the order of the flattening, 2 and then 3 (a vector of at most 16 elements
only goes through the insertion sort). -/
theorem two_ties_keep_their_order :
    LeScanManagerImpl.sampleTies.GetScanResultsInternal Externals.sample 7 none =
      Except.ok [{ addr := 2, adv_data := [0, 1], rssi := -40 },
                 { addr := 3, adv_data := [0, 2], rssi := -40 }] := rfl

/-- C21, refuted as stated: `Externals.sample`, whose sort is `std::sort` as
implemented in libstdc++, obeys the contract of `std::sort`.  In the store
reached by `sampleSeventeenTieEvents` the seventeen results have the same RSSI
and are flattened in the order of their addresses, 1 to 17;
`GetScanResultsInternal` returns them in the order 9, 17, 16, 15, 14, 13, 12,
11, 10, 1, 8, 7, 6, 5, 4, 3, 2: the result of address 1 precedes that of
address 9 in the flattening and follows it in the output. -/
theorem equal_rssi_results_reordered :
    Externals.sample.StdSortContract ∧
    LeScanManagerImpl.sample.run Externals.sample 7 sampleSeventeenTieEvents =
      Except.ok (LeScanManagerImpl.sampleSeventeenTies,
        (List.range 17).map (fun k => [Event.OnNewScanResult (tieResult (k + 1))])) ∧
    allResults LeScanManagerImpl.sampleSeventeenTies.addr_to_scan_results_ =
      [1, 2, 3, 4, 5, 6, 7, 8, 9, 10, 11, 12, 13, 14, 15, 16, 17].map tieResult ∧
    (∀ r ∈ allResults LeScanManagerImpl.sampleSeventeenTies.addr_to_scan_results_,
      r.rssi = -50) ∧
    LeScanManagerImpl.sampleSeventeenTies.GetScanResultsInternal Externals.sample 7 none =
      Except.ok ([9, 17, 16, 15, 14, 13, 12, 11, 10, 1, 8, 7, 6, 5, 4, 3, 2].map tieResult) ∧
    List.Sublist [tieResult 1, tieResult 9]
      ([1, 2, 3, 4, 5, 6, 7, 8, 9, 10, 11, 12, 13, 14, 15, 16, 17].map tieResult) ∧
    ¬ List.Sublist [tieResult 1, tieResult 9]
      ([9, 17, 16, 15, 14, 13, 12, 11, 10, 1, 8, 7, 6, 5, 4, 3, 2].map tieResult) :=
  ⟨sample_StdSortContract, rfl, rfl, by decide, rfl, by decide, by decide⟩

end LibstdcxxTies

/-! ## The later theorems at concrete inputs -/

section ConcreteLater

/-- The execution of `sampleEvents` from `sample`. -/
theorem sample_run_sampleEvents :
    LeScanManagerImpl.sample.run Externals.sample 7 sampleEvents =
      Except.ok (LeScanManagerImpl.sampleWithResults,
        [[Event.OnNewScanResult { addr := 3, adv_data := [0, 1], rssi := -40 }],
         [Event.OnNewScanResult { addr := 2, adv_data := [0, 2], rssi := -80 }],
         [Event.OnNewScanResult { addr := 5, adv_data := [0, 3], rssi := -60 }]]) := rfl

/-- Witness of C21: the store with two results of equal RSSI. -/
theorem GetScanResultsInternal_determined_up_to_ties_witness :
    ∃ results1 results2,
      LeScanManagerImpl.sampleTies.GetScanResultsInternal Externals.sample 7 none =
        Except.ok results1 ∧
      LeScanManagerImpl.sampleTies.GetScanResultsInternal Externals.sample 7 none =
        Except.ok results2 ∧
      results1.Perm results2 ∧
      results1.map (fun r => r.rssi) = results2.map (fun r => r.rssi) ∧
      results1.Pairwise (fun d1 d2 => d1.rssi ≠ d2.rssi → d1.rssi > d2.rssi) ∧
      (∀ other : LeScanManagerImpl Nat,
        other.addr_to_scan_results_ = LeScanManagerImpl.sampleTies.addr_to_scan_results_ →
        other.io_task_runner_ = LeScanManagerImpl.sampleTies.io_task_runner_ →
        other.GetScanResultsInternal Externals.sample 7 none = Except.ok results1) :=
  GetScanResultsInternal_determined_up_to_ties 7 LeScanManagerImpl.sampleTies Externals.sample
    Externals.sample none sample_StdSortContract sample_StdSortContract rfl

/-- Witness of C22: the payload [0, 7] twice for address 3, with RSSI -10 and
then -20. -/
theorem same_payload_twice_keeps_last_rssi_witness :
    (history 3
        ((LeScanManagerImpl.sampleWithResults.OnScanResult Externals.sample
          { addr := 3, adv_data := [0, 7], rssi := -10 }).state.OnScanResult Externals.sample
          { addr := 3, adv_data := [0, 7], rssi := -20 }).state.addr_to_scan_results_).head? =
      some { addr := 3, adv_data := [0, 7], rssi := -20 } ∧
    (history 3
        ((LeScanManagerImpl.sampleWithResults.OnScanResult Externals.sample
          { addr := 3, adv_data := [0, 7], rssi := -10 }).state.OnScanResult Externals.sample
          { addr := 3, adv_data := [0, 7], rssi := -20 }).state.addr_to_scan_results_).filter
        (fun q => decide (q.adv_data = [0, 7])) =
      [{ addr := 3, adv_data := [0, 7], rssi := -20 }] :=
  same_payload_twice_keeps_last_rssi Externals.sample 7 0 sampleEvents
    LeScanManagerImpl.sampleWithResults _ 3 [0, 7] [0, 7] [0, 7] (-10) (-20)
    sample_run_sampleEvents rfl rfl

/-- Witness of C25: the handle with identifier 0, released while the manager
is gone and while it is alive. -/
theorem release_after_manager_destroyed_is_noop_witness :
    (∃ out, runOnDestroyed 7 true (ScanHandleImpl.new 7 0).destroy.2
        (none : Option (LeScanManagerImpl Nat)) = Except.ok out ∧
      out.executed = false ∧ out.manager = none ∧ out.trace = [] ∧
      startScanCalls out.trace = 0 ∧ stopScanCalls out.trace = 0 ∧
      enableNotifications out.trace = []) ∧
    (∃ out notified, runOnDestroyed 7 true (ScanHandleImpl.new 7 0).destroy.2
          (some LeScanManagerImpl.sampleScanning) = Except.ok out ∧
        LeScanManagerImpl.sampleScanning.NotifyScanHandleDestroyed 7 true
          (ScanHandleImpl.new 7 0).id = Except.ok notified ∧
        out.executed = true ∧ out.manager = some notified.state ∧
        out.trace = notified.trace) :=
  ⟨(release_after_manager_destroyed_is_noop 7 true (ScanHandleImpl.new 7 0)).1,
   (release_after_manager_destroyed_is_noop 7 true (ScanHandleImpl.new 7 0)).2
     LeScanManagerImpl.sampleScanning rfl (by decide)⟩

/-- C26, refuted as stated: a request, the release of its handle with
`StopScan` returning false, and a second request notify
`OnScanEnableChanged(true)` twice in a row. -/
theorem enable_notified_true_twice :
    LeScanManagerImpl.sample.run Externals.sample 7
        [Call.RequestScan (Callback.mk 1) true, Call.NotifyScanHandleDestroyed 0 false,
         Call.RequestScan (Callback.mk 2) true] =
      Except.ok
        ({ io_task_runner_ := some 7, scan_handle_ids_ := {1}, next_scan_handle_id_ := 2,
           addr_to_scan_results_ := [] },
         [[Event.StartScan true, Event.OnScanEnableChanged true,
           Event.RunRequestScanCallback (Callback.mk 1) (some 0)],
          [Event.StopScan false, Event.LogError "Failed to disable scanning"],
          [Event.StartScan true, Event.OnScanEnableChanged true,
           Event.RunRequestScanCallback (Callback.mk 2) (some 1)]]) ∧
    enableNotifications
        ([Event.StartScan true, Event.OnScanEnableChanged true,
          Event.RunRequestScanCallback (Callback.mk 1) (some 0),
          Event.StopScan false, Event.LogError "Failed to disable scanning",
          Event.StartScan true, Event.OnScanEnableChanged true,
          Event.RunRequestScanCallback (Callback.mk 2) (some 1)] : List (Event Nat)) =
      [true, true] ∧
    ¬ ([true, true] : List Bool).Chain' (· ≠ ·) :=
  ⟨rfl, rfl, by simp⟩

/-- Witness of C26: a request, the release of its handle with `StopScan`
returning true, and a second request. -/
theorem enable_notifications_alternate_witness :
    enableNotifications (List.flatten
        ([[Event.StartScan true, Event.OnScanEnableChanged true,
           Event.RunRequestScanCallback (Callback.mk 1) (some 0)],
          [Event.StopScan true, Event.OnScanEnableChanged false],
          [Event.StartScan true, Event.OnScanEnableChanged true,
           Event.RunRequestScanCallback (Callback.mk 2) (some 1)]] :
          List (List (Event Nat)))) = [true, false, true] ∧
    (enableNotifications (List.flatten
        ([[Event.StartScan true, Event.OnScanEnableChanged true,
           Event.RunRequestScanCallback (Callback.mk 1) (some 0)],
          [Event.StopScan true, Event.OnScanEnableChanged false],
          [Event.StartScan true, Event.OnScanEnableChanged true,
           Event.RunRequestScanCallback (Callback.mk 2) (some 1)]] :
          List (List (Event Nat))))).head? ≠ some false :=
  ⟨rfl,
   (enable_notifications_alternate Externals.sample 7 0
    [Call.RequestScan (Callback.mk 1) true, Call.NotifyScanHandleDestroyed 0 true,
     Call.RequestScan (Callback.mk 2) true]
    { io_task_runner_ := some 7, scan_handle_ids_ := {1}, next_scan_handle_id_ := 2,
      addr_to_scan_results_ := [] }
    _ rfl).1⟩

/-- Witness of C27: two requests, then the two handles released in the other
order around a `ClearScanResults`. -/
theorem releases_of_issued_handles_never_fail_witness :
    (∃ final traces, (LeScanManagerImpl.initial 7 0 : LeScanManagerImpl Nat).run
        Externals.sample 7
        [Call.RequestScan (Callback.mk 1) true, Call.RequestScan (Callback.mk 2) true,
         Call.NotifyScanHandleDestroyed 1 false, Call.ClearScanResults,
         Call.NotifyScanHandleDestroyed 0 false] = Except.ok (final, traces)) ∧
    (LeScanManagerImpl.initial 7 0 : LeScanManagerImpl Nat).run Externals.sample 7
        [Call.RequestScan (Callback.mk 1) true, Call.RequestScan (Callback.mk 2) true,
         Call.NotifyScanHandleDestroyed 1 false, Call.ClearScanResults,
         Call.NotifyScanHandleDestroyed 0 false] ≠
      Except.error Fatal.DCHECK_EQ_num_removed :=
  releases_of_issued_handles_never_fail Externals.sample 7 0
    [Call.RequestScan (Callback.mk 1) true, Call.RequestScan (Callback.mk 2) true,
     Call.NotifyScanHandleDestroyed 1 false, Call.ClearScanResults,
     Call.NotifyScanHandleDestroyed 0 false] rfl

/-- Witness of C28: the store reached by `sampleEvents`. -/
theorem history_payloads_pairwise_distinct_witness :
    (∀ p ∈ LeScanManagerImpl.sampleWithResults.addr_to_scan_results_,
      p.2.Pairwise (fun x y => x.adv_data ≠ y.adv_data)) ∧
    (∀ a, (history a LeScanManagerImpl.sampleWithResults.addr_to_scan_results_).Pairwise
      (fun x y => x.adv_data ≠ y.adv_data)) :=
  history_payloads_pairwise_distinct Externals.sample 7 0 sampleEvents
    LeScanManagerImpl.sampleWithResults _ sample_run_sampleEvents

/-- Witness of C29: the store reached by `sampleEvents`. -/
theorem stored_under_own_address_and_nonempty_witness :
    (∀ p ∈ LeScanManagerImpl.sampleWithResults.addr_to_scan_results_,
      (∀ r ∈ p.2, r.addr = p.1) ∧ p.2 ≠ []) ∧
    (∀ a, (∀ r ∈ history a LeScanManagerImpl.sampleWithResults.addr_to_scan_results_,
        r.addr = a) ∧
      (hasEntry a LeScanManagerImpl.sampleWithResults.addr_to_scan_results_ = true →
        history a LeScanManagerImpl.sampleWithResults.addr_to_scan_results_ ≠ [])) :=
  stored_under_own_address_and_nonempty Externals.sample 7 0 sampleEvents
    LeScanManagerImpl.sampleWithResults _ sample_run_sampleEvents

/-- Witness of C30: the payload [0, 1] again for address 3, whose history
holds it. -/
theorem repeated_payload_evicts_nothing_witness :
    history 3 (LeScanManagerImpl.sampleWithResults.OnScanResult Externals.sample
        { addr := 3, adv_data := [0, 1], rssi := -30 }).state.addr_to_scan_results_ =
      ({ addr := 3, adv_data := [0, 1], rssi := -30 } : LeScanResult Nat) ::
        (history 3 LeScanManagerImpl.sampleWithResults.addr_to_scan_results_).filter
          (fun q => decide (q.adv_data ≠ [0, 1])) ∧
    (history 3 (LeScanManagerImpl.sampleWithResults.OnScanResult Externals.sample
        { addr := 3, adv_data := [0, 1], rssi := -30 }).state.addr_to_scan_results_).length =
      (history 3 LeScanManagerImpl.sampleWithResults.addr_to_scan_results_).length ∧
    ((history 3 LeScanManagerImpl.sampleWithResults.addr_to_scan_results_).filter
      (fun q => decide (q.adv_data ≠ [0, 1]))).Sublist
        (history 3 LeScanManagerImpl.sampleWithResults.addr_to_scan_results_) ∧
    (∀ q ∈ history 3 LeScanManagerImpl.sampleWithResults.addr_to_scan_results_,
      q.adv_data ≠ [0, 1] →
      q ∈ history 3 (LeScanManagerImpl.sampleWithResults.OnScanResult Externals.sample
        { addr := 3, adv_data := [0, 1], rssi := -30 }).state.addr_to_scan_results_) :=
  repeated_payload_evicts_nothing Externals.sample 7 0 sampleEvents
    LeScanManagerImpl.sampleWithResults _ { addr := 3, adv_data := [0, 1], rssi := -30 } [0, 1]
    sample_run_sampleEvents rfl
    ⟨{ addr := 3, adv_data := [0, 1], rssi := -40 }, List.mem_cons_self _ _, rfl⟩

end ConcreteLater

/-! ## Frame properties -/

section Frames

variable [LinearOrder Addr] (ext : Externals Addr) (cur : ThreadId) (s : LeScanManagerImpl Addr)

/-- C31: a successfully parsed `OnScanResult` for address `ev.addr` leaves the
history (and the presence of an entry) of every other address unchanged, and
leaves `scan_handle_ids_`, `next_scan_handle_id_` and the task runner
unchanged. -/
theorem OnScanResult_touches_one_history (ev : LeScanner.ScanResult Addr) (adv_data : Bytes)
    (hparse : ext.SetAdvData ev.adv_data = some adv_data) :
    (∀ b, b ≠ ev.addr →
      history b (s.OnScanResult ext ev).state.addr_to_scan_results_ =
        history b s.addr_to_scan_results_) ∧
    (s.OnScanResult ext ev).state.scan_handle_ids_ = s.scan_handle_ids_ ∧
    (s.OnScanResult ext ev).state.next_scan_handle_id_ = s.next_scan_handle_id_ ∧
    (s.OnScanResult ext ev).state.io_task_runner_ = s.io_task_runner_ := by
  rw [OnScanResult_of_parse_success ext s ev adv_data hparse]
  exact ⟨fun b hb => history_map_update_other hb _ _, rfl, rfl, rfl⟩

end Frames

section HandleFrames

variable (ext : Externals Addr) (cur : ThreadId) (s : LeScanManagerImpl Addr)

/-- A snapshot depends only on the store and the task runner. -/
theorem GetScanResultsInternal_congr (other : LeScanManagerImpl Addr)
    (scan_filter : Option (ScanFilter Addr))
    (hstore : other.addr_to_scan_results_ = s.addr_to_scan_results_)
    (hrunner : other.io_task_runner_ = s.io_task_runner_) :
    other.GetScanResultsInternal ext cur scan_filter =
      s.GetScanResultsInternal ext cur scan_filter := by
  simp only [LeScanManagerImpl.GetScanResultsInternal, hstore, hrunner]

/-- C32: on the IO thread, `RequestScan` (whether it delivers a handle or
`StartScan` fails) and `NotifyScanHandleDestroyed` of a live identifier return
with the result store unchanged: `addr_to_scan_results_` is the same map, so
every per-address history is the same, and `GetScanResultsInternal` gives the
same value after the call as before, for every filter. -/
theorem handle_calls_keep_store [DecidableEq Addr] (hthread : s.io_task_runner_ = some cur) :
    (∀ StartScan cb, ∃ out, s.RequestScan cur StartScan cb = Except.ok out ∧
      out.state.addr_to_scan_results_ = s.addr_to_scan_results_ ∧
      (∀ a, history a out.state.addr_to_scan_results_ = history a s.addr_to_scan_results_) ∧
      (∀ scan_filter, out.state.GetScanResultsInternal ext cur scan_filter =
        s.GetScanResultsInternal ext cur scan_filter)) ∧
    (∀ StopScan id, id ∈ s.scan_handle_ids_ →
      ∃ out, s.NotifyScanHandleDestroyed cur StopScan id = Except.ok out ∧
        out.state.addr_to_scan_results_ = s.addr_to_scan_results_ ∧
        (∀ a, history a out.state.addr_to_scan_results_ =
          history a s.addr_to_scan_results_) ∧
        (∀ scan_filter, out.state.GetScanResultsInternal ext cur scan_filter =
          s.GetScanResultsInternal ext cur scan_filter)) := by
  constructor
  · intro StartScan cb
    rw [RequestScan_on_thread cur s StartScan cb hthread]
    by_cases hfail : s.scan_handle_ids_ = ∅ ∧ StartScan = false
    · rw [if_pos hfail]
      exact ⟨_, rfl, rfl, fun _ => rfl, fun _ => rfl⟩
    · rw [if_neg hfail]
      exact ⟨_, rfl, rfl, fun _ => rfl,
        fun scan_filter => GetScanResultsInternal_congr ext cur s _ scan_filter rfl rfl⟩
  · intro StopScan id hlive
    rw [NotifyScanHandleDestroyed_on_thread cur s StopScan id hthread hlive]
    exact ⟨_, rfl, rfl, fun _ => rfl,
      fun scan_filter => GetScanResultsInternal_congr ext cur s _ scan_filter rfl rfl⟩

/-- C33: `GetScanResults` on the IO thread returns the manager unchanged (store,
`scan_handle_ids_`, `next_scan_handle_id_`), calls neither `StartScan` nor
`StopScan`, issues no notification, posts nothing, and its only effect is one
invocation of the reply callback, with the value of `GetScanResultsInternal`
for the given filter. -/
theorem GetScanResults_is_read_only (cb : Callback) (scan_filter : Option (ScanFilter Addr))
    (hthread : s.io_task_runner_ = some cur) :
    ∃ out results,
      s.GetScanResults ext cur cb scan_filter = Except.ok out ∧
      s.GetScanResultsInternal ext cur scan_filter = Except.ok results ∧
      out.state = s ∧
      out.state.addr_to_scan_results_ = s.addr_to_scan_results_ ∧
      out.state.scan_handle_ids_ = s.scan_handle_ids_ ∧
      out.state.next_scan_handle_id_ = s.next_scan_handle_id_ ∧
      startScanCalls out.trace = 0 ∧ stopScanCalls out.trace = 0 ∧
      enableNotifications out.trace = [] ∧ newScanResultNotifications out.trace = [] ∧
      getScanResultsReplies out.trace = [(cb, results)] ∧
      out.trace = [Event.RunGetScanResultsCallback cb results] ∧
      out.posted = [] := by
  have hinternal := GetScanResultsInternal_on_thread ext cur s scan_filter hthread
  have hget : s.GetScanResults ext cur cb scan_filter =
      Except.ok
        { state := s,
          trace := [Event.RunGetScanResultsCallback cb
            (ext.std_sort (fun d1 d2 => decide (d1.rssi > d2.rssi))
              ((allResults s.addr_to_scan_results_).filter (passesFilter scan_filter)))],
          posted := [] } := by
    simp only [LeScanManagerImpl.GetScanResults, hthread, ne_eq, not_true_eq_false,
      if_false, hinternal]
  exact ⟨_, _, hget, hinternal, rfl, rfl, rfl, rfl, rfl, rfl, rfl, rfl, rfl, rfl, rfl⟩

end HandleFrames

/-! ## Live identifiers and the counter -/

section Counter

variable [LinearOrder Addr] (ext : Externals Addr) (cur : ThreadId)

/-- C34: in every state reached from the initial state before the `int32_t`
counter overflows, every identifier in `scan_handle_ids_` is at least the first
value of the counter (hence non-negative when the counter starts at a
non-negative value) and strictly less than `next_scan_handle_id_`; so the
counter is not in the set, and the identifier a following `RequestScan` issues
is the counter and is fresh. -/
theorem live_identifiers_below_counter (first_id : Int) (calls : List (Call Addr))
    (final : LeScanManagerImpl Addr) (traces : List (List (Event Addr)))
    (hlo : -2147483648 ≤ first_id) (hhi : first_id < 2147483648)
    (hrun : (LeScanManagerImpl.initial cur first_id).run ext cur calls =
      Except.ok (final, traces))
    (hcount : first_id + (issuedHandles traces.flatten).length < 2147483648) :
    (∀ id ∈ final.scan_handle_ids_, first_id ≤ id ∧ id < final.next_scan_handle_id_) ∧
    (0 ≤ first_id → ∀ id ∈ final.scan_handle_ids_, 0 ≤ id) ∧
    final.next_scan_handle_id_ ∉ final.scan_handle_ids_ ∧
    (∀ StartScan cb, ∃ out, final.RequestScan cur StartScan cb = Except.ok out ∧
      ∀ id ∈ issuedHandles out.trace,
        id = final.next_scan_handle_id_ ∧ id ∉ final.scan_handle_ids_) := by
  obtain ⟨-, -, hset, hnext, hthread⟩ := run_ids ext cur hrun hlo hhi (le_of_lt hcount)
  have hfirst : (LeScanManagerImpl.initial cur first_id :
      LeScanManagerImpl Addr).next_scan_handle_id_ = first_id := rfl
  rw [hfirst] at hset hnext
  have hnext1 : final.next_scan_handle_id_ =
      first_id + (issuedHandles traces.flatten).length := by
    rw [hnext]
    exact int32_wrap_eq_self (by omega) hcount
  have hbound : ∀ id ∈ final.scan_handle_ids_,
      first_id ≤ id ∧ id < final.next_scan_handle_id_ := by
    intro id hid
    rcases hset id hid with hold | hnew
    · exact absurd hold (Finset.not_mem_empty _)
    · rw [hnext1]
      exact hnew
  have hfresh : final.next_scan_handle_id_ ∉ final.scan_handle_ids_ :=
    fun hmem => lt_irrefl _ (hbound _ hmem).2
  refine ⟨hbound, fun hpos id hid => le_trans hpos (hbound id hid).1, hfresh, ?_⟩
  intro StartScan cb
  have hthread1 : final.io_task_runner_ = some cur := by rw [hthread]; rfl
  rw [RequestScan_on_thread cur final StartScan cb hthread1]
  by_cases hfail : final.scan_handle_ids_ = ∅ ∧ StartScan = false
  · rw [if_pos hfail]
    exact ⟨_, rfl, fun id hid => by simp [issuedHandles] at hid⟩
  · rw [if_neg hfail]
    refine ⟨_, rfl, fun id hid => ?_⟩
    have hid2 : id = final.next_scan_handle_id_ := by
      by_cases hempty : final.scan_handle_ids_ = ∅ <;>
        simpa [hempty, issuedHandles] using hid
    exact ⟨hid2, hid2 ▸ hfresh⟩

end Counter

/-! ## The frame theorems at concrete inputs -/

section ConcreteFrames

/-- Witness of C31: a new payload for address 3 in the store reached by
`sampleEvents`. -/
theorem OnScanResult_touches_one_history_witness :
    (∀ b, b ≠ 3 →
      history b (LeScanManagerImpl.sampleWithResults.OnScanResult Externals.sample
          { addr := 3, adv_data := [0, 9], rssi := -30 }).state.addr_to_scan_results_ =
        history b LeScanManagerImpl.sampleWithResults.addr_to_scan_results_) ∧
    (LeScanManagerImpl.sampleWithResults.OnScanResult Externals.sample
        { addr := 3, adv_data := [0, 9], rssi := -30 }).state.scan_handle_ids_ =
      LeScanManagerImpl.sampleWithResults.scan_handle_ids_ ∧
    (LeScanManagerImpl.sampleWithResults.OnScanResult Externals.sample
        { addr := 3, adv_data := [0, 9], rssi := -30 }).state.next_scan_handle_id_ =
      LeScanManagerImpl.sampleWithResults.next_scan_handle_id_ ∧
    (LeScanManagerImpl.sampleWithResults.OnScanResult Externals.sample
        { addr := 3, adv_data := [0, 9], rssi := -30 }).state.io_task_runner_ =
      LeScanManagerImpl.sampleWithResults.io_task_runner_ :=
  OnScanResult_touches_one_history Externals.sample LeScanManagerImpl.sampleWithResults
    { addr := 3, adv_data := [0, 9], rssi := -30 } [0, 9] rfl

/-- Witness of C32: requests and the release of handle 0 on a manager with one
live handle. -/
theorem handle_calls_keep_store_witness :
    (∀ StartScan cb, ∃ out,
      LeScanManagerImpl.sampleScanning.RequestScan 7 StartScan cb = Except.ok out ∧
      out.state.addr_to_scan_results_ =
        LeScanManagerImpl.sampleScanning.addr_to_scan_results_ ∧
      (∀ a, history a out.state.addr_to_scan_results_ =
        history a LeScanManagerImpl.sampleScanning.addr_to_scan_results_) ∧
      (∀ scan_filter, out.state.GetScanResultsInternal Externals.sample 7 scan_filter =
        LeScanManagerImpl.sampleScanning.GetScanResultsInternal Externals.sample 7
          scan_filter)) ∧
    (∀ StopScan id, id ∈ LeScanManagerImpl.sampleScanning.scan_handle_ids_ →
      ∃ out, LeScanManagerImpl.sampleScanning.NotifyScanHandleDestroyed 7 StopScan id =
          Except.ok out ∧
        out.state.addr_to_scan_results_ =
          LeScanManagerImpl.sampleScanning.addr_to_scan_results_ ∧
        (∀ a, history a out.state.addr_to_scan_results_ =
          history a LeScanManagerImpl.sampleScanning.addr_to_scan_results_) ∧
        (∀ scan_filter, out.state.GetScanResultsInternal Externals.sample 7 scan_filter =
          LeScanManagerImpl.sampleScanning.GetScanResultsInternal Externals.sample 7
            scan_filter)) :=
  handle_calls_keep_store Externals.sample 7 LeScanManagerImpl.sampleScanning rfl

/-- Witness of C33: an unfiltered query on the store reached by
`sampleEvents`. -/
theorem GetScanResults_is_read_only_witness :
    ∃ out results,
      LeScanManagerImpl.sampleWithResults.GetScanResults Externals.sample 7 (Callback.mk 1)
        none = Except.ok out ∧
      LeScanManagerImpl.sampleWithResults.GetScanResultsInternal Externals.sample 7 none =
        Except.ok results ∧
      out.state = LeScanManagerImpl.sampleWithResults ∧
      out.state.addr_to_scan_results_ =
        LeScanManagerImpl.sampleWithResults.addr_to_scan_results_ ∧
      out.state.scan_handle_ids_ = LeScanManagerImpl.sampleWithResults.scan_handle_ids_ ∧
      out.state.next_scan_handle_id_ =
        LeScanManagerImpl.sampleWithResults.next_scan_handle_id_ ∧
      startScanCalls out.trace = 0 ∧ stopScanCalls out.trace = 0 ∧
      enableNotifications out.trace = [] ∧ newScanResultNotifications out.trace = [] ∧
      getScanResultsReplies out.trace = [(Callback.mk 1, results)] ∧
      out.trace = [Event.RunGetScanResultsCallback (Callback.mk 1) results] ∧
      out.posted = [] :=
  GetScanResults_is_read_only Externals.sample 7 LeScanManagerImpl.sampleWithResults
    (Callback.mk 1) none rfl

/-- Witness of C34: two requests and the release of handle 0 from the initial
state with counter 0; handle 1 is live and the counter is 2. -/
theorem live_identifiers_below_counter_witness :
    (∀ id ∈ ({1} : Finset Int), (0 : Int) ≤ id ∧ id < 2) ∧
    ((0 : Int) ≤ 0 → ∀ id ∈ ({1} : Finset Int), 0 ≤ id) ∧
    (2 : Int) ∉ ({1} : Finset Int) ∧
    (∀ StartScan cb, ∃ out,
      ({ io_task_runner_ := some 7, scan_handle_ids_ := {1}, next_scan_handle_id_ := 2,
         addr_to_scan_results_ := [] } : LeScanManagerImpl Nat).RequestScan 7 StartScan cb =
        Except.ok out ∧
      ∀ id ∈ issuedHandles out.trace, id = 2 ∧ id ∉ ({1} : Finset Int)) :=
  live_identifiers_below_counter Externals.sample 7 0
    [Call.RequestScan (Callback.mk 1) true, Call.RequestScan (Callback.mk 2) true,
     Call.NotifyScanHandleDestroyed 0 true]
    { io_task_runner_ := some 7, scan_handle_ids_ := {1}, next_scan_handle_id_ := 2,
      addr_to_scan_results_ := [] }
    [[Event.StartScan true, Event.OnScanEnableChanged true,
      Event.RunRequestScanCallback (Callback.mk 1) (some 0)],
     [Event.RunRequestScanCallback (Callback.mk 2) (some 1)],
     []]
    (by decide) (by decide) rfl (by decide)

end ConcreteFrames

end chromecast.bluetooth
